import Mathlib

/-!
# Poker hand frequencies

A shallow embedding of the hand classification that `PokerHandsMPI::processSlave`
(PokerHandsMPI.cpp) and `PokerHandsSerial::drawHands` / `PokerHandsMPI::processSerial`
run on every drawn hand, of the deck and its shuffle, of the serial draw loop, of the
messages between the workers (`processSlave`) and the coordinator (`processMaster`), and of
the runs of the coordinator and the workers together, with the properties of them that the
specification states.

Cards are C++ `int`s, so they are `Int` here and `%`, `/` are the truncating
operations of C++ (`Int.tmod`, `Int.tdiv`).  The array `int hand[5]` is a list; a
read `hand[i]` is `cardAt hand i`.
-/

namespace PokerHands

/-! ## Data model -/

/-- The ten hand types counted in `frequencyMap`. -/
inductive Category where
  | RoyalFlush
  | StraightFlush
  | FourOfAKind
  | FullHouse
  | Flush
  | Straight
  | ThreeOfAKind
  | TwoPair
  | OnePair
  | NoPair
  deriving DecidableEq, Repr

/-- The expression `c % 13` of the source (C++ remainder, truncating toward zero). -/
def rankOf (c : Int) : Int := Int.tmod c 13

/-- The expression `c / 13` of the source (C++ division, truncating toward zero). -/
def suitOf (c : Int) : Int := Int.tdiv c 13

/-- The read `hand[i]` of the array `int hand[5]`. -/
def cardAt (hand : List Int) (i : Nat) : Int := hand.getD i 0

/-- The comparator `sort_cards(a, b)`: `a % 13 < b % 13`. -/
def sort_cards (a b : Int) : Bool := decide (rankOf a < rankOf b)

/-- One insertion step of the sort: `x` goes in front of the first card that
`sort_cards` places after it. -/
def insertCard (x : Int) : List Int → List Int
  | [] => [x]
  | y :: ys => if sort_cards x y then x :: y :: ys else y :: insertCard x ys

/-- The call `sort(hand, hand + 5, sort_cards)`: on five elements the library sort is
an insertion sort that takes the cards from left to right. -/
def sortHand (hand : List Int) : List Int :=
  hand.foldl (fun acc x => insertCard x acc) []

/-- The flush loop `for (i = 0; i < 5; ++i) if (hand[0] / 13 != hand[i] / 13) isFlush = false;`
run on the hand as drawn, starting from `isFlush = true`. -/
def flushTest (hand : List Int) : Bool :=
  (List.range 5).foldl
    (fun isFlush i =>
      if suitOf (cardAt hand 0) ≠ suitOf (cardAt hand i) then false else isFlush)
    true

/-- The five flags set by the group scan. -/
structure GroupFlags where
  isPair : Bool
  isTriple : Bool
  isTwoPair : Bool
  isFullHouse : Bool
  isQuadruple : Bool
  deriving DecidableEq, Repr

/-- All flags as initialised at the top of the loop body. -/
def noGroups : GroupFlags := ⟨false, false, false, false, false⟩

/-- The body run when a run of equal ranks ends: the chain on `j - i`. -/
def markRun (f : GroupFlags) (len : Nat) : GroupFlags :=
  if len = 2 then
    if f.isPair then { f with isTwoPair := true }
    else if f.isTriple then { f with isFullHouse := true }
    else { f with isPair := true }
  else if len = 3 then
    if f.isPair then { f with isFullHouse := true }
    else { f with isTriple := true }
  else if len = 4 then { f with isQuadruple := true }
  else f

/-- The inner loop `for (j = i + 1; j <= 5; ++j)`: the `j` at which it breaks, that is
the first `j` with `j == 5 || comp != hand[j] % 13`.  `none` when the loop leaves its
bound (or the fuel ends) without breaking. -/
def runEnd (hand : List Int) (comp : Int) : Nat → Nat → Option Nat
  | 0, _ => none
  | fuel + 1, j =>
    if j ≤ 5 then
      if j = 5 ∨ comp ≠ rankOf (cardAt hand j) then some j
      else runEnd hand comp fuel (j + 1)
    else none

/-- The outer loop `for (int i = 0; i < 4;)` of the group scan from index `i` with flags
`f`; every pass sets `i` to the end of the run (`i += j - i`). -/
def groupLoop (hand : List Int) : Nat → Nat → GroupFlags → Option GroupFlags
  | 0, _, _ => none
  | fuel + 1, i, f =>
    if i < 4 then
      match runEnd hand (rankOf (cardAt hand i)) 6 (i + 1) with
      | none => none
      | some j => groupLoop hand fuel j (markRun f (j - i))
    else some f

/-- The group scan, guarded by `if (!isFlush)`. -/
def groupScan (isFlush : Bool) (hand : List Int) : Option GroupFlags :=
  if !isFlush then groupLoop hand 5 0 noGroups else some noGroups

/-- The loop `for (i = 1; i < 5; ++i) if (hand[0] % 13 != (hand[i] - i) % 13)
{ isStraight = false; break; }` over the indices still to visit; the result is the
value of `isStraight`, which starts as `true`. -/
def straightLoop (hand : List Int) : List Nat → Bool
  | [] => true
  | i :: rest =>
    if rankOf (cardAt hand 0) ≠ Int.tmod (cardAt hand i - (i : Int)) 13 then false
    else straightLoop hand rest

/-- Everything the classification chain looks at. -/
structure HandFlags where
  groups : GroupFlags
  isRoyal : Bool
  isStraight : Bool
  isFlush : Bool
  deriving DecidableEq, Repr

/-- The straight test on the sorted hand.  It is entered only when no group flag is
set; otherwise `isStraight` keeps its initial `true` and `isRoyal` its `false`. -/
def straightTest (isFlush : Bool) (hand : List Int) (g : GroupFlags) : HandFlags :=
  if !(g.isPair || g.isTwoPair || g.isTriple || g.isFullHouse || g.isQuadruple) then
    let isStraight := straightLoop hand [1, 2, 3, 4]
    if rankOf (cardAt hand 0) = 0 ∧ rankOf (cardAt hand 1) = 9 then
      ⟨g, true, true, isFlush⟩
    else ⟨g, false, isStraight, isFlush⟩
  else ⟨g, false, true, isFlush⟩

/-- The analysis of a sorted hand, given the flush flag computed before the sort. -/
def analyseSorted (isFlush : Bool) (sorted : List Int) : Option HandFlags :=
  (groupScan isFlush sorted).map (straightTest isFlush sorted)

/-- The analysis of a drawn hand: flush test, sort, group scan, straight test. -/
def analyse (hand : List Int) : Option HandFlags :=
  analyseSorted (flushTest hand) (sortHand hand)

/-- The chain of `if`/`else if` in `processSlave` that picks the counter to increment. -/
def resolveSlave (h : HandFlags) : Category :=
  if h.groups.isFullHouse then .FullHouse
  else if h.groups.isTwoPair then .TwoPair
  else if h.groups.isQuadruple then .FourOfAKind
  else if h.groups.isTriple then .ThreeOfAKind
  else if h.groups.isPair then .OnePair
  else if h.isRoyal && h.isFlush then .RoyalFlush
  else if h.isStraight && h.isFlush then .StraightFlush
  else if h.isStraight then .Straight
  else if h.isFlush then .Flush
  else .NoPair

/-- The chain of `if`/`else if` in `drawHands` and `processSerial`. -/
def resolveSerial (h : HandFlags) : Category :=
  if h.groups.isFullHouse then .FullHouse
  else if h.groups.isTwoPair then .TwoPair
  else if h.groups.isTriple then .ThreeOfAKind
  else if h.groups.isPair then .OnePair
  else if h.groups.isQuadruple then .FourOfAKind
  else if h.isRoyal && h.isFlush then .RoyalFlush
  else if h.isStraight && h.isFlush then .StraightFlush
  else if h.isStraight then .Straight
  else if h.isFlush then .Flush
  else .NoPair

/-- The category `processSlave` counts for a drawn hand. -/
def processSlave_classify (hand : List Int) : Option Category :=
  (analyse hand).map resolveSlave

/-- The category `drawHands` (and `processSerial`) counts for a drawn hand. -/
def drawHands_classify (hand : List Int) : Option Category :=
  (analyse hand).map resolveSerial

/-! ## The vocabulary of the specification -/

/-- Ordered by rank: what `sort` with `sort_cards` guarantees of the range it sorted. -/
def RankSorted (l : List Int) : Prop := l.Pairwise (fun a b => rankOf a ≤ rankOf b)

/-- A hand the draw can produce: five pairwise distinct cards of one deck.  The deck
holds the identifiers `1..52` in the source (`setUpDeck`) and `0..51` in the
specification's data model; both numberings are covered. -/
def DrawnHand (hand : List Int) : Prop :=
  hand.length = 5 ∧ hand.Nodup ∧
    ((∀ c ∈ hand, 0 ≤ c ∧ c < 52) ∨ (∀ c ∈ hand, 1 ≤ c ∧ c ≤ 52))

/-- The ranks (`id mod 13`) of the cards of a hand, in hand order. -/
def ranksOf (hand : List Int) : List Int := hand.map rankOf

/-- The number of cards of the hand that have rank `r`. -/
def rankCount (hand : List Int) (r : Int) : Nat := (ranksOf hand).count r

/-- All cards of the hand have the same suit (`id div 13`). -/
def SameSuit (hand : List Int) : Prop := ∀ c ∈ hand, ∀ d ∈ hand, suitOf c = suitOf d

/-- The ranks of the hand are pairwise distinct. -/
def DistinctRanks (hand : List Int) : Prop := (ranksOf hand).Nodup

/-- The ranks of the hand are exactly Ace, Ten, Jack, Queen, King: `0, 9, 10, 11, 12`. -/
def AceHighRanks (hand : List Int) : Prop := (ranksOf hand).Perm [0, 9, 10, 11, 12]

/-- The ranks of the hand, sorted, are the five consecutive values `r, r+1, ..., r+4`. -/
def ConsecutiveFrom (hand : List Int) (r : Int) : Prop :=
  (ranksOf hand).Perm [r, r + 1, r + 2, r + 3, r + 4]

/-- The ranks of the hand, sorted, are five consecutive values. -/
def ConsecutiveRanks (hand : List Int) : Prop := ∃ r, ConsecutiveFrom hand r

/-- Royal flush: one suit, ranks exactly `{0, 9, 10, 11, 12}`. -/
def IsRoyalFlush (hand : List Int) : Prop := SameSuit hand ∧ AceHighRanks hand

/-- Straight flush: one suit, ranks `r..r+4` with `0 ≤ r ≤ 8`. -/
def IsStraightFlush (hand : List Int) : Prop :=
  SameSuit hand ∧ ∃ r, 0 ≤ r ∧ r ≤ 8 ∧ ConsecutiveFrom hand r

/-- Four of a kind: four of the five cards have the same rank. -/
def IsFourOfAKind (hand : List Int) : Prop := ∃ a, rankCount hand a = 4

/-- Full house: three cards share one rank and the other two share a second rank. -/
def IsFullHouse (hand : List Int) : Prop :=
  ∃ a b, a ≠ b ∧ rankCount hand a = 3 ∧ rankCount hand b = 2

/-- Flush: one suit, ranks neither consecutive nor the Ace-high set. -/
def IsFlush (hand : List Int) : Prop :=
  SameSuit hand ∧ ¬ConsecutiveRanks hand ∧ ¬AceHighRanks hand

/-- Straight: not one suit, pairwise distinct ranks that are consecutive or the Ace-high
set. -/
def IsStraight (hand : List Int) : Prop :=
  ¬SameSuit hand ∧ DistinctRanks hand ∧ (ConsecutiveRanks hand ∨ AceHighRanks hand)

/-- Three of a kind: exactly three cards share a rank, the two others have two further,
different ranks. -/
def IsThreeOfAKind (hand : List Int) : Prop :=
  ∃ a, rankCount hand a = 3 ∧ ∀ b, b ≠ a → rankCount hand b ≤ 1

/-- Two pair: two different ranks held by exactly two cards each, and a fifth card of a
third rank. -/
def IsTwoPair (hand : List Int) : Prop :=
  ∃ a b c, a ≠ b ∧ c ≠ a ∧ c ≠ b ∧
    rankCount hand a = 2 ∧ rankCount hand b = 2 ∧ rankCount hand c = 1

/-- One pair: exactly two cards share a rank, the three others have ranks distinct from
it and from each other. -/
def IsOnePair (hand : List Int) : Prop :=
  ∃ a, rankCount hand a = 2 ∧ ∀ b, b ≠ a → rankCount hand b ≤ 1

/-- No pair: pairwise distinct ranks, not one suit, ranks neither consecutive nor the
Ace-high set. -/
def IsNoPair (hand : List Int) : Prop :=
  DistinctRanks hand ∧ ¬SameSuit hand ∧ ¬ConsecutiveRanks hand ∧ ¬AceHighRanks hand

/-- Wrap-around rank sets: J-Q-K-A-2, Q-K-A-2-3 and K-A-2-3-4. -/
def WrapAroundRanks (hand : List Int) : Prop :=
  (ranksOf hand).Perm [10, 11, 12, 0, 1] ∨ (ranksOf hand).Perm [11, 12, 0, 1, 2] ∨
    (ranksOf hand).Perm [12, 0, 1, 2, 3]

instance (hand : List Int) : Decidable (DrawnHand hand) := by
  unfold DrawnHand; infer_instance

/-- The category that the shape of the sorted ranks `r0 ≤ r1 ≤ r2 ≤ r3 ≤ r4` and the
flush flag decide: for each of the ten categories, the shapes that are counted as it. -/
def ShapeTable (fl : Bool) (r0 r1 r2 r3 r4 : Int) (cat : Category) : Prop :=
  (cat = .RoyalFlush ↔
    fl = true ∧ r0 = 0 ∧ r1 = 9 ∧ r2 = 10 ∧ r3 = 11 ∧ r4 = 12) ∧
  (cat = .StraightFlush ↔
    fl = true ∧ r1 = r0 + 1 ∧ r2 = r0 + 2 ∧ r3 = r0 + 3 ∧ r4 = r0 + 4) ∧
  (cat = .FourOfAKind ↔ (r0 = r3 ∧ r3 < r4) ∨ (r0 < r1 ∧ r1 = r4)) ∧
  (cat = .FullHouse ↔ (r0 = r2 ∧ r2 < r3 ∧ r3 = r4) ∨ (r0 = r1 ∧ r1 < r2 ∧ r2 = r4)) ∧
  (cat = .Flush ↔
    fl = true ∧ ¬(r1 = r0 + 1 ∧ r2 = r0 + 2 ∧ r3 = r0 + 3 ∧ r4 = r0 + 4) ∧
      ¬(r0 = 0 ∧ r1 = 9 ∧ r2 = 10 ∧ r3 = 11 ∧ r4 = 12)) ∧
  (cat = .Straight ↔
    fl = false ∧ (r0 < r1 ∧ r1 < r2 ∧ r2 < r3 ∧ r3 < r4) ∧
      ((r1 = r0 + 1 ∧ r2 = r0 + 2 ∧ r3 = r0 + 3 ∧ r4 = r0 + 4) ∨
        (r0 = 0 ∧ r1 = 9 ∧ r2 = 10 ∧ r3 = 11 ∧ r4 = 12))) ∧
  (cat = .ThreeOfAKind ↔
    (r0 = r2 ∧ r2 < r3 ∧ r3 < r4) ∨ (r0 < r1 ∧ r1 = r3 ∧ r3 < r4) ∨
      (r0 < r1 ∧ r1 < r2 ∧ r2 = r4)) ∧
  (cat = .TwoPair ↔
    (r0 = r1 ∧ r1 < r2 ∧ r2 = r3 ∧ r3 < r4) ∨ (r0 = r1 ∧ r1 < r2 ∧ r2 < r3 ∧ r3 = r4) ∨
      (r0 < r1 ∧ r1 = r2 ∧ r2 < r3 ∧ r3 = r4)) ∧
  (cat = .OnePair ↔
    (r0 = r1 ∧ r1 < r2 ∧ r2 < r3 ∧ r3 < r4) ∨ (r0 < r1 ∧ r1 = r2 ∧ r2 < r3 ∧ r3 < r4) ∨
      (r0 < r1 ∧ r1 < r2 ∧ r2 = r3 ∧ r3 < r4) ∨ (r0 < r1 ∧ r1 < r2 ∧ r2 < r3 ∧ r3 = r4)) ∧
  (cat = .NoPair ↔
    fl = false ∧ (r0 < r1 ∧ r1 < r2 ∧ r2 < r3 ∧ r3 < r4) ∧
      ¬(r1 = r0 + 1 ∧ r2 = r0 + 2 ∧ r3 = r0 + 3 ∧ r4 = r0 + 4) ∧
      ¬(r0 = 0 ∧ r1 = 9 ∧ r2 = 10 ∧ r3 = 11 ∧ r4 = 12))

/-! ## Messages and the worker

Counters are C++ `int`s and are integers here: signed overflow is undefined in C++, so
the model covers the runs in which no counter leaves the range of `int`. -/

/-- The tag `TAG_DATA` of a discovery notice. -/
def TAG_DATA : Int := 1

/-- The tag `TAG_QUIT` of the termination message. -/
def TAG_QUIT : Int := 2

/-- The tag `TAG_RESULTS` of a final count. -/
def TAG_RESULTS : Int := 3

/-- The key of a category in `frequencyMap`, which is also the text of its discovery
notice. -/
def label : Category → String
  | .FullHouse => "     Full House"
  | .TwoPair => "       Two Pair"
  | .FourOfAKind => " Four of a Kind"
  | .ThreeOfAKind => "Three of a Kind"
  | .OnePair => "       One Pair"
  | .RoyalFlush => "    Royal Flush"
  | .StraightFlush => " Straight Flush"
  | .Straight => "       Straight"
  | .Flush => "          Flush"
  | .NoPair => "        No Pair"

/-- A message handed to MPI for sending, by its tag: `data` is
`MPI_Isend(&msg[0], MAX_MSG_SIZE, MPI_CHAR, dest, TAG_DATA, ...)`, `quit` is
`MPI_Send(&msgBuff, 1, MPI_INT, dest, TAG_QUIT, ...)` and `results` is
`MPI_Send(&count, 1, MPI_INT, dest, TAG_RESULTS, ...)`, which carries one `int`. -/
inductive Msg where
  | data (dest : Int) (text : String)
  | quit (dest : Int)
  | results (dest : Int) (value : Int)
  deriving DecidableEq, Repr

/-- The tag of a message. -/
def Msg.tag : Msg → Int
  | .data _ _ => TAG_DATA
  | .quit _ => TAG_QUIT
  | .results _ _ => TAG_RESULTS

/-- The state of a worker between two passes of the loop of `processSlave`: its
`frequencyMap`, the loop flag `isActive`, and whether the static `request` of
`checkMessageFromMaster` is set (a receive is posted). -/
structure Slave where
  frequencyMap : Category → Int
  isActive : Int
  request : Bool

/-- A worker as `processSlave` starts: the map zeroed by the constructor, `isActive = 1`,
no receive posted. -/
def slaveInit : Slave := ⟨fun _ => 0, 1, false⟩

/-- The call `checkMessageFromMaster(isActive)`.  `incoming` is what `MPI_Test` reports when
it is called: `some tag` when a message from the coordinator has come in. -/
def checkMessageFromMaster (incoming : Option Int) (st : Slave) : Slave :=
  let st1 :=
    if st.request then
      match incoming with
      | some tag =>
        { st with
          isActive := if tag = TAG_QUIT then st.isActive - 1 else st.isActive
          request := false }
      | none => st
    else st
  if !st1.request && decide (st1.isActive > 0) then { st1 with request := true } else st1

/-- One branch of the chain in `processSlave`, for the category `cat` the chain picked:
`if (++frequencyMap[key] == 1) { msg = key; MPI_Isend(&msg[0], ..., 0, TAG_DATA, ...); }`. -/
def tallyHand (cat : Category) (st : Slave) : Slave × List Msg :=
  let n := st.frequencyMap cat + 1
  ({ st with frequencyMap := Function.update st.frequencyMap cat n },
    if n = 1 then [Msg.data 0 (label cat)] else [])

/-- The loop body of `processSlave` from `checkMessageFromMaster` on, for a hand that the
chain classifies as `cat`: the new state and the messages sent. -/
def slaveIteration (cat : Category) (incoming : Option Int) (st : Slave) :
    Slave × List Msg :=
  let st1 := checkMessageFromMaster incoming st
  if st1.isActive ≠ 0 then tallyHand cat st1 else (st1, [])

/-- A worker during its loop: its state and the messages it has sent so far. -/
structure SlaveRun where
  state : Slave
  sent : List Msg

/-- One pass of `while (isActive)`: nothing happens once `isActive` is 0.  The input is the
category of the hand drawn in the pass and what `MPI_Test` reports in it. -/
def slaveStep (r : SlaveRun) (input : Category × Option Int) : SlaveRun :=
  if r.state.isActive ≠ 0 then
    ⟨(slaveIteration input.1 input.2 r.state).1,
      r.sent ++ (slaveIteration input.1 input.2 r.state).2⟩
  else r

/-- The loop of `processSlave` over the passes the inputs provide. -/
def slaveLoop (inputs : List (Category × Option Int)) : SlaveRun :=
  inputs.foldl slaveStep ⟨slaveInit, []⟩

/-- The ten `MPI_Send` calls after the loop of `processSlave`, in program order. -/
def sendResults (t : Category → Int) : List Msg :=
  [.results 0 (t .FullHouse), .results 0 (t .TwoPair), .results 0 (t .FourOfAKind),
    .results 0 (t .ThreeOfAKind), .results 0 (t .OnePair), .results 0 (t .RoyalFlush),
    .results 0 (t .StraightFlush), .results 0 (t .Straight), .results 0 (t .Flush),
    .results 0 (t .NoPair)]

/-- All of `processSlave`: every message the worker sends, when the loop has ended within
the passes provided; `none` when it is still running. -/
def processSlave (inputs : List (Category × Option Int)) : Option (List Msg) :=
  if (slaveLoop inputs).state.isActive = 0 then
    some ((slaveLoop inputs).sent ++ sendResults (slaveLoop inputs).state.frequencyMap)
  else none

/-! ## The coordinator -/

/-- The state of the coordinator in `processMaster`: its `frequencyMap`, the static maps
`matches` (of `checkForMatch`, here `matchesMap`) and `procRecvd` (of `tallyResult`), the locals
`matchesLeft`, `activeCount`, `slavesTerminated`, and whether the static requests
`requestMatch` and `requestResult` of `checkMessagesFromSlaves` are set. -/
structure Master where
  frequencyMap : Category → Int
  matchesMap : String → Int
  procRecvd : Int → Int
  matchesLeft : Int
  activeCount : Int
  slavesTerminated : Bool
  requestMatch : Bool
  requestResult : Bool

/-- The coordinator as the loop of `processMaster` starts, for `numProcs` processes. -/
def masterInit (numProcs : Nat) : Master :=
  ⟨fun _ => 0, fun _ => 0, fun _ => 0, 10, (numProcs : Int) - 1, false, false, false⟩

/-- The call `checkForMatch(msg)`: `++matches[msg] == 1`. -/
def checkForMatch (msg : String) (m : Master) : Bool × Master :=
  let n := m.matchesMap msg + 1
  (decide (n = 1), { m with matchesMap := Function.update m.matchesMap msg n })

/-- The statement `frequencyMap[key] += result`. -/
def addCount (t : Category → Int) (cat : Category) (result : Int) : Category → Int :=
  Function.update t cat (t cat + result)

/-- The call `tallyResult(result, procID, activeCount)`. -/
def tallyResult (result procID : Int) (m : Master) : Master :=
  let tallyThis := m.procRecvd procID + 1
  let m1 := { m with procRecvd := Function.update m.procRecvd procID tallyThis }
  if tallyThis = 1 then { m1 with frequencyMap := addCount m1.frequencyMap .FullHouse result }
  else if tallyThis = 2 then
    { m1 with frequencyMap := addCount m1.frequencyMap .TwoPair result }
  else if tallyThis = 3 then
    { m1 with frequencyMap := addCount m1.frequencyMap .FourOfAKind result }
  else if tallyThis = 4 then
    { m1 with frequencyMap := addCount m1.frequencyMap .ThreeOfAKind result }
  else if tallyThis = 5 then
    { m1 with frequencyMap := addCount m1.frequencyMap .OnePair result }
  else if tallyThis = 6 then
    { m1 with frequencyMap := addCount m1.frequencyMap .RoyalFlush result }
  else if tallyThis = 7 then
    { m1 with frequencyMap := addCount m1.frequencyMap .StraightFlush result }
  else if tallyThis = 8 then
    { m1 with frequencyMap := addCount m1.frequencyMap .Straight result }
  else if tallyThis = 9 then
    { m1 with frequencyMap := addCount m1.frequencyMap .Flush result }
  else if tallyThis = 10 then
    { m1 with
      frequencyMap := addCount m1.frequencyMap .NoPair result
      activeCount := m1.activeCount - 1 }
  else m1

/-- What the two `MPI_Test` calls of one pass of the coordinator report when they are
called: the text of a discovery notice that has come in, and the value and source of a
final count that has come in. -/
structure Polled where
  matchIn : Option String
  resultIn : Option (Int × Int)

/-- The first half of `checkMessagesFromSlaves`: test the posted receive for a discovery
notice, then post one if none is posted. -/
def checkMatch (matchIn : Option String) (m : Master) : Master :=
  let m1 :=
    if m.requestMatch then
      match matchIn with
      | some text =>
        let m2 :=
          if (checkForMatch text m).1 then
            { (checkForMatch text m).2 with matchesLeft := m.matchesLeft - 1 }
          else (checkForMatch text m).2
        { m2 with requestMatch := false }
      | none => m
    else m
  if !m1.requestMatch then { m1 with requestMatch := true } else m1

/-- The second half of `checkMessagesFromSlaves`: test the posted receive for a final count,
then post one if none is posted and `activeCount > 0`. -/
def checkResult (resultIn : Option (Int × Int)) (m : Master) : Master :=
  let m1 :=
    if m.requestResult then
      match resultIn with
      | some (value, source) => { tallyResult value source m with requestResult := false }
      | none => m
    else m
  if !m1.requestResult && decide (m1.activeCount > 0) then { m1 with requestResult := true }
  else m1

/-- The call `checkMessagesFromSlaves(matchesLeft, activeCount)`. -/
def checkMessagesFromSlaves (p : Polled) (m : Master) : Master :=
  checkResult p.resultIn (checkMatch p.matchIn m)

/-- The ranks of the workers: `p = 1, ..., numProcs - 1`. -/
def workerRanks (numProcs : Nat) : List Int :=
  List.map (fun p : Nat => (p : Int)) (List.range' 1 (numProcs - 1))

/-- The call `terminateSlaves(numProcs)`: one `MPI_Send` with `TAG_QUIT` for each
`p = 1, ..., numProcs - 1`. -/
def terminateSlaves (numProcs : Nat) : List Msg :=
  (workerRanks numProcs).map Msg.quit

/-- The body of the loop of `processMaster`: the new state and the messages sent. -/
def masterIteration (numProcs : Nat) (p : Polled) (m : Master) : Master × List Msg :=
  let m1 := checkMessagesFromSlaves p m
  if m1.matchesLeft = 0 ∧ m1.slavesTerminated = false then
    ({ m1 with slavesTerminated := true }, terminateSlaves numProcs)
  else (m1, [])

/-- The discovery notice a pass takes in: the one that has come in, when a receive for it
is posted. -/
def noticeTaken (m : Master) (p : Polled) : List String :=
  if m.requestMatch then p.matchIn.toList else []

/-- The final count a pass takes in: the one that has come in, when a receive for it is
posted. -/
def resultTaken (m : Master) (p : Polled) : List (Int × Int) :=
  if m.requestResult then p.resultIn.toList else []

/-- The coordinator during its loop: its state, the discovery notices and the final counts
(value, source) taken in so far, and the messages sent in each pass so far. -/
structure MasterRun where
  state : Master
  taken : List String
  results : List (Int × Int)
  sent : List (List Msg)

/-- One pass of `while (matchesLeft > 0 || activeCount > 0)`: nothing happens once the
condition is false. -/
def masterStep (numProcs : Nat) (r : MasterRun) (p : Polled) : MasterRun :=
  if r.state.matchesLeft > 0 ∨ r.state.activeCount > 0 then
    ⟨(masterIteration numProcs p r.state).1, r.taken ++ noticeTaken r.state p,
      r.results ++ resultTaken r.state p, r.sent ++ [(masterIteration numProcs p r.state).2]⟩
  else r

/-- The loop of `processMaster` (the branch for more than one process) over the passes the
inputs provide. -/
def processMaster (numProcs : Nat) (polled : List Polled) : MasterRun :=
  polled.foldl (masterStep numProcs) ⟨masterInit numProcs, [], [], []⟩

/-- The final counts taken in, tallied one after the other. -/
def tallyAll (msgs : List (Int × Int)) (m : Master) : Master :=
  msgs.foldl (fun m x => tallyResult x.1 x.2 m) m

/-- The values a worker with table `t` passes to its ten `MPI_Send` calls, in order. -/
def resultValues (t : Category → Int) : List Int :=
  [t .FullHouse, t .TwoPair, t .FourOfAKind, t .ThreeOfAKind, t .OnePair, t .RoyalFlush,
    t .StraightFlush, t .Straight, t .Flush, t .NoPair]

/-- The final counts a list of messages (value, source) holds from the source `p`, in the
order of arrival. -/
def valuesFrom (msgs : List (Int × Int)) (p : Int) : List Int :=
  (msgs.filter (fun x => decide (x.2 = p))).map (fun x => x.1)

/-- The ten labels. -/
def allLabels : List String :=
  [label .FullHouse, label .TwoPair, label .FourOfAKind, label .ThreeOfAKind, label .OnePair,
    label .RoyalFlush, label .StraightFlush, label .Straight, label .Flush, label .NoPair]

/-- The number of workers from which ten final counts or more have been taken in. -/
def workersDone (numProcs : Nat) (msgs : List (Int × Int)) : Nat :=
  ((workerRanks numProcs).filter (fun p => decide (10 ≤ (valuesFrom msgs p).length))).length

/-- The place of a category in the order of the ten `MPI_Send` calls of a worker, counted
from 0. -/
def sendSlot : Category → Nat
  | .FullHouse => 0
  | .TwoPair => 1
  | .FourOfAKind => 2
  | .ThreeOfAKind => 3
  | .OnePair => 4
  | .RoyalFlush => 5
  | .StraightFlush => 6
  | .Straight => 7
  | .Flush => 8
  | .NoPair => 9

/-! ## The deck -/

/-- The deck after `setUpDeck`: `deck[i - 1] = i` for `i = 1, ..., 52`. -/
def setUpDeck : List Int := List.map (fun i : Nat => (i : Int)) (List.range' 1 52)

/-- The call `swap(&deck[i], &arr[j])`, where `arr` is the deck itself at every call site. -/
def swapCards (deck : List Int) (i j : Nat) : List Int :=
  (deck.set i (cardAt deck j)).set j (cardAt deck i)

/-- The index `getRandom` returns at the `k`-th call of `rand()`: `rand() % 52`.  The draw
source `rand` lists the values of `rand()`, which are never negative. -/
def getRandom (rand : Nat → Nat) (k : Nat) : Nat := rand k % 52

/-- The loop `for (int i = n - 1; i >= 0; i--)` of `randomizeDeck` with `m = i + 1` passes
still to run, on a deck, after `k` calls of `rand()`. -/
def randomizeLoop (rand : Nat → Nat) : Nat → List Int → Nat → List Int × Nat
  | 0, deck, k => (deck, k)
  | i + 1, deck, k => randomizeLoop rand i (swapCards deck i (getRandom rand k)) (k + 1)

/-- The call `randomizeDeck(deck, n, rank)`: the new deck and the number of calls of
`rand()` made so far. -/
def randomizeDeck (deck : List Int) (n : Nat) (rand : Nat → Nat) (k : Nat) : List Int × Nat :=
  randomizeLoop rand n deck k

/-- The deck, and the number of calls of `rand()`, after `setUpDeck` and `m` calls
`randomizeDeck(deck, 52, rank)`. -/
def shuffledDeck (rand : Nat → Nat) : Nat → List Int × Nat
  | 0 => (setUpDeck, 0)
  | m + 1 => randomizeDeck (shuffledDeck rand m).1 52 rand (shuffledDeck rand m).2

/-- The hand drawn from a deck: `hand[i] = deck[i]` for `i = 0, ..., 4`. -/
def drawHand (deck : List Int) : List Int := deck.take 5

/-! ## Variants of the classifier that the claims compare it with -/

/-- The category `processSerial` (PokerHandsMPI.cpp) counts for a drawn hand; its loop body
repeats the one of `drawHands` statement by statement. -/
def processSerial_classify (hand : List Int) : Option Category :=
  (analyse hand).map resolveSerial

/-- The analysis with the group scan run on every hand, flush or not: what the code would
compute without the guard `if (!isFlush)`. -/
def analyseFullScan (hand : List Int) : Option HandFlags :=
  (groupLoop (sortHand hand) 5 0 noGroups).map (straightTest (flushTest hand) (sortHand hand))

/-- The priority order as the specification words it (section 4.2, step 4), first match
wins: FullHouse, TwoPair, ThreeOfAKind, OnePair, FourOfAKind, RoyalFlush (straight + flush
+ ace-high), StraightFlush (straight + flush), Straight, Flush, NoPair. -/
def specPriority (h : HandFlags) : Category :=
  if h.groups.isFullHouse then .FullHouse
  else if h.groups.isTwoPair then .TwoPair
  else if h.groups.isTriple then .ThreeOfAKind
  else if h.groups.isPair then .OnePair
  else if h.groups.isQuadruple then .FourOfAKind
  else if h.isStraight && h.isFlush && h.isRoyal then .RoyalFlush
  else if h.isStraight && h.isFlush then .StraightFlush
  else if h.isStraight then .Straight
  else if h.isFlush then .Flush
  else .NoPair

/-! ## Sample runs -/

/-- Sample tables of two workers: worker 1 has counted `k` hands of the category it sends
`k`-th (from 0), worker 2 five hands of each. -/
def sampleTables (w : Int) (c : Category) : Int := if w = 1 then (sendSlot c : Int) else 5

/-- The final counts (value, source) of the two sample workers, coming in alternately. -/
def sampleCounts : List (Int × Int) :=
  [(0, 1), (5, 2), (1, 1), (5, 2), (2, 1), (5, 2), (3, 1), (5, 2), (4, 1), (5, 2), (5, 1),
    (5, 2), (6, 1), (5, 2), (7, 1), (5, 2), (8, 1), (5, 2), (9, 1), (5, 2)]

/-- Sample passes of the coordinator: a first pass, then nine passes in each of which the
notice of another category comes in. -/
def samplePolls : List Polled :=
  [⟨none, none⟩, ⟨some (label .NoPair), none⟩, ⟨some (label .OnePair), none⟩,
    ⟨some (label .TwoPair), none⟩, ⟨some (label .ThreeOfAKind), none⟩,
    ⟨some (label .Straight), none⟩, ⟨some (label .Flush), none⟩,
    ⟨some (label .FullHouse), none⟩, ⟨some (label .FourOfAKind), none⟩,
    ⟨some (label .StraightFlush), none⟩]

instance (l : List Int) : Decidable (RankSorted l) := by
  unfold RankSorted; infer_instance

/-! ## The deck and the shuffle, looked at more closely -/

/-- The number of cards of a deck whose suit (`id / 13`) is `s`. -/
def suitSize (deck : List Int) (s : Int) : Nat :=
  (deck.filter (fun c => decide (suitOf c = s))).length

/-- The pairs `(i, j)` of the calls `swap(&deck[i], &arr[j])` that the loop of `randomizeDeck`
makes with `m = i + 1` passes still to run, after `k` calls of `rand()`, in order. -/
def swapIndices (rand : Nat → Nat) : Nat → Nat → List (Nat × Nat)
  | 0, _ => []
  | i + 1, k => (i, getRandom rand k) :: swapIndices rand i (k + 1)

/-- The draw source whose first 52 values of `rand()` are `js 0, ..., js 51`, each below
`range` (which is `RAND_MAX + 1`).  With `range = 52` these are the values of `getRandom`
themselves, as `rand() % 52` is then `rand()`. -/
def drawSource (range : Nat) (js : Fin 52 → Fin range) (k : Nat) : Nat :=
  if h : k < 52 then ((js ⟨k, h⟩ : Fin range) : Nat) else 0

/-- The deck that one call `randomizeDeck(deck, 52)` leaves when `rand()` returns the values
`js 0, ..., js 51`. -/
def shuffleWith (range : Nat) (deck : List Int) (js : Fin 52 → Fin range) : List Int :=
  (randomizeDeck deck 52 (drawSource range js) 0).1

/-- The number of sequences of 52 values of `rand()`, each below `range`, with which one
call `randomizeDeck(deck, 52)` turns `deck` into `result`. -/
def sequencesGiving (range : Nat) (deck result : List Int) : Nat :=
  (Finset.univ.filter (fun js : Fin 52 → Fin range => shuffleWith range deck js = result)).card

/-! ## The group scan with its passes and reads written down -/

/-- The inner loop `for (j = i + 1; j <= 5; ++j)` with its reads of `hand[]` written down:
the `j` at which it breaks and the indices it has read, in order.  The test is
`j == 5 || comp != hand[j] % 13`, so `hand[j]` is read only when `j == 5` is false. -/
def runEndReads (hand : List Int) (comp : Int) : Nat → Nat → Option (Nat × List Nat)
  | 0, _ => none
  | fuel + 1, j =>
    if j ≤ 5 then
      if j = 5 then some (j, [])
      else if comp ≠ rankOf (cardAt hand j) then some (j, [j])
      else (runEndReads hand comp fuel (j + 1)).map (fun r => (r.1, j :: r.2))
    else none

/-- What a run of the group scan leaves: the flags, the passes of the outer loop as pairs
(`i` at the start of the pass, `j` at which the run ended), and the indices of `hand[]`
read, in order. -/
structure ScanLog where
  flags : GroupFlags
  passes : List (Nat × Nat)
  reads : List Nat

/-- The outer loop `for (int i = 0; i < 4;)` of the group scan with its passes and reads
written down; a pass reads `hand[i]` for `comp` and then runs the inner loop. -/
def groupLoopLog (hand : List Int) : Nat → Nat → GroupFlags → Option ScanLog
  | 0, _, _ => none
  | fuel + 1, i, f =>
    if i < 4 then
      match runEndReads hand (rankOf (cardAt hand i)) 6 (i + 1) with
      | none => none
      | some (j, rs) =>
        (groupLoopLog hand fuel j (markRun f (j - i))).map
          (fun l => ⟨l.flags, (i, j) :: l.passes, i :: rs ++ l.reads⟩)
    else some ⟨f, [], []⟩

/-! ## The serial loop -/

/-- The ten categories. -/
def allCategories : List Category :=
  [.FullHouse, .TwoPair, .FourOfAKind, .ThreeOfAKind, .OnePair, .RoyalFlush, .StraightFlush,
    .Straight, .Flush, .NoPair]

/-- The state of the loop of `drawHands` (and of `processSerial`): the `frequencyMap`, the
local `handTypeCount`, and the number of passes of the loop body made so far. -/
structure Serial where
  frequencyMap : Category → Int
  handTypeCount : Int
  hands : Nat

/-- The state before the loop: no counter set, `handTypeCount = 0`. -/
def serialInit : Serial := ⟨fun _ => 0, 0, 0⟩

/-- The end of the loop body for a hand of category `cat`:
`if (++frequencyMap[key] == 1) { ++handTypeCount; }` with the key of `cat`. -/
def countHand (cat : Category) (st : Serial) : Serial :=
  let n := st.frequencyMap cat + 1
  { frequencyMap := Function.update st.frequencyMap cat n
    handTypeCount := if n = 1 then st.handTypeCount + 1 else st.handTypeCount
    hands := st.hands + 1 }

/-- One pass of `do { ... } while (handTypeCount < 10);` for a drawn hand of category `cat`:
the first pass is made in any case, a later one only while `handTypeCount < 10`. -/
def serialStep (st : Serial) (cat : Category) : Serial :=
  if st.hands = 0 ∨ st.handTypeCount < 10 then countHand cat st else st

/-- The loop of `drawHands` over the categories of the hands it draws, in order. -/
def drawHands (cats : List Category) : Serial := cats.foldl serialStep serialInit

/-! ## The whole program: the coordinator and the workers, one pass at a time -/

/-- One step of a run of the whole program: the coordinator makes a pass of the loop of
`processMaster` (with what its two `MPI_Test` calls report), or the worker of rank `w` makes
a pass of the loop of `processSlave` (with the category of the hand it draws and what its
`MPI_Test` reports). -/
inductive Event where
  | master (p : Polled)
  | slave (w : Int) (cat : Category) (incoming : Option Int)

/-- The processes of a run: the coordinator and, by rank, the workers. -/
structure System where
  master : MasterRun
  slaves : Int → SlaveRun

/-- All processes as they enter their loops. -/
def systemInit (numProcs : Nat) : System :=
  ⟨⟨masterInit numProcs, [], [], []⟩, fun _ => ⟨slaveInit, []⟩⟩

/-- One step of the run: the process of the event makes its pass (`masterStep`,
`slaveStep`), the others stay as they are. -/
def systemStep (numProcs : Nat) (s : System) : Event → System
  | .master p => { s with master := masterStep numProcs s.master p }
  | .slave w cat incoming =>
    { s with slaves := Function.update s.slaves w (slaveStep (s.slaves w) (cat, incoming)) }

/-- The processes after the first `t` steps of the schedule `sched`. -/
def systemAt (numProcs : Nat) (sched : Nat → Event) : Nat → System
  | 0 => systemInit numProcs
  | t + 1 => systemStep numProcs (systemAt numProcs sched t) (sched t)

/-- What the passes of the coordinator among the first `t` steps were given, in order. -/
def masterPolls (sched : Nat → Event) : Nat → List Polled
  | 0 => []
  | t + 1 =>
    match sched t with
    | .master p => masterPolls sched t ++ [p]
    | .slave _ _ _ => masterPolls sched t

/-- What the passes of the worker `w` among the first `t` steps were given, in order. -/
def slaveInputs (sched : Nat → Event) (w : Int) : Nat → List (Category × Option Int)
  | 0 => []
  | t + 1 =>
    match sched t with
    | .master _ => slaveInputs sched w t
    | .slave v cat incoming =>
      if v = w then slaveInputs sched w t ++ [(cat, incoming)] else slaveInputs sched w t

/-- The transport hands over only what was sent: a discovery notice that a pass of the
coordinator finds was sent by a worker before; a final count it finds comes from a worker
that has left its loop; and a worker finds `TAG_QUIT` only after the coordinator has sent it
to that worker. -/
def Causal (numProcs : Nat) (sched : Nat → Event) : Prop :=
  (∀ t p text, sched t = .master p → p.matchIn = some text →
    ∃ w ∈ workerRanks numProcs,
      Msg.data 0 text ∈ ((systemAt numProcs sched t).slaves w).sent) ∧
  (∀ t p v w, sched t = .master p → p.resultIn = some (v, w) →
    w ∈ workerRanks numProcs ∧ ((systemAt numProcs sched t).slaves w).state.isActive = 0) ∧
  (∀ t w cat, sched t = .slave w cat (some TAG_QUIT) →
    Msg.quit w ∈ (systemAt numProcs sched t).master.sent.flatten)

/-- The workers always eventually produce hands of every category, and no message that was
sent is lost for good: the coordinator keeps making passes; every worker is, again and
again, given a hand of each category; while a label that some worker has sent a notice of
is not taken in, a later pass of the coordinator finds a notice of it; while a worker to
which `TAG_QUIT` was sent is still in its loop, a later pass of it finds `TAG_QUIT`; and while
fewer final counts of a worker that has left its loop are taken in than it sends on leaving
(`sendResults`), a later pass of the coordinator finds a final count of that worker. -/
def Fair (numProcs : Nat) (sched : Nat → Event) : Prop :=
  (∀ t, ∃ t1, t ≤ t1 ∧ ∃ p, sched t1 = .master p) ∧
  (∀ w ∈ workerRanks numProcs, ∀ cat t, ∃ t1, t ≤ t1 ∧ ∃ incoming,
    sched t1 = .slave w cat incoming) ∧
  (∀ w ∈ workerRanks numProcs, ∀ cat t,
    Msg.data 0 (label cat) ∈ ((systemAt numProcs sched t).slaves w).sent →
    label cat ∉ (systemAt numProcs sched t).master.taken →
    ∃ t1, t ≤ t1 ∧ ∃ p, sched t1 = .master p ∧ p.matchIn = some (label cat)) ∧
  (∀ w ∈ workerRanks numProcs, ∀ t,
    Msg.quit w ∈ (systemAt numProcs sched t).master.sent.flatten →
    ((systemAt numProcs sched t).slaves w).state.isActive ≠ 0 →
    ∃ t1, t ≤ t1 ∧ ∃ cat, sched t1 = .slave w cat (some TAG_QUIT)) ∧
  (∀ w ∈ workerRanks numProcs, ∀ t,
    ((systemAt numProcs sched t).slaves w).state.isActive = 0 →
    (valuesFrom (systemAt numProcs sched t).master.results w).length <
      (sendResults ((systemAt numProcs sched t).slaves w).state.frequencyMap).length →
    ∃ t1, t ≤ t1 ∧ ∃ p v, sched t1 = .master p ∧ p.resultIn = some (v, w))

/-- A sample run of the coordinator and one worker.  The worker draws a hand of each of the
ten categories (steps 0 to 9); the coordinator makes a first pass (step 10) and ten passes
that each find one of the notices (steps 11 to 20), the last of which sends `TAG_QUIT`; the
worker finds it (step 21); ten passes of the coordinator find the ten final counts (steps 22
to 31).  After that the coordinator (even steps) and the worker (odd steps, the hands going
round the categories) are given passes that find nothing. -/
def sampleSchedule (t : Nat) : Event :=
  if t < 10 then .slave 1 (allCategories.getD t .NoPair) none
  else if t = 10 then .master ⟨none, none⟩
  else if t < 21 then .master ⟨some (label (allCategories.getD (t - 11) .NoPair)), none⟩
  else if t = 21 then .slave 1 .NoPair (some TAG_QUIT)
  else if t < 32 then .master ⟨none, some (1, 1)⟩
  else if t % 2 = 0 then .master ⟨none, none⟩
  else .slave 1 (allCategories.getD (t / 2 % 10) .NoPair) none

/-! ## The sort -/

theorem insertCard_perm (x : Int) (l : List Int) : (insertCard x l).Perm (x :: l) := by
  induction l with
  | nil => simp [insertCard]
  | cons y ys ih =>
    unfold insertCard
    split
    · exact List.Perm.refl _
    · exact (List.Perm.cons y ih).trans (List.Perm.swap x y ys)

theorem insertCard_sorted (x : Int) (l : List Int) (h : RankSorted l) :
    RankSorted (insertCard x l) := by
  induction l with
  | nil => simp [insertCard, RankSorted]
  | cons y ys ih =>
    unfold RankSorted at h ih ⊢
    rw [List.pairwise_cons] at h
    unfold insertCard
    split
    · rename_i hlt
      have hxy : rankOf x < rankOf y := by simpa [sort_cards] using hlt
      refine List.pairwise_cons.mpr ⟨?_, List.pairwise_cons.mpr h⟩
      intro b hb
      rcases List.mem_cons.mp hb with rfl | hb
      · omega
      · have := h.1 b hb; omega
    · rename_i hlt
      have hxy : rankOf y ≤ rankOf x := by simpa [sort_cards] using hlt
      refine List.pairwise_cons.mpr ⟨?_, ih h.2⟩
      intro b hb
      rcases List.mem_cons.mp ((insertCard_perm x ys).mem_iff.mp hb) with rfl | hb
      · exact hxy
      · exact h.1 b hb

theorem foldl_insertCard (l acc : List Int) (h : RankSorted acc) :
    RankSorted (l.foldl (fun acc x => insertCard x acc) acc) ∧
      (l.foldl (fun acc x => insertCard x acc) acc).Perm (acc ++ l) := by
  induction l generalizing acc with
  | nil => simpa using h
  | cons x xs ih =>
    obtain ⟨h1, h2⟩ := ih (insertCard x acc) (insertCard_sorted x acc h)
    refine ⟨h1, h2.trans ?_⟩
    have := (insertCard_perm x acc).append_right xs
    refine this.trans ?_
    simpa using (@List.perm_middle Int x acc xs).symm

/-- The sort leaves the hand ordered by rank. -/
theorem sortHand_sorted (hand : List Int) : RankSorted (sortHand hand) :=
  (foldl_insertCard hand [] (by simp [RankSorted])).1

/-- The sort leaves a permutation of the hand. -/
theorem sortHand_perm (hand : List Int) : (sortHand hand).Perm hand := by
  simpa using (foldl_insertCard hand [] (by simp [RankSorted])).2

theorem length_five (l : List Int) (h : l.length = 5) :
    ∃ a b c d e, l = [a, b, c, d, e] := by
  match l, h with
  | [a, b, c, d, e], _ => exact ⟨a, b, c, d, e, rfl⟩

/-! ## The classifier on a sorted hand -/

theorem rankOf_nonneg_eq (c : Int) (h : 0 ≤ c) : rankOf c = c % 13 := by
  unfold rankOf; exact Int.tmod_eq_emod h (by decide)

theorem tmod_sub_index (s r i : Int) (hs : 0 ≤ s) (hr : rankOf s = r) (h0 : 0 ≤ i) (hi : i ≤ r) :
    Int.tmod (s - i) 13 = r - i := by
  rw [rankOf_nonneg_eq s hs] at hr
  have h1 : 0 ≤ s - i := by omega
  rw [Int.tmod_eq_emod h1 (by decide)]
  omega

theorem straightLoop_strict (s0 s1 s2 s3 s4 r0 r1 r2 r3 r4 : Int)
    (p0 : 0 ≤ s0) (p1 : 0 ≤ s1) (p2 : 0 ≤ s2) (p3 : 0 ≤ s3) (p4 : 0 ≤ s4)
    (e0 : rankOf s0 = r0) (e1 : rankOf s1 = r1) (e2 : rankOf s2 = r2) (e3 : rankOf s3 = r3)
    (e4 : rankOf s4 = r4)
    (l01 : r0 < r1) (l12 : r1 < r2) (l23 : r2 < r3) (l34 : r3 < r4) :
    straightLoop [s0, s1, s2, s3, s4] [1, 2, 3, 4] =
      decide (r1 = r0 + 1 ∧ r2 = r0 + 2 ∧ r3 = r0 + 3 ∧ r4 = r0 + 4) := by
  have n0 : 0 ≤ r0 := by rw [← e0, rankOf_nonneg_eq s0 p0]; omega
  have t1 := tmod_sub_index s1 r1 1 p1 e1 (by omega) (by omega)
  have t2 := tmod_sub_index s2 r2 2 p2 e2 (by omega) (by omega)
  have t3 := tmod_sub_index s3 r3 3 p3 e3 (by omega) (by omega)
  have t4 := tmod_sub_index s4 r4 4 p4 e4 (by omega) (by omega)
  simp only [straightLoop, cardAt, List.getD_cons_zero, List.getD_cons_succ, Nat.cast_ofNat,
    Nat.cast_one, e0, t1, t2, t3, t4]
  split_ifs <;> simp <;> omega

/-- What the two classification chains return on a sorted hand, by the shape of its
ranks `r0 ≤ r1 ≤ r2 ≤ r3 ≤ r4`: one category, the same for both chains, decided by the
shape alone. -/
theorem sorted_classification (fl : Bool) (s0 s1 s2 s3 s4 r0 r1 r2 r3 r4 : Int)
    (p0 : 0 ≤ s0) (p1 : 0 ≤ s1) (p2 : 0 ≤ s2) (p3 : 0 ≤ s3) (p4 : 0 ≤ s4)
    (e0 : rankOf s0 = r0) (e1 : rankOf s1 = r1) (e2 : rankOf s2 = r2) (e3 : rankOf s3 = r3)
    (e4 : rankOf s4 = r4)
    (h01 : r0 ≤ r1) (h12 : r1 ≤ r2) (h23 : r2 ≤ r3) (h34 : r3 ≤ r4) (h04 : r0 ≠ r4)
    (hfl : fl = true → r0 < r1 ∧ r1 < r2 ∧ r2 < r3 ∧ r3 < r4) :
    ∃ cat, (analyseSorted fl [s0, s1, s2, s3, s4]).map resolveSlave = some cat ∧
      (analyseSorted fl [s0, s1, s2, s3, s4]).map resolveSerial = some cat ∧
      ShapeTable fl r0 r1 r2 r3 r4 cat := by
  unfold ShapeTable
  have r12 : r4 ≤ 12 := by rw [← e4, rankOf_nonneg_eq s4 p4]; omega
  by_cases strict : r0 < r1 ∧ r1 < r2 ∧ r2 < r3 ∧ r3 < r4
  · obtain ⟨l01, l12, l23, l34⟩ := strict
    have hloop := straightLoop_strict s0 s1 s2 s3 s4 r0 r1 r2 r3 r4 p0 p1 p2 p3 p4 e0 e1 e2 e3 e4
      l01 l12 l23 l34
    have hscan : groupScan fl [s0, s1, s2, s3, s4] = some noGroups := by
      cases fl
      · simp [groupScan, groupLoop, runEnd, cardAt, markRun, noGroups, e0, e1, e2, e3, e4,
          l01.ne, l12.ne, l23.ne, l34.ne]
      · simp [groupScan]
    by_cases hroyal : r0 = 0 ∧ r1 = 9
    · have hst : straightTest fl [s0, s1, s2, s3, s4] noGroups = ⟨noGroups, true, true, fl⟩ := by
        simp [straightTest, noGroups, cardAt, e0, e1, hroyal]
      have hana : analyseSorted fl [s0, s1, s2, s3, s4] = some ⟨noGroups, true, true, fl⟩ := by
        simp only [analyseSorted, hscan, Option.map_some', hst]
      cases fl <;>
      (simp [hana, noGroups, resolveSlave, resolveSerial]; omega)
    · have hst : straightTest fl [s0, s1, s2, s3, s4] noGroups =
          ⟨noGroups, false, decide (r1 = r0 + 1 ∧ r2 = r0 + 2 ∧ r3 = r0 + 3 ∧ r4 = r0 + 4), fl⟩ := by
        simp [straightTest, noGroups, cardAt, e0, e1, hroyal, hloop]
      have hana : analyseSorted fl [s0, s1, s2, s3, s4] = some ⟨noGroups, false,
          decide (r1 = r0 + 1 ∧ r2 = r0 + 2 ∧ r3 = r0 + 3 ∧ r4 = r0 + 4), fl⟩ := by
        simp only [analyseSorted, hscan, Option.map_some', hst]
      by_cases hcons : r1 = r0 + 1 ∧ r2 = r0 + 2 ∧ r3 = r0 + 3 ∧ r4 = r0 + 4 <;>
      cases fl <;>
      simp [hana, noGroups, resolveSlave, resolveSerial, hcons] <;>
      omega
  · have hfl' : fl = false := by
      cases fl
      · rfl
      · exact absurd (hfl rfl) strict
    subst hfl'
    rcases eq_or_ne r0 r1 with a01 | n01 <;> rcases eq_or_ne r1 r2 with a12 | n12 <;>
    rcases eq_or_ne r2 r3 with a23 | n23 <;> rcases eq_or_ne r3 r4 with a34 | n34 <;>
    (try subst a01) <;> (try subst a12) <;> (try subst a23) <;> (try subst a34) <;>
    first
    | exact absurd rfl h04
    | (exfalso; omega)
    | (simp [analyseSorted, groupScan, groupLoop, runEnd, cardAt, markRun, noGroups,
        straightTest, resolveSlave, resolveSerial, *]; omega)

/-! ## The specification's predicates on sorted ranks -/

theorem sorted_five_unique (r0 r1 r2 r3 r4 t0 t1 t2 t3 t4 : Int)
    (hp : [r0, r1, r2, r3, r4].Perm [t0, t1, t2, t3, t4])
    (h01 : r0 ≤ r1) (h12 : r1 ≤ r2) (h23 : r2 ≤ r3) (h34 : r3 ≤ r4)
    (g01 : t0 ≤ t1) (g12 : t1 ≤ t2) (g23 : t2 ≤ t3) (g34 : t3 ≤ t4) :
    r0 = t0 ∧ r1 = t1 ∧ r2 = t2 ∧ r3 = t3 ∧ r4 = t4 := by
  have hr : List.Sorted (fun a b : Int => a ≤ b) [r0, r1, r2, r3, r4] := by
    simp only [List.Sorted, List.pairwise_cons, List.mem_cons, List.mem_singleton,
      List.not_mem_nil, forall_eq_or_imp, forall_eq, List.Pairwise.nil]
    simp; omega
  have ht : List.Sorted (fun a b : Int => a ≤ b) [t0, t1, t2, t3, t4] := by
    simp only [List.Sorted, List.pairwise_cons, List.mem_cons, List.mem_singleton,
      List.not_mem_nil, forall_eq_or_imp, forall_eq, List.Pairwise.nil]
    simp; omega
  have := List.eq_of_perm_of_sorted hp hr ht
  simpa using this

section SortedRanks

variable (hand : List Int) (r0 r1 r2 r3 r4 : Int)
  (hp : (ranksOf hand).Perm [r0, r1, r2, r3, r4])
  (h01 : r0 ≤ r1) (h12 : r1 ≤ r2) (h23 : r2 ≤ r3) (h34 : r3 ≤ r4)
include hp h01 h12 h23 h34

theorem aceHigh_iff :
    AceHighRanks hand ↔ r0 = 0 ∧ r1 = 9 ∧ r2 = 10 ∧ r3 = 11 ∧ r4 = 12 := by
  unfold AceHighRanks
  constructor
  · intro h
    exact sorted_five_unique r0 r1 r2 r3 r4 0 9 10 11 12 (hp.symm.trans h) h01 h12 h23 h34
      (by decide) (by decide) (by decide) (by decide)
  · rintro ⟨rfl, rfl, rfl, rfl, rfl⟩
    exact hp

theorem consecutiveFrom_iff (r : Int) :
    ConsecutiveFrom hand r ↔
      r0 = r ∧ r1 = r + 1 ∧ r2 = r + 2 ∧ r3 = r + 3 ∧ r4 = r + 4 := by
  unfold ConsecutiveFrom
  constructor
  · intro h
    exact sorted_five_unique r0 r1 r2 r3 r4 r (r + 1) (r + 2) (r + 3) (r + 4)
      (hp.symm.trans h) h01 h12 h23 h34 (by omega) (by omega) (by omega) (by omega)
  · rintro ⟨rfl, rfl, rfl, rfl, rfl⟩
    exact hp

theorem consecutive_iff :
    ConsecutiveRanks hand ↔ r1 = r0 + 1 ∧ r2 = r0 + 2 ∧ r3 = r0 + 3 ∧ r4 = r0 + 4 := by
  unfold ConsecutiveRanks
  constructor
  · rintro ⟨r, h⟩
    have := (consecutiveFrom_iff hand r0 r1 r2 r3 r4 hp h01 h12 h23 h34 r).mp h
    omega
  · intro h
    exact ⟨r0, (consecutiveFrom_iff hand r0 r1 r2 r3 r4 hp h01 h12 h23 h34 r0).mpr
      ⟨rfl, h.1, h.2.1, h.2.2.1, h.2.2.2⟩⟩

theorem distinct_iff :
    DistinctRanks hand ↔ r0 < r1 ∧ r1 < r2 ∧ r2 < r3 ∧ r3 < r4 := by
  unfold DistinctRanks
  rw [hp.nodup_iff]
  simp only [List.nodup_cons, List.mem_cons, List.mem_singleton, List.not_mem_nil,
    List.nodup_nil, not_or]
  constructor
  · intro h; simp at h; omega
  · intro h; simp; omega

end SortedRanks

/-! ## Counting cards of a rank in a sorted hand -/

set_option maxHeartbeats 1000000

theorem count_five (x r0 r1 r2 r3 r4 : Int) :
    List.count x [r0, r1, r2, r3, r4] =
      (if r0 = x then 1 else 0) + (if r1 = x then 1 else 0) + (if r2 = x then 1 else 0) +
        (if r3 = x then 1 else 0) + (if r4 = x then 1 else 0) := by
  simp only [List.count_cons, List.count_nil, beq_iff_eq]
  omega

theorem count_adjacent (r0 r1 r2 r3 r4 : Int) :
    (r0 = r1 → 2 ≤ List.count r0 [r0, r1, r2, r3, r4]) ∧
    (r1 = r2 → 2 ≤ List.count r1 [r0, r1, r2, r3, r4]) ∧
    (r2 = r3 → 2 ≤ List.count r2 [r0, r1, r2, r3, r4]) ∧
    (r3 = r4 → 2 ≤ List.count r3 [r0, r1, r2, r3, r4]) := by
  refine ⟨?_, ?_, ?_, ?_⟩ <;> intro h <;> rw [count_five] <;> simp [h] <;> omega

section SortedCounts

variable (r0 r1 r2 r3 r4 : Int) (h01 : r0 ≤ r1) (h12 : r1 ≤ r2) (h23 : r2 ≤ r3) (h34 : r3 ≤ r4)
include h01 h12 h23 h34

theorem count_four_iff :
    (∃ a, List.count a [r0, r1, r2, r3, r4] = 4) ↔
      (r0 = r3 ∧ r3 < r4) ∨ (r0 < r1 ∧ r1 = r4) := by
  constructor
  · rintro ⟨x, hx⟩
    rw [count_five] at hx
    split_ifs at hx <;> omega
  · rintro (⟨a, b⟩ | ⟨a, b⟩)
    · exact ⟨r0, by rw [count_five]; split_ifs <;> omega⟩
    · exact ⟨r1, by rw [count_five]; split_ifs <;> omega⟩

theorem count_fullHouse_iff :
    (∃ a b, a ≠ b ∧ List.count a [r0, r1, r2, r3, r4] = 3 ∧
        List.count b [r0, r1, r2, r3, r4] = 2) ↔
      (r0 = r2 ∧ r2 < r3 ∧ r3 = r4) ∨ (r0 = r1 ∧ r1 < r2 ∧ r2 = r4) := by
  constructor
  · rintro ⟨x, y, hne, hx, hy⟩
    rw [count_five] at hx hy
    split_ifs at hx <;> first | omega | (split_ifs at hy <;> omega)
  · rintro (⟨a, b, c⟩ | ⟨a, b, c⟩)
    · refine ⟨r0, r3, by omega, ?_, ?_⟩ <;> rw [count_five] <;> split_ifs <;> omega
    · refine ⟨r2, r0, by omega, ?_, ?_⟩ <;> rw [count_five] <;> split_ifs <;> omega

theorem count_twoPair_iff :
    (∃ a b c, a ≠ b ∧ c ≠ a ∧ c ≠ b ∧ List.count a [r0, r1, r2, r3, r4] = 2 ∧
        List.count b [r0, r1, r2, r3, r4] = 2 ∧ List.count c [r0, r1, r2, r3, r4] = 1) ↔
      (r0 = r1 ∧ r1 < r2 ∧ r2 = r3 ∧ r3 < r4) ∨ (r0 = r1 ∧ r1 < r2 ∧ r2 < r3 ∧ r3 = r4) ∨
        (r0 < r1 ∧ r1 = r2 ∧ r2 < r3 ∧ r3 = r4) := by
  constructor
  · rintro ⟨x, y, z, hne, -, -, hx, hy, -⟩
    rw [count_five] at hx hy
    split_ifs at hx <;> first | omega | (split_ifs at hy <;> omega)
  · rintro (⟨a, b, c, d⟩ | ⟨a, b, c, d⟩ | ⟨a, b, c, d⟩)
    · refine ⟨r0, r2, r4, by omega, by omega, by omega, ?_, ?_, ?_⟩ <;>
        rw [count_five] <;> split_ifs <;> omega
    · refine ⟨r0, r3, r2, by omega, by omega, by omega, ?_, ?_, ?_⟩ <;>
        rw [count_five] <;> split_ifs <;> omega
    · refine ⟨r1, r3, r0, by omega, by omega, by omega, ?_, ?_, ?_⟩ <;>
        rw [count_five] <;> split_ifs <;> omega

theorem count_onePair_iff :
    (∃ a, List.count a [r0, r1, r2, r3, r4] = 2 ∧
        ∀ b, b ≠ a → List.count b [r0, r1, r2, r3, r4] ≤ 1) ↔
      (r0 = r1 ∧ r1 < r2 ∧ r2 < r3 ∧ r3 < r4) ∨ (r0 < r1 ∧ r1 = r2 ∧ r2 < r3 ∧ r3 < r4) ∨
        (r0 < r1 ∧ r1 < r2 ∧ r2 = r3 ∧ r3 < r4) ∨ (r0 < r1 ∧ r1 < r2 ∧ r2 < r3 ∧ r3 = r4) := by
  obtain ⟨a0, a1, a2, a3⟩ := count_adjacent r0 r1 r2 r3 r4
  constructor
  · rintro ⟨x, hx, hy⟩
    have z0 : r0 = r1 → r0 = x := fun e => by
      by_contra ne; have := hy r0 ne; have := a0 e; omega
    have z1 : r1 = r2 → r1 = x := fun e => by
      by_contra ne; have := hy r1 ne; have := a1 e; omega
    have z2 : r2 = r3 → r2 = x := fun e => by
      by_contra ne; have := hy r2 ne; have := a2 e; omega
    have z3 : r3 = r4 → r3 = x := fun e => by
      by_contra ne; have := hy r3 ne; have := a3 e; omega
    clear hy a0 a1 a2 a3
    rw [count_five] at hx
    split_ifs at hx <;>
    first
    | (exfalso; clear z0 z1 z2 z3; omega)
    | (refine Or.inl ⟨?_, ?_, ?_, ?_⟩ <;> omega)
    | (refine Or.inr (Or.inl ⟨?_, ?_, ?_, ?_⟩) <;> omega)
    | (refine Or.inr (Or.inr (Or.inl ⟨?_, ?_, ?_, ?_⟩)) <;> omega)
    | (refine Or.inr (Or.inr (Or.inr ⟨?_, ?_, ?_, ?_⟩)) <;> omega)
  · intro h
    rcases h with h | h | h | h
    · exact ⟨r0, by rw [count_five]; split_ifs <;> omega, fun y hy => by
        rw [count_five]; split_ifs <;> omega⟩
    · exact ⟨r1, by rw [count_five]; split_ifs <;> omega, fun y hy => by
        rw [count_five]; split_ifs <;> omega⟩
    · exact ⟨r2, by rw [count_five]; split_ifs <;> omega, fun y hy => by
        rw [count_five]; split_ifs <;> omega⟩
    · exact ⟨r3, by rw [count_five]; split_ifs <;> omega, fun y hy => by
        rw [count_five]; split_ifs <;> omega⟩

theorem count_three_iff :
    (∃ a, List.count a [r0, r1, r2, r3, r4] = 3 ∧
        ∀ b, b ≠ a → List.count b [r0, r1, r2, r3, r4] ≤ 1) ↔
      (r0 = r2 ∧ r2 < r3 ∧ r3 < r4) ∨ (r0 < r1 ∧ r1 = r3 ∧ r3 < r4) ∨
        (r0 < r1 ∧ r1 < r2 ∧ r2 = r4) := by
  obtain ⟨a0, a1, a2, a3⟩ := count_adjacent r0 r1 r2 r3 r4
  constructor
  · rintro ⟨x, hx, hy⟩
    have z0 : r0 = r1 → r0 = x := fun e => by
      by_contra ne; have := hy r0 ne; have := a0 e; omega
    have z1 : r1 = r2 → r1 = x := fun e => by
      by_contra ne; have := hy r1 ne; have := a1 e; omega
    have z2 : r2 = r3 → r2 = x := fun e => by
      by_contra ne; have := hy r2 ne; have := a2 e; omega
    have z3 : r3 = r4 → r3 = x := fun e => by
      by_contra ne; have := hy r3 ne; have := a3 e; omega
    clear hy a0 a1 a2 a3
    rw [count_five] at hx
    split_ifs at hx <;>
    first
    | (exfalso; clear z0 z1 z2 z3; omega)
    | (refine Or.inl ⟨?_, ?_, ?_⟩ <;> omega)
    | (refine Or.inr (Or.inl ⟨?_, ?_, ?_⟩) <;> omega)
    | (refine Or.inr (Or.inr ⟨?_, ?_, ?_⟩) <;> omega)
  · intro h
    rcases h with h | h | h
    · exact ⟨r0, by rw [count_five]; split_ifs <;> omega, fun y hy => by
        rw [count_five]; split_ifs <;> omega⟩
    · exact ⟨r1, by rw [count_five]; split_ifs <;> omega, fun y hy => by
        rw [count_five]; split_ifs <;> omega⟩
    · exact ⟨r2, by rw [count_five]; split_ifs <;> omega, fun y hy => by
        rw [count_five]; split_ifs <;> omega⟩
end SortedCounts

/-! ## From the drawn hand to its sorted ranks -/

theorem flushTest_iff (a b c d e : Int) :
    flushTest [a, b, c, d, e] = true ↔ SameSuit [a, b, c, d, e] := by
  have hr : List.range 5 = [0, 1, 2, 3, 4] := by decide
  simp only [flushTest, hr, List.foldl, cardAt, List.getD_cons_zero, List.getD_cons_succ,
    SameSuit, List.mem_cons, List.mem_singleton, List.not_mem_nil, forall_eq_or_imp, forall_eq]
  split_ifs <;> simp <;> omega

theorem suitOf_nonneg_eq (c : Int) (h : 0 ≤ c) : suitOf c = c / 13 := by
  unfold suitOf; exact Int.tdiv_eq_ediv h (by decide)

theorem rank_class_small (s : List Int) (hn : s.Nodup)
    (hdom : (∀ c ∈ s, 0 ≤ c ∧ c < 52) ∨ (∀ c ∈ s, 1 ≤ c ∧ c ≤ 52))
    (r : Int) (hr : ∀ c ∈ s, rankOf c = r) : s.length ≤ 4 := by
  have key : ∀ T : List Int, T.length = 4 → (∀ c ∈ s, c ∈ T) → s.length ≤ 4 := by
    intro T hT hsub
    have := (List.subperm_of_subset hn hsub).length_le
    omega
  rcases hdom with hd | hd
  · refine key [r, r + 13, r + 26, r + 39] rfl (fun c hc => ?_)
    have h1 := hd c hc
    have h2 := hr c hc
    rw [rankOf_nonneg_eq c h1.1] at h2
    simp only [List.mem_cons, List.mem_singleton, List.not_mem_nil, or_false]
    omega
  · by_cases h0 : r = 0
    · refine key [13, 26, 39, 52] rfl (fun c hc => ?_)
      have h1 := hd c hc
      have h2 := hr c hc
      rw [rankOf_nonneg_eq c (by omega)] at h2
      simp only [List.mem_cons, List.mem_singleton, List.not_mem_nil, or_false]
      omega
    · refine key [r, r + 13, r + 26, r + 39] rfl (fun c hc => ?_)
      have h1 := hd c hc
      have h2 := hr c hc
      rw [rankOf_nonneg_eq c (by omega)] at h2
      simp only [List.mem_cons, List.mem_singleton, List.not_mem_nil, or_false]
      omega

/-- A drawn hand seen through any ordering of it by rank (whatever the order among
cards of equal rank): both chains return the category that `ShapeTable` gives for the
flush flag and the sorted ranks of the hand. -/
theorem sorted_hand_view (hand sorted : List Int) (h : DrawnHand hand)
    (hperm : sorted.Perm hand) (hsorted : RankSorted sorted) :
    ∃ (fl : Bool) (r0 r1 r2 r3 r4 : Int) (cat : Category),
      (analyseSorted (flushTest hand) sorted).map resolveSlave = some cat ∧
      (analyseSorted (flushTest hand) sorted).map resolveSerial = some cat ∧
      (fl = true ↔ SameSuit hand) ∧ (fl = false ↔ ¬SameSuit hand) ∧
      (ranksOf hand).Perm [r0, r1, r2, r3, r4] ∧
      r0 ≤ r1 ∧ r1 ≤ r2 ∧ r2 ≤ r3 ∧ r3 ≤ r4 ∧ 0 ≤ r0 ∧ r4 ≤ 12 ∧
      ShapeTable fl r0 r1 r2 r3 r4 cat := by
  obtain ⟨hlen, hnd, hdom⟩ := h
  obtain ⟨s0, s1, s2, s3, s4, rfl⟩ := length_five sorted (hperm.length_eq.trans hlen)
  obtain ⟨a, b, c, d, e, rfl⟩ := length_five hand hlen
  -- facts about the sorted cards
  have hnd' : [s0, s1, s2, s3, s4].Nodup := hperm.nodup_iff.mpr hnd
  have hdom' : (∀ c ∈ [s0, s1, s2, s3, s4], 0 ≤ c ∧ c < 52) ∨
      (∀ c ∈ [s0, s1, s2, s3, s4], 1 ≤ c ∧ c ≤ 52) := by
    rcases hdom with hd | hd
    · exact Or.inl fun c hc => hd c (hperm.mem_iff.mp hc)
    · exact Or.inr fun c hc => hd c (hperm.mem_iff.mp hc)
  have hb : ∀ c ∈ [s0, s1, s2, s3, s4], 0 ≤ c := by
    intro c hc
    rcases hdom' with hd | hd
    · exact (hd c hc).1
    · have := (hd c hc).1; omega
  have p0 : 0 ≤ s0 := hb s0 (by simp)
  have p1 : 0 ≤ s1 := hb s1 (by simp)
  have p2 : 0 ≤ s2 := hb s2 (by simp)
  have p3 : 0 ≤ s3 := hb s3 (by simp)
  have p4 : 0 ≤ s4 := hb s4 (by simp)
  have hso : rankOf s0 ≤ rankOf s1 ∧ rankOf s1 ≤ rankOf s2 ∧ rankOf s2 ≤ rankOf s3 ∧
      rankOf s3 ≤ rankOf s4 := by
    simp only [RankSorted, List.pairwise_cons, List.mem_cons, List.mem_singleton,
      List.not_mem_nil, forall_eq_or_imp, forall_eq] at hsorted
    exact ⟨hsorted.1.1, hsorted.2.1.1, hsorted.2.2.1.1, hsorted.2.2.2.1.1⟩
  obtain ⟨h01, h12, h23, h34⟩ := hso
  have hsuit : SameSuit [a, b, c, d, e] ↔ SameSuit [s0, s1, s2, s3, s4] := by
    unfold SameSuit
    constructor
    · intro hh x hx y hy
      exact hh x (hperm.mem_iff.mp hx) y (hperm.mem_iff.mp hy)
    · intro hh x hx y hy
      exact hh x (hperm.mem_iff.mpr hx) y (hperm.mem_iff.mpr hy)
  have hflush : flushTest [a, b, c, d, e] = true ↔ SameSuit [a, b, c, d, e] :=
    flushTest_iff a b c d e
  have hstrict : flushTest [a, b, c, d, e] = true →
      rankOf s0 < rankOf s1 ∧ rankOf s1 < rankOf s2 ∧ rankOf s2 < rankOf s3 ∧
        rankOf s3 < rankOf s4 := by
    intro hf
    have hq := hsuit.mp (hflush.mp hf)
    have q1 := hq s0 (by simp) s1 (by simp)
    have q2 := hq s1 (by simp) s2 (by simp)
    have q3 := hq s2 (by simp) s3 (by simp)
    have q4 := hq s3 (by simp) s4 (by simp)
    simp only [List.nodup_cons, List.mem_cons, List.mem_singleton, List.not_mem_nil,
      not_or] at hnd'
    rw [suitOf_nonneg_eq _ p0, suitOf_nonneg_eq _ p1] at q1
    rw [suitOf_nonneg_eq _ p1, suitOf_nonneg_eq _ p2] at q2
    rw [suitOf_nonneg_eq _ p2, suitOf_nonneg_eq _ p3] at q3
    rw [suitOf_nonneg_eq _ p3, suitOf_nonneg_eq _ p4] at q4
    simp only [rankOf_nonneg_eq _ p0, rankOf_nonneg_eq _ p1, rankOf_nonneg_eq _ p2,
      rankOf_nonneg_eq _ p3, rankOf_nonneg_eq _ p4] at h01 h12 h23 h34 ⊢
    have n01 : s0 ≠ s1 := fun hh => hnd'.1.1 hh
    have n12 : s1 ≠ s2 := fun hh => hnd'.2.1.1 hh
    have n23 : s2 ≠ s3 := fun hh => hnd'.2.2.1.1 hh
    have n34 : s3 ≠ s4 := fun hh => hnd'.2.2.2.1.1 hh
    omega
  have h04 : rankOf s0 ≠ rankOf s4 := by
    intro heq
    have hall : ∀ c ∈ [s0, s1, s2, s3, s4], rankOf c = rankOf s0 := by
      intro c hc
      simp only [List.mem_cons, List.mem_singleton, List.not_mem_nil, or_false] at hc
      rcases hc with rfl | rfl | rfl | rfl | rfl <;> omega
    have := rank_class_small _ hnd' hdom' _ hall
    simp at this
  obtain ⟨cat, hc1, hc2, htab⟩ := sorted_classification (flushTest [a, b, c, d, e])
    s0 s1 s2 s3 s4 _ _ _ _ _ p0 p1 p2 p3 p4 rfl rfl rfl rfl rfl h01 h12 h23 h34 h04 hstrict
  refine ⟨flushTest [a, b, c, d, e], rankOf s0, rankOf s1, rankOf s2, rankOf s3, rankOf s4,
    cat, ?_, ?_, hflush, ?_, ?_, h01, h12, h23, h34, ?_, ?_, htab⟩
  · exact hc1
  · exact hc2
  · rw [← hflush]; simp
  · have := (hperm.map rankOf).symm
    simpa [ranksOf] using this
  · rw [rankOf_nonneg_eq _ p0]; omega
  · rw [rankOf_nonneg_eq _ p4]; omega

/-- A drawn hand seen through its sorted ranks, with the sort the program runs. -/
theorem drawn_hand_view (hand : List Int) (h : DrawnHand hand) :
    ∃ (fl : Bool) (r0 r1 r2 r3 r4 : Int) (cat : Category),
      processSlave_classify hand = some cat ∧ drawHands_classify hand = some cat ∧
      (fl = true ↔ SameSuit hand) ∧ (fl = false ↔ ¬SameSuit hand) ∧
      (ranksOf hand).Perm [r0, r1, r2, r3, r4] ∧
      r0 ≤ r1 ∧ r1 ≤ r2 ∧ r2 ≤ r3 ∧ r3 ≤ r4 ∧ 0 ≤ r0 ∧ r4 ≤ 12 ∧
      ShapeTable fl r0 r1 r2 r3 r4 cat :=
  sorted_hand_view hand (sortHand hand) h (sortHand_perm hand) (sortHand_sorted hand)

/-- The classification table: on a drawn hand both chains return one and the same
category, and each category is returned exactly for the hands of its definition. -/
theorem classification_table (hand : List Int) (h : DrawnHand hand) :
    ∃ cat : Category,
      processSlave_classify hand = some cat ∧ drawHands_classify hand = some cat ∧
      (cat = .RoyalFlush ↔ IsRoyalFlush hand) ∧
      (cat = .StraightFlush ↔ IsStraightFlush hand) ∧
      (cat = .FourOfAKind ↔ IsFourOfAKind hand) ∧
      (cat = .FullHouse ↔ IsFullHouse hand) ∧
      (cat = .Flush ↔ IsFlush hand) ∧
      (cat = .Straight ↔ IsStraight hand) ∧
      (cat = .ThreeOfAKind ↔ IsThreeOfAKind hand) ∧
      (cat = .TwoPair ↔ IsTwoPair hand) ∧
      (cat = .OnePair ↔ IsOnePair hand) ∧
      (cat = .NoPair ↔ IsNoPair hand) := by
  obtain ⟨fl, r0, r1, r2, r3, r4, cat, hs, hd, hfl, hnfl, hp, h01, h12, h23, h34, hlo, hhi,
    tRF, tSF, tFK, tFH, tFl, tSt, tTK, tTP, tOP, tNP⟩ := drawn_hand_view hand h
  have kA := aceHigh_iff hand r0 r1 r2 r3 r4 hp h01 h12 h23 h34
  have kC := consecutive_iff hand r0 r1 r2 r3 r4 hp h01 h12 h23 h34
  have kD := distinct_iff hand r0 r1 r2 r3 r4 hp h01 h12 h23 h34
  have kcount : ∀ x, rankCount hand x = List.count x [r0, r1, r2, r3, r4] :=
    fun x => hp.count_eq x
  refine ⟨cat, hs, hd, ?_, ?_, ?_, ?_, ?_, ?_, ?_, ?_, ?_, ?_⟩
  · rw [tRF, IsRoyalFlush, hfl, kA]
  · rw [tSF, IsStraightFlush, hfl]
    constructor
    · rintro ⟨hsame, hc⟩
      refine ⟨hsame, r0, hlo, by omega, ?_⟩
      exact (consecutiveFrom_iff hand r0 r1 r2 r3 r4 hp h01 h12 h23 h34 r0).mpr
        ⟨rfl, hc.1, hc.2.1, hc.2.2.1, hc.2.2.2⟩
    · rintro ⟨hsame, r, -, -, hc⟩
      have := (consecutiveFrom_iff hand r0 r1 r2 r3 r4 hp h01 h12 h23 h34 r).mp hc
      exact ⟨hsame, by omega⟩
  · rw [tFK, IsFourOfAKind, ← count_four_iff r0 r1 r2 r3 r4 h01 h12 h23 h34]
    simp only [kcount]
  · rw [tFH, IsFullHouse, ← count_fullHouse_iff r0 r1 r2 r3 r4 h01 h12 h23 h34]
    simp only [kcount]
  · rw [tFl, IsFlush, hfl, kC, kA]
  · rw [tSt, IsStraight, hnfl, kD, kC, kA]
  · rw [tTK, IsThreeOfAKind, ← count_three_iff r0 r1 r2 r3 r4 h01 h12 h23 h34]
    simp only [kcount]
  · rw [tTP, IsTwoPair, ← count_twoPair_iff r0 r1 r2 r3 r4 h01 h12 h23 h34]
    simp only [kcount]
  · rw [tOP, IsOnePair, ← count_onePair_iff r0 r1 r2 r3 r4 h01 h12 h23 h34]
    simp only [kcount]
  · rw [tNP, IsNoPair, hnfl, kD, kC, kA]
    constructor <;> rintro ⟨a, b, c, d⟩ <;> exact ⟨b, a, c, d⟩

theorem wrapAround_not_straight (hand : List Int) (hw : WrapAroundRanks hand) :
    ¬ConsecutiveRanks hand ∧ ¬AceHighRanks hand := by
  have key : ∀ t0 t1 t2 t3 t4 : Int, (ranksOf hand).Perm [t0, t1, t2, t3, t4] →
      t0 ≤ t1 → t1 ≤ t2 → t2 ≤ t3 → t3 ≤ t4 → (t0 = 0 ∧ t1 = 1 ∧ 10 ≤ t4) →
      ¬ConsecutiveRanks hand ∧ ¬AceHighRanks hand := by
    intro t0 t1 t2 t3 t4 hp g01 g12 g23 g34 hsh
    rw [consecutive_iff hand t0 t1 t2 t3 t4 hp g01 g12 g23 g34,
      aceHigh_iff hand t0 t1 t2 t3 t4 hp g01 g12 g23 g34]
    omega
  rcases hw with hw | hw | hw
  · exact key 0 1 10 11 12 (hw.trans (by decide)) (by decide) (by decide) (by decide)
      (by decide) (by decide)
  · exact key 0 1 2 11 12 (hw.trans (by decide)) (by decide) (by decide) (by decide)
      (by decide) (by decide)
  · exact key 0 1 2 3 12 (hw.trans (by decide)) (by decide) (by decide) (by decide)
      (by decide) (by decide)

/-! ## The claims about the classifier -/

/-- C1: a hand of five distinct cards is counted as Royal Flush, by `processSlave` and by
`drawHands`/`processSerial` alike, exactly when its five cards have one suit and its ranks
are exactly Ace, Ten, Jack, Queen, King. -/
theorem royalFlush_iff (hand : List Int) (h : DrawnHand hand) :
    (processSlave_classify hand = some .RoyalFlush ↔ IsRoyalFlush hand) ∧
      (drawHands_classify hand = some .RoyalFlush ↔ IsRoyalFlush hand) := by
  obtain ⟨cat, hs, hd, t, -⟩ := classification_table hand h
  rw [hs, hd, Option.some.injEq]
  exact ⟨t, t⟩

/-- C1 at A-K-Q-J-10 of one suit, drawn in the order K, A, 10, Q, J. -/
theorem royalFlush_iff_witness :
    DrawnHand [25, 13, 22, 24, 23] ∧
      ((processSlave_classify [25, 13, 22, 24, 23] = some .RoyalFlush ↔
          IsRoyalFlush [25, 13, 22, 24, 23]) ∧
        (drawHands_classify [25, 13, 22, 24, 23] = some .RoyalFlush ↔
          IsRoyalFlush [25, 13, 22, 24, 23])) :=
  ⟨by decide, royalFlush_iff [25, 13, 22, 24, 23] (by decide)⟩

/-- C2: a hand of five distinct cards is counted as Straight exactly when its cards are
not all of one suit, its ranks are pairwise distinct, and the ranks are five consecutive
values or the Ace-high set; a wrap-around rank set is never counted as Straight. -/
theorem straight_iff (hand : List Int) (h : DrawnHand hand) :
    (processSlave_classify hand = some .Straight ↔ IsStraight hand) ∧
      (drawHands_classify hand = some .Straight ↔ IsStraight hand) ∧
      (WrapAroundRanks hand →
        processSlave_classify hand ≠ some .Straight ∧
          drawHands_classify hand ≠ some .Straight) := by
  obtain ⟨cat, hs, hd, -, -, -, -, -, t, -⟩ := classification_table hand h
  rw [hs, hd, Option.some.injEq]
  refine ⟨t, t, fun hw => ?_⟩
  have hn : ¬IsStraight hand := by
    rintro ⟨-, -, hc | ha⟩
    · exact (wrapAround_not_straight hand hw).1 hc
    · exact (wrapAround_not_straight hand hw).2 ha
  rw [← t] at hn
  exact ⟨fun e => hn (Option.some.inj e), fun e => hn (Option.some.inj e)⟩

/-- C2 at Q-K-A-2-3 (ranks 11, 12, 0, 1, 2) of mixed suits. -/
theorem straight_iff_witness :
    DrawnHand [11, 12, 13, 14, 15] ∧
      ((processSlave_classify [11, 12, 13, 14, 15] = some .Straight ↔
          IsStraight [11, 12, 13, 14, 15]) ∧
        (drawHands_classify [11, 12, 13, 14, 15] = some .Straight ↔
          IsStraight [11, 12, 13, 14, 15]) ∧
        (WrapAroundRanks [11, 12, 13, 14, 15] →
          processSlave_classify [11, 12, 13, 14, 15] ≠ some .Straight ∧
            drawHands_classify [11, 12, 13, 14, 15] ≠ some .Straight)) :=
  ⟨by decide, straight_iff [11, 12, 13, 14, 15] (by decide)⟩

/-- C3: a hand of five distinct cards is counted as Full House exactly when three of its cards
share one rank and the other two share a second rank, whichever of the two ranks sorts
first. -/
theorem fullHouse_iff (hand : List Int) (h : DrawnHand hand) :
    (processSlave_classify hand = some .FullHouse ↔ IsFullHouse hand) ∧
      (drawHands_classify hand = some .FullHouse ↔ IsFullHouse hand) := by
  obtain ⟨cat, hs, hd, -, -, -, t, -⟩ := classification_table hand h
  rw [hs, hd, Option.some.injEq]
  exact ⟨t, t⟩

/-- C3 at three cards of rank 2 and two of rank 5: the run of three is found first. -/
theorem fullHouse_iff_witness :
    DrawnHand [2, 5, 15, 18, 28] ∧
      ((processSlave_classify [2, 5, 15, 18, 28] = some .FullHouse ↔
          IsFullHouse [2, 5, 15, 18, 28]) ∧
        (drawHands_classify [2, 5, 15, 18, 28] = some .FullHouse ↔
          IsFullHouse [2, 5, 15, 18, 28])) :=
  ⟨by decide, fullHouse_iff [2, 5, 15, 18, 28] (by decide)⟩

/-- C4: a hand of five distinct cards is counted as Four of a Kind exactly when four of its
five cards have the same rank, whether the odd card sorts before or after the four. -/
theorem fourOfAKind_iff (hand : List Int) (h : DrawnHand hand) :
    (processSlave_classify hand = some .FourOfAKind ↔ IsFourOfAKind hand) ∧
      (drawHands_classify hand = some .FourOfAKind ↔ IsFourOfAKind hand) := by
  obtain ⟨cat, hs, hd, -, -, t, -⟩ := classification_table hand h
  rw [hs, hd, Option.some.injEq]
  exact ⟨t, t⟩

/-- C4 at four cards of rank 5 and one of rank 2: the odd card sorts first. -/
theorem fourOfAKind_iff_witness :
    DrawnHand [5, 18, 2, 31, 44] ∧
      ((processSlave_classify [5, 18, 2, 31, 44] = some .FourOfAKind ↔
          IsFourOfAKind [5, 18, 2, 31, 44]) ∧
        (drawHands_classify [5, 18, 2, 31, 44] = some .FourOfAKind ↔
          IsFourOfAKind [5, 18, 2, 31, 44])) :=
  ⟨by decide, fourOfAKind_iff [5, 18, 2, 31, 44] (by decide)⟩

/-- C5: a hand of five distinct cards is counted as Straight Flush exactly when its cards have
one suit and its sorted ranks are `r..r+4` for some `0 ≤ r ≤ 8`. -/
theorem straightFlush_iff (hand : List Int) (h : DrawnHand hand) :
    (processSlave_classify hand = some .StraightFlush ↔ IsStraightFlush hand) ∧
      (drawHands_classify hand = some .StraightFlush ↔ IsStraightFlush hand) := by
  obtain ⟨cat, hs, hd, -, t, -⟩ := classification_table hand h
  rw [hs, hd, Option.some.injEq]
  exact ⟨t, t⟩

/-- C5 at A-2-3-4-5 (ranks 0..4) of one suit. -/
theorem straightFlush_iff_witness :
    DrawnHand [17, 13, 16, 14, 15] ∧
      ((processSlave_classify [17, 13, 16, 14, 15] = some .StraightFlush ↔
          IsStraightFlush [17, 13, 16, 14, 15]) ∧
        (drawHands_classify [17, 13, 16, 14, 15] = some .StraightFlush ↔
          IsStraightFlush [17, 13, 16, 14, 15])) :=
  ⟨by decide, straightFlush_iff [17, 13, 16, 14, 15] (by decide)⟩

/-- C6: a hand of five distinct cards is counted as One Pair exactly when exactly two of its
cards share a rank and the other three ranks differ from it and from each other, wherever
the pair lies in the sorted hand. -/
theorem onePair_iff (hand : List Int) (h : DrawnHand hand) :
    (processSlave_classify hand = some .OnePair ↔ IsOnePair hand) ∧
      (drawHands_classify hand = some .OnePair ↔ IsOnePair hand) := by
  obtain ⟨cat, hs, hd, -, -, -, -, -, -, -, -, t, -⟩ := classification_table hand h
  rw [hs, hd, Option.some.injEq]
  exact ⟨t, t⟩

/-- C6 at a pair of Kings (rank 12) in the last two sorted positions. -/
theorem onePair_iff_witness :
    DrawnHand [25, 2, 18, 12, 34] ∧
      ((processSlave_classify [25, 2, 18, 12, 34] = some .OnePair ↔
          IsOnePair [25, 2, 18, 12, 34]) ∧
        (drawHands_classify [25, 2, 18, 12, 34] = some .OnePair ↔
          IsOnePair [25, 2, 18, 12, 34])) :=
  ⟨by decide, onePair_iff [25, 2, 18, 12, 34] (by decide)⟩

/-- C7: a hand of five distinct cards is counted as Two Pair exactly when two different ranks
are held by exactly two cards each and the fifth card has a third rank. -/
theorem twoPair_iff (hand : List Int) (h : DrawnHand hand) :
    (processSlave_classify hand = some .TwoPair ↔ IsTwoPair hand) ∧
      (drawHands_classify hand = some .TwoPair ↔ IsTwoPair hand) := by
  obtain ⟨cat, hs, hd, -, -, -, -, -, -, -, t, -⟩ := classification_table hand h
  rw [hs, hd, Option.some.injEq]
  exact ⟨t, t⟩

/-- C7 at two cards of rank 3, two of rank 12 and one of rank 7. -/
theorem twoPair_iff_witness :
    DrawnHand [3, 25, 16, 7, 12] ∧
      ((processSlave_classify [3, 25, 16, 7, 12] = some .TwoPair ↔
          IsTwoPair [3, 25, 16, 7, 12]) ∧
        (drawHands_classify [3, 25, 16, 7, 12] = some .TwoPair ↔
          IsTwoPair [3, 25, 16, 7, 12])) :=
  ⟨by decide, twoPair_iff [3, 25, 16, 7, 12] (by decide)⟩

/-- C8: a hand of five distinct cards is counted as Three of a Kind exactly when exactly three
of its cards share a rank and the remaining two cards have two further, different ranks. -/
theorem threeOfAKind_iff (hand : List Int) (h : DrawnHand hand) :
    (processSlave_classify hand = some .ThreeOfAKind ↔ IsThreeOfAKind hand) ∧
      (drawHands_classify hand = some .ThreeOfAKind ↔ IsThreeOfAKind hand) := by
  obtain ⟨cat, hs, hd, -, -, -, -, -, -, t, -⟩ := classification_table hand h
  rw [hs, hd, Option.some.injEq]
  exact ⟨t, t⟩

/-- C8 at three cards of rank 7, one of rank 2 and one of rank 12. -/
theorem threeOfAKind_iff_witness :
    DrawnHand [7, 12, 20, 2, 33] ∧
      ((processSlave_classify [7, 12, 20, 2, 33] = some .ThreeOfAKind ↔
          IsThreeOfAKind [7, 12, 20, 2, 33]) ∧
        (drawHands_classify [7, 12, 20, 2, 33] = some .ThreeOfAKind ↔
          IsThreeOfAKind [7, 12, 20, 2, 33])) :=
  ⟨by decide, threeOfAKind_iff [7, 12, 20, 2, 33] (by decide)⟩

/-- C9: a hand of five distinct cards is counted as No Pair exactly when its ranks are
pairwise distinct, its cards are not all of one suit, and its ranks are neither five
consecutive values nor the Ace-high set; a hand that meets the definition of any other
category is never counted as No Pair. -/
theorem noPair_iff (hand : List Int) (h : DrawnHand hand) :
    (processSlave_classify hand = some .NoPair ↔ IsNoPair hand) ∧
      (drawHands_classify hand = some .NoPair ↔ IsNoPair hand) ∧
      (IsRoyalFlush hand ∨ IsStraightFlush hand ∨ IsFourOfAKind hand ∨ IsFullHouse hand ∨
          IsFlush hand ∨ IsStraight hand ∨ IsThreeOfAKind hand ∨ IsTwoPair hand ∨
          IsOnePair hand →
        processSlave_classify hand ≠ some .NoPair ∧
          drawHands_classify hand ≠ some .NoPair) := by
  obtain ⟨cat, hs, hd, t1, t2, t3, t4, t5, t6, t7, t8, t9, t⟩ := classification_table hand h
  rw [hs, hd, Option.some.injEq]
  refine ⟨t, t, fun ho => ?_⟩
  have hn : cat ≠ .NoPair := by
    rcases ho with o | o | o | o | o | o | o | o | o
    · rw [t1.mpr o]; decide
    · rw [t2.mpr o]; decide
    · rw [t3.mpr o]; decide
    · rw [t4.mpr o]; decide
    · rw [t5.mpr o]; decide
    · rw [t6.mpr o]; decide
    · rw [t7.mpr o]; decide
    · rw [t8.mpr o]; decide
    · rw [t9.mpr o]; decide
  exact ⟨fun e => hn (Option.some.inj e), fun e => hn (Option.some.inj e)⟩

/-- C9 at the ranks 2, 5, 8, 10, 12 in mixed suits. -/
theorem noPair_iff_witness :
    DrawnHand [2, 18, 34, 49, 12] ∧
      ((processSlave_classify [2, 18, 34, 49, 12] = some .NoPair ↔
          IsNoPair [2, 18, 34, 49, 12]) ∧
        (drawHands_classify [2, 18, 34, 49, 12] = some .NoPair ↔
          IsNoPair [2, 18, 34, 49, 12]) ∧
        (IsRoyalFlush [2, 18, 34, 49, 12] ∨ IsStraightFlush [2, 18, 34, 49, 12] ∨
            IsFourOfAKind [2, 18, 34, 49, 12] ∨ IsFullHouse [2, 18, 34, 49, 12] ∨
            IsFlush [2, 18, 34, 49, 12] ∨ IsStraight [2, 18, 34, 49, 12] ∨
            IsThreeOfAKind [2, 18, 34, 49, 12] ∨ IsTwoPair [2, 18, 34, 49, 12] ∨
            IsOnePair [2, 18, 34, 49, 12] →
          processSlave_classify [2, 18, 34, 49, 12] ≠ some .NoPair ∧
            drawHands_classify [2, 18, 34, 49, 12] ≠ some .NoPair)) :=
  ⟨by decide, noPair_iff [2, 18, 34, 49, 12] (by decide)⟩

/-- C10: a hand of five distinct cards is counted as Flush exactly when its five cards have the
same suit and its ranks are neither five consecutive values nor the Ace-high set. -/
theorem flush_iff (hand : List Int) (h : DrawnHand hand) :
    (processSlave_classify hand = some .Flush ↔ IsFlush hand) ∧
      (drawHands_classify hand = some .Flush ↔ IsFlush hand) := by
  obtain ⟨cat, hs, hd, -, -, -, -, t, -⟩ := classification_table hand h
  rw [hs, hd, Option.some.injEq]
  exact ⟨t, t⟩

/-- C10 at the ranks 2, 5, 8, 11, 12 in one suit. -/
theorem flush_iff_witness :
    DrawnHand [28, 31, 34, 37, 38] ∧
      ((processSlave_classify [28, 31, 34, 37, 38] = some .Flush ↔
          IsFlush [28, 31, 34, 37, 38]) ∧
        (drawHands_classify [28, 31, 34, 37, 38] = some .Flush ↔
          IsFlush [28, 31, 34, 37, 38])) :=
  ⟨by decide, flush_iff [28, 31, 34, 37, 38] (by decide)⟩

/-! ## Flush hands and the group scan; the three copies of the chain -/

/-- Card identifiers with the same suit and the same rank are equal. -/
theorem card_eq_of_suit_rank (c d : Int) (hs : suitOf c = suitOf d) (hr : rankOf c = rankOf d) :
    c = d := by
  have h1 := Int.tmod_add_tdiv c 13
  have h2 := Int.tmod_add_tdiv d 13
  unfold suitOf at hs
  unfold rankOf at hr
  rw [hs, hr] at h1
  omega

/-- The group scan of five cards whose neighbours differ in rank sets no flag. -/
theorem groupLoop_no_groups (s0 s1 s2 s3 s4 : Int)
    (n01 : rankOf s0 ≠ rankOf s1) (n12 : rankOf s1 ≠ rankOf s2)
    (n23 : rankOf s2 ≠ rankOf s3) (n34 : rankOf s3 ≠ rankOf s4) :
    groupLoop [s0, s1, s2, s3, s4] 5 0 noGroups = some noGroups := by
  simp [groupLoop, runEnd, cardAt, markRun, noGroups, n01, n12, n23, n34]

/-- The group scan returns on every array of five cards, and a run of four leaves the
pair and triple flags unset. -/
theorem groupLoop_total (s0 s1 s2 s3 s4 : Int) :
    ∃ g, groupLoop [s0, s1, s2, s3, s4] 5 0 noGroups = some g ∧
      (g.isQuadruple = true → g.isPair = false ∧ g.isTriple = false) := by
  generalize e0 : rankOf s0 = r0
  generalize e1 : rankOf s1 = r1
  generalize e2 : rankOf s2 = r2
  generalize e3 : rankOf s3 = r3
  generalize e4 : rankOf s4 = r4
  rcases eq_or_ne r0 r1 with a01 | n01 <;> rcases eq_or_ne r1 r2 with a12 | n12 <;>
  rcases eq_or_ne r2 r3 with a23 | n23 <;> rcases eq_or_ne r3 r4 with a34 | n34 <;>
  (try subst a01) <;> (try subst a12) <;> (try subst a23) <;> (try subst a34) <;>
  simp [groupLoop, runEnd, cardAt, markRun, noGroups, *]

/-- The three chains pick the same category whenever a set quadruple flag excludes the
pair and triple flags and the royal flag implies the straight flag. -/
theorem resolve_agree_flags :
    ∀ p t tp fh q r s f : Bool, (q = true → p = false ∧ t = false) → (r = true → s = true) →
      resolveSlave ⟨⟨p, t, tp, fh, q⟩, r, s, f⟩ = specPriority ⟨⟨p, t, tp, fh, q⟩, r, s, f⟩ ∧
        resolveSerial ⟨⟨p, t, tp, fh, q⟩, r, s, f⟩ =
          specPriority ⟨⟨p, t, tp, fh, q⟩, r, s, f⟩ := by
  decide

/-- The straight test sets the royal flag only together with the straight flag, and leaves
the group flags as they are. -/
theorem straightTest_flags (fl : Bool) (s : List Int) (g : GroupFlags) :
    (straightTest fl s g).groups = g ∧
      ((straightTest fl s g).isRoyal = true → (straightTest fl s g).isStraight = true) := by
  unfold straightTest
  split_ifs <;> simp

/-- On the flags the analysis can produce, the three chains pick the same category. -/
theorem resolve_agree (fl : Bool) (s : List Int) (g : GroupFlags)
    (hq : g.isQuadruple = true → g.isPair = false ∧ g.isTriple = false) :
    resolveSlave (straightTest fl s g) = specPriority (straightTest fl s g) ∧
      resolveSerial (straightTest fl s g) = specPriority (straightTest fl s g) := by
  obtain ⟨hg, hr⟩ := straightTest_flags fl s g
  generalize straightTest fl s g = h at hg hr
  obtain ⟨⟨p, t, tp, fh, q⟩, r, st, f⟩ := h
  subst hg
  exact resolve_agree_flags p t tp fh q r st f hq hr

/-- Without a group flag the chain of `processSlave` picks no pairing category. -/
theorem resolveSlave_no_groups :
    ∀ r s f : Bool,
      resolveSlave ⟨noGroups, r, s, f⟩ ≠ .FourOfAKind ∧
        resolveSlave ⟨noGroups, r, s, f⟩ ≠ .FullHouse ∧
        resolveSlave ⟨noGroups, r, s, f⟩ ≠ .ThreeOfAKind ∧
        resolveSlave ⟨noGroups, r, s, f⟩ ≠ .TwoPair ∧
        resolveSlave ⟨noGroups, r, s, f⟩ ≠ .OnePair := by
  decide

/-- C11: in a hand of five distinct cards of one suit no two cards have the same rank, so
the group scan, had it been run, would have set no flag: the analysis with a full scan is
the analysis the code makes, and neither chain counts the hand as a pairing category. -/
theorem flush_skips_nothing (hand : List Int) (h : DrawnHand hand) (hs : SameSuit hand) :
    DistinctRanks hand ∧
      groupLoop (sortHand hand) 5 0 noGroups = some noGroups ∧
      analyseFullScan hand = analyse hand ∧
      ∃ cat, (analyseFullScan hand).map resolveSlave = some cat ∧
        (analyseFullScan hand).map resolveSerial = some cat ∧
        cat ≠ .FourOfAKind ∧ cat ≠ .FullHouse ∧ cat ≠ .ThreeOfAKind ∧ cat ≠ .TwoPair ∧
        cat ≠ .OnePair := by
  obtain ⟨hlen, hnd, -⟩ := h
  have hinj : ∀ x ∈ hand, ∀ y ∈ hand, rankOf x = rankOf y → x = y :=
    fun x hx y hy hr => card_eq_of_suit_rank x y (hs x hx y hy) hr
  have hdist : DistinctRanks hand := List.Nodup.map_on hinj hnd
  have hperm := sortHand_perm hand
  obtain ⟨s0, s1, s2, s3, s4, hsort⟩ :=
    length_five (sortHand hand) (hperm.length_eq.trans hlen)
  rw [hsort] at hperm
  have hnd' : [s0, s1, s2, s3, s4].Nodup := hperm.nodup_iff.mpr hnd
  have hne : ∀ x ∈ [s0, s1, s2, s3, s4], ∀ y ∈ [s0, s1, s2, s3, s4], x ≠ y →
      rankOf x ≠ rankOf y :=
    fun x hx y hy hxy hr => hxy (hinj x (hperm.mem_iff.mp hx) y (hperm.mem_iff.mp hy) hr)
  simp only [List.nodup_cons, List.mem_cons, List.mem_singleton, List.not_mem_nil,
    not_or] at hnd'
  have hscan : groupLoop [s0, s1, s2, s3, s4] 5 0 noGroups = some noGroups :=
    groupLoop_no_groups s0 s1 s2 s3 s4
      (hne s0 (by simp) s1 (by simp) hnd'.1.1)
      (hne s1 (by simp) s2 (by simp) hnd'.2.1.1)
      (hne s2 (by simp) s3 (by simp) hnd'.2.2.1.1)
      (hne s3 (by simp) s4 (by simp) hnd'.2.2.2.1.1)
  obtain ⟨a, b, c, d, e, rfl⟩ := length_five hand hlen
  have hfl : flushTest [a, b, c, d, e] = true := (flushTest_iff a b c d e).mpr hs
  have hfull : analyseFullScan [a, b, c, d, e] =
      some (straightTest true [s0, s1, s2, s3, s4] noGroups) := by
    simp only [analyseFullScan, hsort, hscan, hfl, Option.map_some']
  have hana : analyse [a, b, c, d, e] =
      some (straightTest true [s0, s1, s2, s3, s4] noGroups) := by
    simp [analyse, analyseSorted, groupScan, hsort, hfl]
  refine ⟨hdist, by rw [hsort]; exact hscan, hfull.trans hana.symm,
    resolveSlave (straightTest true [s0, s1, s2, s3, s4] noGroups), ?_, ?_, ?_⟩
  · rw [hfull]; rfl
  · rw [hfull]
    have := (resolve_agree true [s0, s1, s2, s3, s4] noGroups (by simp [noGroups]))
    simp only [Option.map_some', this.1, this.2]
  · obtain ⟨hg, -⟩ := straightTest_flags true [s0, s1, s2, s3, s4] noGroups
    generalize straightTest true [s0, s1, s2, s3, s4] noGroups = fl at hg
    obtain ⟨g, r, st, f⟩ := fl
    subst hg
    exact resolveSlave_no_groups r st f

/-- C11 at the ranks 2, 5, 8, 11, 12 of one suit. -/
theorem flush_skips_nothing_witness :
    DrawnHand [28, 31, 34, 37, 38] ∧ SameSuit [28, 31, 34, 37, 38] ∧
      (DistinctRanks [28, 31, 34, 37, 38] ∧
        groupLoop (sortHand [28, 31, 34, 37, 38]) 5 0 noGroups = some noGroups ∧
        analyseFullScan [28, 31, 34, 37, 38] = analyse [28, 31, 34, 37, 38] ∧
        ∃ cat, (analyseFullScan [28, 31, 34, 37, 38]).map resolveSlave = some cat ∧
          (analyseFullScan [28, 31, 34, 37, 38]).map resolveSerial = some cat ∧
          cat ≠ .FourOfAKind ∧ cat ≠ .FullHouse ∧ cat ≠ .ThreeOfAKind ∧ cat ≠ .TwoPair ∧
          cat ≠ .OnePair) :=
  ⟨by decide, by unfold SameSuit; decide,
    flush_skips_nothing [28, 31, 34, 37, 38] (by decide) (by unfold SameSuit; decide)⟩

/-- C12: on every five-card hand the chain of `processSlave`, the chain of `drawHands` and
the chain of `processSerial` return a category, and it is the one the priority order of the
specification selects. -/
theorem chains_agree (hand : List Int) (h5 : hand.length = 5) :
    ∃ cat, processSlave_classify hand = some cat ∧ drawHands_classify hand = some cat ∧
      processSerial_classify hand = some cat ∧ (analyse hand).map specPriority = some cat := by
  have hperm := sortHand_perm hand
  obtain ⟨s0, s1, s2, s3, s4, hsort⟩ :=
    length_five (sortHand hand) (hperm.length_eq.trans h5)
  have hg : ∃ g, groupScan (flushTest hand) [s0, s1, s2, s3, s4] = some g ∧
      (g.isQuadruple = true → g.isPair = false ∧ g.isTriple = false) := by
    cases hfl : flushTest hand
    · obtain ⟨g, hg, hq⟩ := groupLoop_total s0 s1 s2 s3 s4
      exact ⟨g, by simpa [groupScan] using hg, hq⟩
    · exact ⟨noGroups, by simp [groupScan], by simp [noGroups]⟩
  obtain ⟨g, hg, hq⟩ := hg
  have hana : analyse hand = some (straightTest (flushTest hand) [s0, s1, s2, s3, s4] g) := by
    simp only [analyse, analyseSorted, hsort, hg, Option.map_some']
  obtain ⟨h1, h2⟩ := resolve_agree (flushTest hand) [s0, s1, s2, s3, s4] g hq
  refine ⟨specPriority (straightTest (flushTest hand) [s0, s1, s2, s3, s4] g), ?_, ?_, ?_, ?_⟩
  · simp only [processSlave_classify, hana, Option.map_some', h1]
  · simp only [drawHands_classify, hana, Option.map_some', h2]
  · simp only [processSerial_classify, hana, Option.map_some', h2]
  · simp only [hana, Option.map_some']

/-- C12 at four cards of rank 5 and one of rank 2, where the two orders test the quadruple
flag at different places. -/
theorem chains_agree_witness :
    [5, 18, 2, 31, 44].length = 5 ∧
      ∃ cat, processSlave_classify [5, 18, 2, 31, 44] = some cat ∧
        drawHands_classify [5, 18, 2, 31, 44] = some cat ∧
        processSerial_classify [5, 18, 2, 31, 44] = some cat ∧
        (analyse [5, 18, 2, 31, 44]).map specPriority = some cat :=
  ⟨rfl, chains_agree [5, 18, 2, 31, 44] rfl⟩

/-! ## The deck stays a deck -/

theorem boole_le_count (deck : List Int) (i : Nat) (hi : i < deck.length) (b : Int) :
    (if (deck[i] == b) = true then 1 else 0) ≤ deck.count b := by
  split
  · rename_i h
    have hb : deck[i] = b := by simpa using h
    exact List.count_pos_iff.mpr (hb ▸ List.getElem_mem hi)
  · omega

/-- Exchanging two cards of the deck leaves a permutation of the deck. -/
theorem swapCards_perm (deck : List Int) (i j : Nat) (hi : i < deck.length)
    (hj : j < deck.length) : (swapCards deck i j).Perm deck := by
  rw [List.perm_iff_count]
  intro b
  unfold swapCards cardAt
  rw [List.getD_eq_getElem _ _ hi, List.getD_eq_getElem _ _ hj]
  rw [List.count_set _ _ _ _ (by simpa using hj), List.count_set _ _ _ _ hi]
  have h1 := boole_le_count deck i hi b
  have h2 := boole_le_count deck j hj b
  by_cases hij : i = j
  · subst hij
    simp only [List.getElem_set_self]
    generalize (if (deck[i] == b) = true then 1 else 0) = x at *
    omega
  · rw [List.getElem_set_ne hij]
    generalize (if (deck[i] == b) = true then 1 else 0) = x at *
    generalize (if (deck[j] == b) = true then 1 else 0) = y at *
    omega

theorem randomizeLoop_perm (rand : Nat → Nat) (m : Nat) (deck : List Int) (k : Nat)
    (hlen : deck.length = 52) (hm : m ≤ 52) :
    (randomizeLoop rand m deck k).1.Perm deck := by
  induction m generalizing deck k with
  | zero => exact List.Perm.refl _
  | succ i ih =>
    have hj : getRandom rand k < 52 := Nat.mod_lt _ (by decide)
    have hs := swapCards_perm deck i (getRandom rand k) (by omega) (by omega)
    unfold randomizeLoop
    exact (ih _ _ (hs.length_eq.trans hlen) (by omega)).trans hs

/-- One call `randomizeDeck(deck, 52, rank)` returns a permutation of the deck it was
given, whatever the draw source returns. -/
theorem randomizeDeck_perm (rand : Nat → Nat) (deck : List Int) (k : Nat)
    (hlen : deck.length = 52) : (randomizeDeck deck 52 rand k).1.Perm deck :=
  randomizeLoop_perm rand 52 deck k hlen (le_refl _)

theorem setUpDeck_eq : setUpDeck =
    [1, 2, 3, 4, 5, 6, 7, 8, 9, 10, 11, 12, 13, 14, 15, 16, 17, 18, 19, 20, 21, 22, 23, 24, 25,
      26, 27, 28, 29, 30, 31, 32, 33, 34, 35, 36, 37, 38, 39, 40, 41, 42, 43, 44, 45, 46, 47, 48,
      49, 50, 51, 52] := by
  decide

theorem setUpDeck_nodup : setUpDeck.Nodup := by
  rw [setUpDeck_eq]; decide

theorem mem_setUpDeck (c : Int) : c ∈ setUpDeck ↔ 1 ≤ c ∧ c ≤ 52 := by
  unfold setUpDeck
  simp only [List.mem_map, List.mem_range']
  constructor
  · rintro ⟨i, ⟨k, hk, rfl⟩, rfl⟩; omega
  · intro h; exact ⟨c.toNat, ⟨c.toNat - 1, by omega, by omega⟩, by omega⟩

theorem shuffledDeck_perm (rand : Nat → Nat) (m : Nat) :
    (shuffledDeck rand m).1.Perm setUpDeck := by
  induction m with
  | zero => exact List.Perm.refl _
  | succ m ih =>
    have hlen : (shuffledDeck rand m).1.length = 52 := ih.length_eq.trans (by decide)
    exact (randomizeDeck_perm rand _ _ hlen).trans ih

/-- C20: after `setUpDeck` and any number of calls of `randomizeDeck`, whatever the draw
source returns, the deck is a permutation of the deck `setUpDeck` built: it holds each of
the identifiers 1..52 exactly once and nothing else, and the five cards drawn from its top
are pairwise distinct. -/
theorem deck_stays_deck (rand : Nat → Nat) (m : Nat) :
    (shuffledDeck rand m).1.Perm setUpDeck ∧
      (∀ c ∈ setUpDeck, (shuffledDeck rand m).1.count c = 1) ∧
      (shuffledDeck rand m).1.length = 52 ∧
      (drawHand (shuffledDeck rand m).1).Nodup ∧
      DrawnHand (drawHand (shuffledDeck rand m).1) := by
  have hp := shuffledDeck_perm rand m
  have hnd : (shuffledDeck rand m).1.Nodup := hp.nodup_iff.mpr setUpDeck_nodup
  have hlen : (shuffledDeck rand m).1.length = 52 := hp.length_eq.trans (by decide)
  have htake : (drawHand (shuffledDeck rand m).1).Nodup :=
    hnd.sublist (List.take_sublist 5 _)
  refine ⟨hp, ?_, hlen, htake, ?_, htake, Or.inr ?_⟩
  · intro c hc
    exact List.count_eq_one_of_mem hnd (hp.mem_iff.mpr hc)
  · simp [drawHand, hlen]
  · intro c hc
    exact (mem_setUpDeck c).mp (hp.mem_iff.mp (List.mem_of_mem_take hc))

/-! ## The worker -/

/-- Different categories have different labels. -/
theorem label_injective (c d : Category) (h : label c = label d) : c = d := by
  cases c <;> cases d <;> first | rfl | exact absurd h (by decide)

/-- What `checkMessageFromMaster` does to the worker: the table is untouched, and
`isActive` drops by one exactly when a posted receive reports the tag `TAG_QUIT`. -/
theorem checkMessageFromMaster_spec (incoming : Option Int) (st : Slave) :
    (checkMessageFromMaster incoming st).frequencyMap = st.frequencyMap ∧
      (checkMessageFromMaster incoming st).isActive =
        (if st.request = true ∧ incoming = some TAG_QUIT then st.isActive - 1
          else st.isActive) := by
  obtain ⟨t, a, r⟩ := st
  cases r <;> cases incoming <;> simp [checkMessageFromMaster] <;> split_ifs <;> simp_all

theorem slaveLoop_snoc (inputs : List (Category × Option Int)) (x : Category × Option Int) :
    slaveLoop (inputs ++ [x]) = slaveStep (slaveLoop inputs) x := by
  simp [slaveLoop, List.foldl_append]

theorem slaveStep_inactive (r : SlaveRun) (h : r.state.isActive = 0)
    (later : List (Category × Option Int)) : later.foldl slaveStep r = r := by
  induction later with
  | nil => rfl
  | cons x xs ih =>
    have : slaveStep r x = r := by simp [slaveStep, h]
    simpa [List.foldl_cons, this] using ih

theorem slaveLoop_append (pre later : List (Category × Option Int)) :
    slaveLoop (pre ++ later) = later.foldl slaveStep (slaveLoop pre) := by
  simp [slaveLoop, List.foldl_append]

/-- A pass of the worker loop in which the worker stays active: the counter of the
classified category goes up by one, and its notice is sent exactly when it was 0. -/
theorem slaveIteration_active (cat : Category) (incoming : Option Int) (st : Slave)
    (h : (checkMessageFromMaster incoming st).isActive ≠ 0) :
    (slaveIteration cat incoming st).1.frequencyMap =
        Function.update st.frequencyMap cat (st.frequencyMap cat + 1) ∧
      (slaveIteration cat incoming st).1.isActive =
        (checkMessageFromMaster incoming st).isActive ∧
      (slaveIteration cat incoming st).2 =
        (if st.frequencyMap cat = 0 then [Msg.data 0 (label cat)] else []) := by
  have hf := (checkMessageFromMaster_spec incoming st).1
  simp only [slaveIteration, h, ne_eq, not_false_eq_true, if_true, tallyHand, hf]
  refine ⟨trivial, trivial, ?_⟩
  by_cases h0 : st.frequencyMap cat = 0 <;> simp [h0]

/-- A pass of the worker loop in which the worker stops: nothing is counted or sent. -/
theorem slaveIteration_stopped (cat : Category) (incoming : Option Int) (st : Slave)
    (h : (checkMessageFromMaster incoming st).isActive = 0) :
    (slaveIteration cat incoming st).1.frequencyMap = st.frequencyMap ∧
      (slaveIteration cat incoming st).1.isActive = 0 ∧
      (slaveIteration cat incoming st).2 = [] := by
  have hf := (checkMessageFromMaster_spec incoming st).1
  simp [slaveIteration, h, hf]

/-- What holds of a worker at every point of its loop. -/
theorem slaveLoop_invariant (inputs : List (Category × Option Int)) :
    ((slaveLoop inputs).state.isActive = 0 ∨ (slaveLoop inputs).state.isActive = 1) ∧
      (∀ c, 0 ≤ (slaveLoop inputs).state.frequencyMap c) ∧
      (∀ c, (slaveLoop inputs).sent.count (Msg.data 0 (label c)) =
        if 1 ≤ (slaveLoop inputs).state.frequencyMap c then 1 else 0) ∧
      (∀ m ∈ (slaveLoop inputs).sent, ∃ c, m = Msg.data 0 (label c)) := by
  induction inputs using List.reverseRecOn with
  | nil => simp [slaveLoop, slaveInit]
  | append_singleton xs x ih =>
    obtain ⟨hact, hnn, hcount, hmsg⟩ := ih
    rw [slaveLoop_snoc]
    generalize slaveLoop xs = r at *
    obtain ⟨cat, inc⟩ := x
    by_cases ha : r.state.isActive = 0
    · have hstep : slaveStep r (cat, inc) = r := by simp [slaveStep, ha]
      rw [hstep]
      exact ⟨Or.inl ha, hnn, hcount, hmsg⟩
    · unfold slaveStep
      have h1 : r.state.isActive = 1 := by rcases hact with h | h; exact absurd h ha; exact h
      simp only [ha, ne_eq, not_false_eq_true, if_true]
      have hcm := (checkMessageFromMaster_spec inc r.state).2
      by_cases hq : (checkMessageFromMaster inc r.state).isActive = 0
      · obtain ⟨e1, e2, e3⟩ := slaveIteration_stopped cat inc r.state hq
        rw [e1, e2, e3, List.append_nil]
        exact ⟨Or.inl rfl, hnn, hcount, hmsg⟩
      · obtain ⟨e1, e2, e3⟩ := slaveIteration_active cat inc r.state hq
        rw [e1, e2, e3]
        refine ⟨?_, ?_, ?_, ?_⟩
        · rw [hcm]; split_ifs <;> omega
        · intro c
          by_cases hc : c = cat
          · subst hc; simp; have := hnn c; omega
          · simp [Function.update_noteq hc]; exact hnn c
        · intro c
          have hn := hnn cat
          by_cases hc : c = cat
          · subst hc
            rw [List.count_append, hcount c]
            simp only [Function.update_same]
            by_cases h0 : r.state.frequencyMap c = 0
            · simp [h0]
            · have h1' : 1 ≤ r.state.frequencyMap c := by omega
              have h2' : 1 ≤ r.state.frequencyMap c + 1 := by omega
              simp [h0, h1', h2']
          · rw [List.count_append, hcount c, Function.update_noteq hc]
            have hl : label cat ≠ label c := fun hh => hc (label_injective _ _ hh).symm
            have hm : Msg.data 0 (label cat) ≠ Msg.data 0 (label c) := by
              intro hh; injection hh with _ hh; exact hl hh
            have hz : List.count (Msg.data 0 (label c))
                (if r.state.frequencyMap cat = 0 then [Msg.data 0 (label cat)] else []) = 0 := by
              split_ifs
              · exact List.count_eq_zero.mpr (by simpa using hm.symm)
              · rfl
            rw [hz]; rfl
        · intro m hm
          rcases List.mem_append.mp hm with hm | hm
          · exact hmsg m hm
          · split_ifs at hm
            · exact ⟨cat, by simpa using hm⟩
            · simp at hm

/-- C16: in a pass of the worker loop in which no termination is observed, the counter of
the classified category, and no other, goes up by one, and the notice of that category is
sent exactly when the counter goes from 0 to 1; so at every point of a run the worker has
sent one notice for each category it has counted at least once, none for the others, and
nothing else. -/
theorem worker_discovery (pre : List (Category × Option Int)) (cat : Category)
    (incoming : Option Int) :
    ((slaveLoop pre).state.isActive ≠ 0 →
      ¬((slaveLoop pre).state.request = true ∧ incoming = some TAG_QUIT) →
      (slaveLoop (pre ++ [(cat, incoming)])).state.frequencyMap =
          Function.update (slaveLoop pre).state.frequencyMap cat
            ((slaveLoop pre).state.frequencyMap cat + 1) ∧
        (slaveLoop (pre ++ [(cat, incoming)])).sent =
          (slaveLoop pre).sent ++
            (if (slaveLoop pre).state.frequencyMap cat = 0 then [Msg.data 0 (label cat)]
              else [])) ∧
      (∀ c, (slaveLoop pre).sent.count (Msg.data 0 (label c)) =
        if 1 ≤ (slaveLoop pre).state.frequencyMap c then 1 else 0) ∧
      (∀ m ∈ (slaveLoop pre).sent, ∃ c, m = Msg.data 0 (label c)) := by
  obtain ⟨-, -, hcount, hmsg⟩ := slaveLoop_invariant pre
  refine ⟨fun ha hq => ?_, hcount, hmsg⟩
  have hcm := (checkMessageFromMaster_spec incoming (slaveLoop pre).state).2
  rw [if_neg hq] at hcm
  have hact : (checkMessageFromMaster incoming (slaveLoop pre).state).isActive ≠ 0 := by
    rw [hcm]; exact ha
  obtain ⟨e1, -, e3⟩ := slaveIteration_active cat incoming (slaveLoop pre).state hact
  rw [slaveLoop_snoc]
  simp only [slaveStep, ha, ne_eq, not_false_eq_true, if_true, e1, e3]
  exact ⟨trivial, trivial⟩

/-- C16 at the second hand without a pair of a worker that has counted one before. -/
theorem worker_discovery_witness :
    (slaveLoop [(Category.NoPair, none)]).state.isActive ≠ 0 ∧
      ¬((slaveLoop [(Category.NoPair, none)]).state.request = true ∧
        (none : Option Int) = some TAG_QUIT) ∧
      ((slaveLoop ([(Category.NoPair, none)] ++ [(Category.NoPair, none)])).state.frequencyMap =
          Function.update (slaveLoop [(Category.NoPair, none)]).state.frequencyMap .NoPair
            ((slaveLoop [(Category.NoPair, none)]).state.frequencyMap .NoPair + 1) ∧
        (slaveLoop ([(Category.NoPair, none)] ++ [(Category.NoPair, none)])).sent =
          (slaveLoop [(Category.NoPair, none)]).sent ++
            (if (slaveLoop [(Category.NoPair, none)]).state.frequencyMap .NoPair = 0 then
              [Msg.data 0 (label .NoPair)]
            else [])) :=
  ⟨by decide, by decide,
    (worker_discovery [(Category.NoPair, none)] .NoPair none).1 (by decide) (by decide)⟩

/-- C17: in the pass in which the worker observes the termination message, the table stays
as it is, whatever the hand of that pass, and nothing is sent; the loop does not run again,
and all that the worker sends after what it had sent before that pass are ten messages with
the tag `TAG_RESULTS` to the coordinator, which carry the counts of the table as it was
before that pass, in the order FullHouse, TwoPair, FourOfAKind, ThreeOfAKind, OnePair,
RoyalFlush, StraightFlush, Straight, Flush, NoPair. -/
theorem quit_pass (pre later : List (Category × Option Int)) (cat : Category)
    (hact : (slaveLoop pre).state.isActive ≠ 0) (hreq : (slaveLoop pre).state.request = true) :
    (slaveLoop (pre ++ [(cat, some TAG_QUIT)])).state.frequencyMap =
        (slaveLoop pre).state.frequencyMap ∧
      (slaveLoop (pre ++ [(cat, some TAG_QUIT)])).sent = (slaveLoop pre).sent ∧
      (slaveLoop (pre ++ [(cat, some TAG_QUIT)])).state.isActive = 0 ∧
      slaveLoop (pre ++ (cat, some TAG_QUIT) :: later) =
        slaveLoop (pre ++ [(cat, some TAG_QUIT)]) ∧
      processSlave (pre ++ (cat, some TAG_QUIT) :: later) =
        some ((slaveLoop pre).sent ++
          [Msg.results 0 ((slaveLoop pre).state.frequencyMap .FullHouse),
            Msg.results 0 ((slaveLoop pre).state.frequencyMap .TwoPair),
            Msg.results 0 ((slaveLoop pre).state.frequencyMap .FourOfAKind),
            Msg.results 0 ((slaveLoop pre).state.frequencyMap .ThreeOfAKind),
            Msg.results 0 ((slaveLoop pre).state.frequencyMap .OnePair),
            Msg.results 0 ((slaveLoop pre).state.frequencyMap .RoyalFlush),
            Msg.results 0 ((slaveLoop pre).state.frequencyMap .StraightFlush),
            Msg.results 0 ((slaveLoop pre).state.frequencyMap .Straight),
            Msg.results 0 ((slaveLoop pre).state.frequencyMap .Flush),
            Msg.results 0 ((slaveLoop pre).state.frequencyMap .NoPair)]) := by
  have h1 : (slaveLoop pre).state.isActive = 1 := by
    rcases (slaveLoop_invariant pre).1 with h | h
    · exact absurd h hact
    · exact h
  have hcm := (checkMessageFromMaster_spec (some TAG_QUIT) (slaveLoop pre).state).2
  rw [if_pos ⟨hreq, rfl⟩, h1] at hcm
  obtain ⟨e1, e2, e3⟩ :=
    slaveIteration_stopped cat (some TAG_QUIT) (slaveLoop pre).state (by rw [hcm]; rfl)
  have hstep : slaveLoop (pre ++ [(cat, some TAG_QUIT)]) =
      ⟨(slaveIteration cat (some TAG_QUIT) (slaveLoop pre).state).1, (slaveLoop pre).sent⟩ := by
    rw [slaveLoop_snoc]
    simp only [slaveStep, hact, ne_eq, not_false_eq_true, if_true, e3, List.append_nil]
  have hlater : slaveLoop (pre ++ (cat, some TAG_QUIT) :: later) =
      slaveLoop (pre ++ [(cat, some TAG_QUIT)]) := by
    have : pre ++ (cat, some TAG_QUIT) :: later = (pre ++ [(cat, some TAG_QUIT)]) ++ later := by
      simp
    rw [this, slaveLoop_append]
    exact slaveStep_inactive _ (by rw [hstep]; exact e2) later
  refine ⟨by rw [hstep]; exact e1, by rw [hstep], by rw [hstep]; exact e2, hlater, ?_⟩
  unfold processSlave
  rw [hlater, hstep]
  simp only [e2, if_true, e1]
  rfl

/-- C17 at a worker that has counted one flush and draws a royal flush in the pass in
which the termination message comes in: all it ever sends is the notice of the flush and
then the ten counts, 1 for Flush and 0 for the others, the royal flush among them. -/
theorem quit_pass_witness :
    (slaveLoop [(Category.Flush, none)]).state.isActive ≠ 0 ∧
      (slaveLoop [(Category.Flush, none)]).state.request = true ∧
      processSlave ([(Category.Flush, none)] ++
          (Category.RoyalFlush, some TAG_QUIT) :: [(Category.NoPair, none)]) =
        some [Msg.data 0 (label .Flush), Msg.results 0 0, Msg.results 0 0, Msg.results 0 0,
          Msg.results 0 0, Msg.results 0 0, Msg.results 0 0, Msg.results 0 0, Msg.results 0 0,
          Msg.results 0 1, Msg.results 0 0] :=
  ⟨by decide, by decide,
    (quit_pass [(Category.Flush, none)] [(Category.NoPair, none)] .RoyalFlush
      (by decide) (by decide)).2.2.2.2⟩

/-- C18 as the claim is worded fails: a worker that counts one hand and is then told to
stop sends ten messages with the tag `TAG_RESULTS`, not one. -/
theorem tally_is_not_one_message :
    (processSlave [(Category.NoPair, none), (Category.NoPair, some TAG_QUIT)]).map
        (fun out => (out.filter (fun m => decide (m.tag = TAG_RESULTS))).length) = some 10 ∧
      (processSlave [(Category.NoPair, none), (Category.NoPair, some TAG_QUIT)]).map
        (fun out => (out.filter (fun m => decide (m.tag = TAG_RESULTS))).length) ≠ some 1 := by
  decide

/-- C18, amended: when the worker has stopped, the messages with the tag `TAG_RESULTS`
among all it has sent are the ten sent after the loop, one count each, in the order
FullHouse, TwoPair, FourOfAKind, ThreeOfAKind, OnePair, RoyalFlush, StraightFlush, Straight,
Flush, NoPair; they come last and carry the final table. -/
theorem final_tally_messages (inputs : List (Category × Option Int)) (out : List Msg)
    (h : processSlave inputs = some out) :
    out = (slaveLoop inputs).sent ++
        (resultValues (slaveLoop inputs).state.frequencyMap).map (Msg.results 0) ∧
      out.filter (fun m => decide (m.tag = TAG_RESULTS)) =
        (resultValues (slaveLoop inputs).state.frequencyMap).map (Msg.results 0) ∧
      (out.filter (fun m => decide (m.tag = TAG_RESULTS))).length = 10 := by
  unfold processSlave at h
  split_ifs at h
  have hout : out = (slaveLoop inputs).sent ++
      (resultValues (slaveLoop inputs).state.frequencyMap).map (Msg.results 0) := by
    rw [← Option.some.inj h]; rfl
  have hnone : (slaveLoop inputs).sent.filter (fun m => decide (m.tag = TAG_RESULTS)) = [] := by
    rw [List.filter_eq_nil_iff]
    intro m hm
    obtain ⟨c, rfl⟩ := (slaveLoop_invariant inputs).2.2.2 m hm
    simp [Msg.tag, TAG_DATA, TAG_RESULTS]
  have hfilter : out.filter (fun m => decide (m.tag = TAG_RESULTS)) =
      (resultValues (slaveLoop inputs).state.frequencyMap).map (Msg.results 0) := by
    rw [hout, List.filter_append, hnone, List.nil_append]
    simp [resultValues, Msg.tag]
  exact ⟨hout, hfilter, by rw [hfilter]; rfl⟩

/-- C18, amended, at a worker that counts one hand and is then told to stop. -/
theorem final_tally_messages_witness :
    processSlave [(Category.NoPair, none), (Category.NoPair, some TAG_QUIT)] =
        some ([Msg.data 0 (label .NoPair)] ++
          (resultValues (Function.update (fun _ => 0) Category.NoPair 1)).map (Msg.results 0)) ∧
      (([Msg.data 0 (label .NoPair)] ++
          (resultValues (Function.update (fun _ => 0) Category.NoPair 1)).map
            (Msg.results 0)).filter (fun m => decide (m.tag = TAG_RESULTS))).length = 10 :=
  ⟨by decide,
    (final_tally_messages [(Category.NoPair, none), (Category.NoPair, some TAG_QUIT)] _
      (by decide)).2.2⟩

/-! ## The coordinator: tallying the final counts -/

/-- What `tallyResult` does: the `k`-th count from a process goes to the category a worker
sends `k`-th, and the tenth takes one off `activeCount`; nothing else changes. -/
theorem tallyResult_spec (result procID : Int) (m : Master) :
    (tallyResult result procID m).procRecvd =
        Function.update m.procRecvd procID (m.procRecvd procID + 1) ∧
      (∀ c, (tallyResult result procID m).frequencyMap c =
        m.frequencyMap c + (if (sendSlot c : Int) = m.procRecvd procID then result else 0)) ∧
      (tallyResult result procID m).activeCount =
        (if m.procRecvd procID + 1 = 10 then m.activeCount - 1 else m.activeCount) ∧
      (tallyResult result procID m).matchesMap = m.matchesMap ∧
      (tallyResult result procID m).matchesLeft = m.matchesLeft ∧
      (tallyResult result procID m).slavesTerminated = m.slavesTerminated ∧
      (tallyResult result procID m).requestMatch = m.requestMatch ∧
      (tallyResult result procID m).requestResult = m.requestResult := by
  simp only [tallyResult]
  generalize m.procRecvd procID = n
  by_cases h1 : n + 1 = 1
  · rw [if_pos h1]
    refine ⟨rfl, fun c => ?_, by simp; omega, rfl, rfl, rfl, rfl, rfl⟩
    cases c <;> simp [addCount, sendSlot] <;> omega
  rw [if_neg h1]
  by_cases h2 : n + 1 = 2
  · rw [if_pos h2]
    refine ⟨rfl, fun c => ?_, by simp; omega, rfl, rfl, rfl, rfl, rfl⟩
    cases c <;> simp [addCount, sendSlot] <;> omega
  rw [if_neg h2]
  by_cases h3 : n + 1 = 3
  · rw [if_pos h3]
    refine ⟨rfl, fun c => ?_, by simp; omega, rfl, rfl, rfl, rfl, rfl⟩
    cases c <;> simp [addCount, sendSlot] <;> omega
  rw [if_neg h3]
  by_cases h4 : n + 1 = 4
  · rw [if_pos h4]
    refine ⟨rfl, fun c => ?_, by simp; omega, rfl, rfl, rfl, rfl, rfl⟩
    cases c <;> simp [addCount, sendSlot] <;> omega
  rw [if_neg h4]
  by_cases h5 : n + 1 = 5
  · rw [if_pos h5]
    refine ⟨rfl, fun c => ?_, by simp; omega, rfl, rfl, rfl, rfl, rfl⟩
    cases c <;> simp [addCount, sendSlot] <;> omega
  rw [if_neg h5]
  by_cases h6 : n + 1 = 6
  · rw [if_pos h6]
    refine ⟨rfl, fun c => ?_, by simp; omega, rfl, rfl, rfl, rfl, rfl⟩
    cases c <;> simp [addCount, sendSlot] <;> omega
  rw [if_neg h6]
  by_cases h7 : n + 1 = 7
  · rw [if_pos h7]
    refine ⟨rfl, fun c => ?_, by simp; omega, rfl, rfl, rfl, rfl, rfl⟩
    cases c <;> simp [addCount, sendSlot] <;> omega
  rw [if_neg h7]
  by_cases h8 : n + 1 = 8
  · rw [if_pos h8]
    refine ⟨rfl, fun c => ?_, by simp; omega, rfl, rfl, rfl, rfl, rfl⟩
    cases c <;> simp [addCount, sendSlot] <;> omega
  rw [if_neg h8]
  by_cases h9 : n + 1 = 9
  · rw [if_pos h9]
    refine ⟨rfl, fun c => ?_, by simp; omega, rfl, rfl, rfl, rfl, rfl⟩
    cases c <;> simp [addCount, sendSlot] <;> omega
  rw [if_neg h9]
  by_cases h10 : n + 1 = 10
  · rw [if_pos h10]
    refine ⟨rfl, fun c => ?_, by simp [h10], rfl, rfl, rfl, rfl, rfl⟩
    cases c <;> simp [addCount, sendSlot] <;> omega
  rw [if_neg h10]
  refine ⟨rfl, fun c => ?_, by simp [h10], rfl, rfl, rfl, rfl, rfl⟩
  cases c <;> simp [sendSlot] <;> omega

theorem valuesFrom_snoc (msgs : List (Int × Int)) (v p w : Int) :
    valuesFrom (msgs ++ [(v, p)]) w = valuesFrom msgs w ++ (if p = w then [v] else []) := by
  unfold valuesFrom
  by_cases h : p = w <;> simp [List.filter_append, h]

theorem getD_snoc (l : List Int) (v : Int) (k : Nat) :
    (l ++ [v]).getD k 0 = l.getD k 0 + (if k = l.length then v else 0) := by
  rcases Nat.lt_trichotomy k l.length with h | h | h
  · rw [List.getD_append _ _ _ _ h]
    simp [Nat.ne_of_lt h]
  · subst h
    rw [List.getD_append_right _ _ _ _ (le_refl _)]
    simp [List.getD_eq_default]
  · rw [List.getD_append_right _ _ _ _ (Nat.le_of_lt h)]
    have h1 : l.getD k 0 = 0 := List.getD_eq_default _ _ (Nat.le_of_lt h)
    have h2 : [v].getD (k - l.length) 0 = 0 := List.getD_eq_default _ _ (by simp; omega)
    rw [h1, h2, if_neg (Nat.ne_of_gt h)]; rfl

/-- A sum over distinct ranks changes by `d` when one of its terms does. -/
theorem sum_map_change (l : List Int) (hl : l.Nodup) (p : Int) (hp : p ∈ l) (f g : Int → Int)
    (d : Int) (hother : ∀ w ∈ l, w ≠ p → g w = f w) (hat : g p = f p + d) :
    (l.map g).sum = (l.map f).sum + d := by
  induction l with
  | nil => simp at hp
  | cons a l ih =>
    rw [List.nodup_cons] at hl
    simp only [List.map_cons, List.sum_cons]
    by_cases ha : a = p
    · subst ha
      have hsame : l.map g = l.map f := by
        apply List.map_congr_left
        intro w hw
        exact hother w (List.mem_cons_of_mem _ hw) (fun h => hl.1 (h ▸ hw))
      rw [hsame, hat]; omega
    · have hp' : p ∈ l := by
        rcases List.mem_cons.mp hp with h | h
        · exact absurd h.symm ha
        · exact h
      rw [ih hl.2 hp' (fun w hw => hother w (List.mem_cons_of_mem _ hw)),
        hother a (List.mem_cons_self _ _) ha]
      omega

theorem tallyAll_snoc (msgs : List (Int × Int)) (x : Int × Int) (m : Master) :
    tallyAll (msgs ++ [x]) m = tallyResult x.1 x.2 (tallyAll msgs m) := by
  simp [tallyAll, List.foldl_append]

/-- While final counts from the worker ranks are tallied, `procRecvd` counts the messages of
each source, and every category holds the sum, over the workers, of the count that came
in from that worker at the category's place, if it has come in yet. -/
theorem tallyAll_invariant (numProcs : Nat) (workers : List Int) (hw : workers.Nodup)
    (msgs : List (Int × Int)) (hsrc : ∀ x ∈ msgs, x.2 ∈ workers) :
    (∀ p, (tallyAll msgs (masterInit numProcs)).procRecvd p = ((valuesFrom msgs p).length : Int)) ∧
      ∀ c, (tallyAll msgs (masterInit numProcs)).frequencyMap c =
        (workers.map (fun w => (valuesFrom msgs w).getD (sendSlot c) 0)).sum := by
  induction msgs using List.reverseRecOn with
  | nil =>
    refine ⟨fun p => by simp [tallyAll, masterInit, valuesFrom], fun c => ?_⟩
    simp [tallyAll, masterInit, valuesFrom]
  | append_singleton xs x ih =>
    obtain ⟨v, p⟩ := x
    obtain ⟨ih1, ih2⟩ := ih (fun y hy => hsrc y (List.mem_append_left _ hy))
    have hp : p ∈ workers := hsrc (v, p) (by simp)
    rw [tallyAll_snoc]
    obtain ⟨e1, e2, -⟩ := tallyResult_spec v p (tallyAll xs (masterInit numProcs))
    refine ⟨fun q => ?_, fun c => ?_⟩
    · rw [e1, valuesFrom_snoc]
      by_cases hq : p = q
      · subst hq; simp [ih1]
      · rw [Function.update_noteq (Ne.symm hq), ih1]; simp [hq]
    · rw [e2, ih2, ih1]
      symm
      apply sum_map_change workers hw p hp
      · intro w hwm hne
        rw [valuesFrom_snoc, if_neg (Ne.symm hne), List.append_nil]
      · show (valuesFrom (xs ++ [(v, p)]) p).getD (sendSlot c) 0 =
            (valuesFrom xs p).getD (sendSlot c) 0 +
              (if (sendSlot c : Int) = ((valuesFrom xs p).length : Int) then v else 0)
        rw [valuesFrom_snoc, if_pos rfl, getD_snoc]
        congr 1
        simp only [Nat.cast_inj]

/-- C13: when the coordinator, starting from its zeroed table, has tallied the final counts
of all workers, each worker's ten counts having come in in the order the worker sends them
and the workers interleaved in any way, its count of every category is the sum over the
workers of their counts of that category. -/
theorem aggregate_correct (numProcs : Nat) (workers : List Int) (hw : workers.Nodup)
    (tables : Int → Category → Int) (msgs : List (Int × Int))
    (hsrc : ∀ x ∈ msgs, x.2 ∈ workers)
    (hord : ∀ w ∈ workers, valuesFrom msgs w = resultValues (tables w)) (c : Category) :
    (tallyAll msgs (masterInit numProcs)).frequencyMap c =
      (workers.map (fun w => tables w c)).sum := by
  rw [(tallyAll_invariant numProcs workers hw msgs hsrc).2 c]
  congr 1
  apply List.map_congr_left
  intro w hwm
  rw [hord w hwm]
  cases c <;> rfl

/-! ## The coordinator: the loop -/

/-- What the first half of `checkMessagesFromSlaves` does: a notice taken in is counted in
`matches`, and takes one off `matchesLeft` exactly when its count was 0; nothing else
changes but the request. -/
theorem checkMatch_spec (matchIn : Option String) (m : Master) :
    (checkMatch matchIn m).frequencyMap = m.frequencyMap ∧
      (checkMatch matchIn m).procRecvd = m.procRecvd ∧
      (checkMatch matchIn m).activeCount = m.activeCount ∧
      (checkMatch matchIn m).slavesTerminated = m.slavesTerminated ∧
      (checkMatch matchIn m).requestResult = m.requestResult ∧
      (noticeTaken m ⟨matchIn, none⟩ = [] →
        (checkMatch matchIn m).matchesMap = m.matchesMap ∧
          (checkMatch matchIn m).matchesLeft = m.matchesLeft) ∧
      (∀ t, noticeTaken m ⟨matchIn, none⟩ = [t] →
        (checkMatch matchIn m).matchesMap =
            Function.update m.matchesMap t (m.matchesMap t + 1) ∧
          (checkMatch matchIn m).matchesLeft =
            (if m.matchesMap t = 0 then m.matchesLeft - 1 else m.matchesLeft)) := by
  obtain ⟨f, mm, pr, ml, ac, st, rm, rr⟩ := m
  cases rm <;> cases matchIn <;> simp [checkMatch, noticeTaken, checkForMatch]
  split_ifs <;> simp_all

/-- What the second half of `checkMessagesFromSlaves` does: a final count taken in is
tallied; nothing else changes but the request. -/
theorem checkResult_spec (resultIn : Option (Int × Int)) (m : Master) :
    (checkResult resultIn m).matchesMap = m.matchesMap ∧
      (checkResult resultIn m).matchesLeft = m.matchesLeft ∧
      (checkResult resultIn m).slavesTerminated = m.slavesTerminated ∧
      (checkResult resultIn m).requestMatch = m.requestMatch ∧
      (checkResult resultIn m).frequencyMap =
        (tallyAll (resultTaken m ⟨none, resultIn⟩) m).frequencyMap ∧
      (checkResult resultIn m).procRecvd =
        (tallyAll (resultTaken m ⟨none, resultIn⟩) m).procRecvd ∧
      (checkResult resultIn m).activeCount =
        (tallyAll (resultTaken m ⟨none, resultIn⟩) m).activeCount := by
  have rearm : ∀ m1 : Master,
      (if (!m1.requestResult && decide (m1.activeCount > 0)) = true then
          { m1 with requestResult := true } else m1).matchesMap = m1.matchesMap ∧
      (if (!m1.requestResult && decide (m1.activeCount > 0)) = true then
          { m1 with requestResult := true } else m1).matchesLeft = m1.matchesLeft ∧
      (if (!m1.requestResult && decide (m1.activeCount > 0)) = true then
          { m1 with requestResult := true } else m1).slavesTerminated = m1.slavesTerminated ∧
      (if (!m1.requestResult && decide (m1.activeCount > 0)) = true then
          { m1 with requestResult := true } else m1).requestMatch = m1.requestMatch ∧
      (if (!m1.requestResult && decide (m1.activeCount > 0)) = true then
          { m1 with requestResult := true } else m1).frequencyMap = m1.frequencyMap ∧
      (if (!m1.requestResult && decide (m1.activeCount > 0)) = true then
          { m1 with requestResult := true } else m1).procRecvd = m1.procRecvd ∧
      (if (!m1.requestResult && decide (m1.activeCount > 0)) = true then
          { m1 with requestResult := true } else m1).activeCount = m1.activeCount := by
    intro m1
    split_ifs <;> exact ⟨rfl, rfl, rfl, rfl, rfl, rfl, rfl⟩
  obtain ⟨f, mm, pr, ml, ac, st, rm, rr⟩ := m
  cases rr
  · exact rearm _
  · cases resultIn with
    | none => exact rearm _
    | some x =>
      obtain ⟨v, p⟩ := x
      obtain ⟨-, -, -, e4, e5, e6, e7, e8⟩ :=
        tallyResult_spec v p ⟨f, mm, pr, ml, ac, st, rm, true⟩
      obtain ⟨r1, r2, r3, r4, r5, r6, r7⟩ := rearm
        { tallyResult v p ⟨f, mm, pr, ml, ac, st, rm, true⟩ with requestResult := false }
      exact ⟨r1.trans e4, r2.trans e5, r3.trans e6, r4.trans e7, r5, r6, r7⟩

theorem processMaster_snoc (numProcs : Nat) (polled : List Polled) (p : Polled) :
    processMaster numProcs (polled ++ [p]) =
      masterStep numProcs (processMaster numProcs polled) p := by
  simp [processMaster, List.foldl_append]

theorem allLabels_nodup : allLabels.Nodup := by
  decide

theorem mem_allLabels (t : String) : t ∈ allLabels ↔ ∃ c, t = label c := by
  constructor
  · intro h
    simp only [allLabels, List.mem_cons, List.mem_singleton, List.not_mem_nil, or_false] at h
    rcases h with h | h | h | h | h | h | h | h | h | h <;> exact ⟨_, h⟩
  · rintro ⟨c, rfl⟩
    cases c <;> simp [allLabels]

/-- At most ten different labels can have been taken in. -/
theorem card_le_ten (taken : List String) (h : ∀ t ∈ taken, t ∈ allLabels) :
    taken.toFinset.card ≤ 10 := by
  have hsub : taken.toFinset ⊆ allLabels.toFinset := by
    intro t ht
    exact List.mem_toFinset.mpr (h t (List.mem_toFinset.mp ht))
  have := Finset.card_le_card hsub
  have h10 : allLabels.toFinset.card = 10 := by
    rw [List.toFinset_card_of_nodup allLabels_nodup]; rfl
  omega

theorem card_snoc (taken : List String) (t : String) :
    (taken ++ [t]).toFinset.card =
      if t ∈ taken then taken.toFinset.card else taken.toFinset.card + 1 := by
  have : (taken ++ [t]).toFinset = insert t taken.toFinset := by
    ext x; simp [or_comm]
  rw [this]
  split_ifs with h
  · rw [Finset.insert_eq_of_mem (List.mem_toFinset.mpr h)]
  · rw [Finset.card_insert_of_not_mem (fun hh => h (List.mem_toFinset.mp hh))]

theorem noticeTaken_cases (m : Master) (p : Polled) :
    noticeTaken m p = [] ∨ ∃ t, p.matchIn = some t ∧ noticeTaken m p = [t] := by
  unfold noticeTaken
  cases m.requestMatch
  · exact Or.inl rfl
  · cases h : p.matchIn with
    | none => exact Or.inl (by simp [h])
    | some t => exact Or.inr ⟨t, rfl, by simp [h]⟩

/-- What `checkMessagesFromSlaves` does to the discovery state, by the notice taken in. -/
theorem checkMessagesFromSlaves_discovery (p : Polled) (m : Master) :
    (noticeTaken m p = [] →
      (checkMessagesFromSlaves p m).matchesMap = m.matchesMap ∧
        (checkMessagesFromSlaves p m).matchesLeft = m.matchesLeft) ∧
      (∀ t, noticeTaken m p = [t] →
        (checkMessagesFromSlaves p m).matchesMap =
            Function.update m.matchesMap t (m.matchesMap t + 1) ∧
          (checkMessagesFromSlaves p m).matchesLeft =
            (if m.matchesMap t = 0 then m.matchesLeft - 1 else m.matchesLeft)) ∧
      (checkMessagesFromSlaves p m).slavesTerminated = m.slavesTerminated := by
  obtain ⟨-, -, -, c4, -, c6, c7⟩ := checkMatch_spec p.matchIn m
  obtain ⟨r1, r2, r3, -⟩ := checkResult_spec p.resultIn (checkMatch p.matchIn m)
  unfold checkMessagesFromSlaves
  rw [r1, r2, r3]
  exact ⟨c6, c7, c4⟩

/-- The end of a pass: the broadcast is sent, and the flag set, exactly when `matchesLeft`
is 0 and the flag is not set yet; the rest of the state is as `checkMessagesFromSlaves`
left it. -/
theorem masterIteration_spec (numProcs : Nat) (p : Polled) (m : Master) :
    (masterIteration numProcs p m).1.matchesMap = (checkMessagesFromSlaves p m).matchesMap ∧
      (masterIteration numProcs p m).1.matchesLeft =
        (checkMessagesFromSlaves p m).matchesLeft ∧
      (masterIteration numProcs p m).1.frequencyMap =
        (checkMessagesFromSlaves p m).frequencyMap ∧
      (masterIteration numProcs p m).1.procRecvd = (checkMessagesFromSlaves p m).procRecvd ∧
      (masterIteration numProcs p m).1.activeCount =
        (checkMessagesFromSlaves p m).activeCount ∧
      ((checkMessagesFromSlaves p m).matchesLeft = 0 ∧
          (checkMessagesFromSlaves p m).slavesTerminated = false →
        (masterIteration numProcs p m).1.slavesTerminated = true ∧
          (masterIteration numProcs p m).2 = terminateSlaves numProcs) ∧
      (¬((checkMessagesFromSlaves p m).matchesLeft = 0 ∧
          (checkMessagesFromSlaves p m).slavesTerminated = false) →
        (masterIteration numProcs p m).1.slavesTerminated =
            (checkMessagesFromSlaves p m).slavesTerminated ∧
          (masterIteration numProcs p m).2 = []) := by
  unfold masterIteration
  simp only []
  split_ifs with h
  · exact ⟨rfl, rfl, rfl, rfl, rfl, fun _ => ⟨rfl, rfl⟩, fun hn => absurd h hn⟩
  · exact ⟨rfl, rfl, rfl, rfl, rfl, fun hh => absurd hh h, fun _ => ⟨rfl, rfl⟩⟩

theorem masterStep_guard (numProcs : Nat) (r : MasterRun) (p : Polled)
    (h : r.state.matchesLeft > 0 ∨ r.state.activeCount > 0) :
    masterStep numProcs r p =
      ⟨(masterIteration numProcs p r.state).1, r.taken ++ noticeTaken r.state p,
        r.results ++ resultTaken r.state p,
        r.sent ++ [(masterIteration numProcs p r.state).2]⟩ := by
  simp [masterStep, h]

theorem masterStep_done (numProcs : Nat) (r : MasterRun) (p : Polled)
    (h : ¬(r.state.matchesLeft > 0 ∨ r.state.activeCount > 0)) :
    masterStep numProcs r p = r := by
  simp [masterStep, h]

/-- What holds of the discovery state at every point of the coordinator loop, when every
notice carries one of the ten labels. -/
theorem discovery_invariant (numProcs : Nat) (polled : List Polled)
    (hvalid : ∀ p ∈ polled, ∀ t ∈ p.matchIn, t ∈ allLabels) :
    (∀ s, (processMaster numProcs polled).state.matchesMap s =
        ((processMaster numProcs polled).taken.count s : Int)) ∧
      (processMaster numProcs polled).state.matchesLeft =
        10 - ((processMaster numProcs polled).taken.toFinset.card : Int) ∧
      ((processMaster numProcs polled).state.slavesTerminated = true ↔
        (processMaster numProcs polled).taken.toFinset.card = 10) ∧
      (processMaster numProcs polled).sent.flatten =
        (if (processMaster numProcs polled).taken.toFinset.card = 10 then
          terminateSlaves numProcs else []) ∧
      (∀ t ∈ (processMaster numProcs polled).taken, t ∈ allLabels) := by
  induction polled using List.reverseRecOn with
  | nil => simp [processMaster, masterInit]
  | append_singleton ps p ih =>
    obtain ⟨i1, i2, i3, i4, i5⟩ := ih (fun q hq => hvalid q (List.mem_append_left _ hq))
    have hp := hvalid p (by simp)
    rw [processMaster_snoc]
    generalize processMaster numProcs ps = r at *
    by_cases hguard : r.state.matchesLeft > 0 ∨ r.state.activeCount > 0
    · obtain ⟨d1, d2, d3⟩ := checkMessagesFromSlaves_discovery p r.state
      obtain ⟨s1, s2, -, -, -, s6, s7⟩ := masterIteration_spec numProcs p r.state
      have hle := card_le_ten r.taken i5
      rw [masterStep_guard numProcs r p hguard]
      simp only [List.flatten_append, List.flatten_cons, List.flatten_nil, List.append_nil, s1, s2, i4]
      rcases noticeTaken_cases r.state p with hn | ⟨t, ht, hn⟩
      · obtain ⟨e1, e2⟩ := d1 hn
        rw [hn, List.append_nil]
        have hcond : ¬((checkMessagesFromSlaves p r.state).matchesLeft = 0 ∧
            (checkMessagesFromSlaves p r.state).slavesTerminated = false) := by
          rw [e2, d3, i2]
          rintro ⟨h0, hf⟩
          have : r.taken.toFinset.card = 10 := by omega
          rw [i3.mpr this] at hf
          exact Bool.noConfusion hf
        obtain ⟨t1, t2⟩ := s7 hcond
        rw [t1, t2, e1, e2, d3, List.append_nil]
        exact ⟨i1, i2, i3, rfl, i5⟩
      · obtain ⟨e1, e2⟩ := d2 t hn
        have htl : t ∈ allLabels := hp t ht
        have i5' : ∀ x ∈ r.taken ++ [t], x ∈ allLabels := by
          intro x hx
          rcases List.mem_append.mp hx with h | h
          · exact i5 x h
          · rw [List.mem_singleton.mp h]; exact htl
        have hle' := card_le_ten (r.taken ++ [t]) i5'
        have hcard := card_snoc r.taken t
        have hzero : r.state.matchesMap t = 0 ↔ t ∉ r.taken := by
          rw [i1 t]
          constructor
          · intro h hmem
            have := List.count_pos_iff.mpr hmem
            omega
          · intro h
            rw [List.count_eq_zero.mpr h]; rfl
        have hml : (checkMessagesFromSlaves p r.state).matchesLeft =
            10 - ((r.taken ++ [t]).toFinset.card : Int) := by
          rw [e2, hcard, i2]
          by_cases hmem : t ∈ r.taken
          · rw [if_neg (fun h => (hzero.mp h) hmem), if_pos hmem]
          · rw [if_pos (hzero.mpr hmem), if_neg hmem]; push_cast; omega
        rw [hn]
        have hmap : ∀ s, (checkMessagesFromSlaves p r.state).matchesMap s =
            ((r.taken ++ [t]).count s : Int) := by
          intro s
          rw [e1, List.count_append]
          by_cases hs : s = t
          · subst hs; simp [i1]
          · rw [Function.update_noteq hs, i1 s]
            have : [t].count s = 0 := List.count_eq_zero.mpr (by simpa using hs)
            rw [this]; rfl
        have hmono : r.taken.toFinset.card = 10 → (r.taken ++ [t]).toFinset.card = 10 := by
          intro h
          by_cases hmem : t ∈ r.taken
          · rw [hcard, if_pos hmem, h]
          · rw [if_neg hmem] at hcard; omega
        by_cases hcond : (checkMessagesFromSlaves p r.state).matchesLeft = 0 ∧
            (checkMessagesFromSlaves p r.state).slavesTerminated = false
        · obtain ⟨t1, t2⟩ := s6 hcond
          have h10 : (r.taken ++ [t]).toFinset.card = 10 := by
            have := hcond.1; rw [hml] at this; omega
          have hnot : r.taken.toFinset.card ≠ 10 := by
            intro h
            have := hcond.2
            rw [d3, i3.mpr h] at this
            exact Bool.noConfusion this
          rw [t1, t2, if_neg hnot, if_pos h10, List.nil_append]
          exact ⟨hmap, hml, ⟨fun _ => h10, fun _ => rfl⟩, rfl, i5'⟩
        · obtain ⟨t1, t2⟩ := s7 hcond
          have hiff : r.taken.toFinset.card = 10 ↔ (r.taken ++ [t]).toFinset.card = 10 := by
            refine ⟨hmono, fun h => ?_⟩
            by_contra hne
            apply hcond
            refine ⟨by rw [hml, h]; rfl, ?_⟩
            rw [d3]
            cases hst : r.state.slavesTerminated
            · rfl
            · exact absurd (i3.mp hst) hne
          rw [t1, t2, d3, List.append_nil]
          refine ⟨hmap, hml, i3.trans hiff, ?_, i5'⟩
          by_cases h10 : r.taken.toFinset.card = 10
          · rw [if_pos h10, if_pos (hiff.mp h10)]
          · rw [if_neg h10, if_neg (fun h => h10 (hiff.mpr h))]
    · rw [masterStep_done numProcs r p hguard]
      exact ⟨i1, i2, i3, i4, i5⟩

/-- One more pass of the coordinator: either the loop has ended and nothing changes, or the
pass runs, takes in at most one notice, and sends what the body sends. -/
theorem processMaster_step (numProcs : Nat) (polled : List Polled) (p : Polled) :
    processMaster numProcs (polled ++ [p]) = processMaster numProcs polled ∨
      ∃ out,
        (processMaster numProcs (polled ++ [p])).sent =
            (processMaster numProcs polled).sent ++ [out] ∧
          ((processMaster numProcs (polled ++ [p])).taken =
              (processMaster numProcs polled).taken ∨
            ∃ t, p.matchIn = some t ∧
              (processMaster numProcs (polled ++ [p])).taken =
                (processMaster numProcs polled).taken ++ [t]) := by
  rw [processMaster_snoc]
  generalize processMaster numProcs polled = r
  by_cases hguard : r.state.matchesLeft > 0 ∨ r.state.activeCount > 0
  · right
    rw [masterStep_guard numProcs r p hguard]
    refine ⟨_, rfl, ?_⟩
    rcases noticeTaken_cases r.state p with hn | ⟨t, ht, hn⟩
    · left; simp [hn]
    · right; exact ⟨t, ht, by simp [hn]⟩
  · left
    exact masterStep_done numProcs r p hguard

/-- C14: at every point of the coordinator loop, whatever notices with the ten labels come
in, all that has been sent is one broadcast when ten different categories have been
discovered, and nothing when fewer have; the broadcast is what the pass that records the
tenth category sends, later passes send nothing, and the broadcast is one `TAG_QUIT`
message to each rank `1, ..., numProcs - 1`. -/
theorem broadcast_once (numProcs : Nat) (polled : List Polled) (p : Polled)
    (hvalid : ∀ q ∈ polled ++ [p], ∀ t ∈ q.matchIn, t ∈ allLabels) :
    (processMaster numProcs polled).sent.flatten =
        (if (processMaster numProcs polled).taken.toFinset.card = 10 then
          terminateSlaves numProcs else []) ∧
      ((processMaster numProcs polled).taken.toFinset.card < 10 →
        ∀ out ∈ (processMaster numProcs polled).sent, out = []) ∧
      ((processMaster numProcs polled).taken.toFinset.card < 10 →
        (processMaster numProcs (polled ++ [p])).taken.toFinset.card = 10 →
        (processMaster numProcs (polled ++ [p])).sent =
          (processMaster numProcs polled).sent ++ [terminateSlaves numProcs]) ∧
      ((processMaster numProcs polled).taken.toFinset.card = 10 →
        (processMaster numProcs (polled ++ [p])).sent = (processMaster numProcs polled).sent ∨
          (processMaster numProcs (polled ++ [p])).sent =
            (processMaster numProcs polled).sent ++ [[]]) ∧
      terminateSlaves numProcs = (workerRanks numProcs).map Msg.quit ∧
      (workerRanks numProcs).Nodup ∧
      ∀ q : Int, q ∈ workerRanks numProcs ↔ 1 ≤ q ∧ q < numProcs := by
  have hv : ∀ q ∈ polled, ∀ t ∈ q.matchIn, t ∈ allLabels :=
    fun q hq => hvalid q (List.mem_append_left _ hq)
  obtain ⟨-, -, -, i4, i5⟩ := discovery_invariant numProcs polled hv
  obtain ⟨-, -, -, j4, j5⟩ := discovery_invariant numProcs (polled ++ [p]) hvalid
  have hle' := card_le_ten _ j5
  refine ⟨i4, fun hlt out hout => ?_, fun hlt h10 => ?_, fun h10 => ?_, rfl, ?_, ?_⟩
  · rw [if_neg (by omega)] at i4
    exact List.flatten_eq_nil_iff.mp i4 out hout
  · rcases processMaster_step numProcs polled p with hsame | ⟨out, hout, -⟩
    · rw [hsame] at h10; omega
    · rw [hout, List.flatten_append, i4, if_neg (by omega), if_pos h10] at j4
      rw [hout]
      simp only [List.flatten_cons, List.flatten_nil, List.append_nil, List.nil_append] at j4
      rw [j4]
  · rcases processMaster_step numProcs polled p with hsame | ⟨out, hout, htaken⟩
    · left; rw [hsame]
    · right
      have h10' : (processMaster numProcs (polled ++ [p])).taken.toFinset.card = 10 := by
        rcases htaken with h | ⟨t, -, h⟩
        · rw [h]; exact h10
        · have := card_snoc (processMaster numProcs polled).taken t
          rw [← h] at this
          split_ifs at this <;> omega
      rw [hout, List.flatten_append, i4, if_pos h10, if_pos h10'] at j4
      simp only [List.flatten_cons, List.flatten_nil, List.append_nil] at j4
      rw [hout, List.append_cancel_left_eq] at *
      have : out = [] := by
        have hlen := congrArg List.length j4
        simp only [List.length_append] at hlen
        exact List.length_eq_zero.mp (by omega)
      rw [this]
  · unfold workerRanks
    refine List.Nodup.map ?_ (List.nodup_range' 1 _)
    intro a b h
    exact Int.ofNat.inj h
  · intro q
    unfold workerRanks
    simp only [List.mem_map, List.mem_range']
    constructor
    · rintro ⟨a, ⟨k, hk, rfl⟩, rfl⟩; omega
    · intro h; exact ⟨q.toNat, ⟨q.toNat - 1, by omega, by omega⟩, by omega⟩

/-- C14 at nine categories discovered and the notice of the tenth coming in. -/
theorem broadcast_once_witness :
    (∀ q ∈ samplePolls ++ [⟨some (label .RoyalFlush), none⟩], ∀ t ∈ q.matchIn, t ∈ allLabels) ∧
      (processMaster 3 samplePolls).taken.toFinset.card < 10 ∧
      (processMaster 3 (samplePolls ++ [⟨some (label .RoyalFlush), none⟩])).taken.toFinset.card
        = 10 ∧
      (processMaster 3 (samplePolls ++ [⟨some (label .RoyalFlush), none⟩])).sent =
        (processMaster 3 samplePolls).sent ++ [terminateSlaves 3] :=
  ⟨by decide, by decide, by decide,
    (broadcast_once 3 samplePolls ⟨some (label .RoyalFlush), none⟩ (by decide)).2.2.1
      (by decide) (by decide)⟩

/-- C15: at every point of the coordinator loop `matchesLeft` is 10 minus the number of
different labels taken in so far; `checkForMatch` answers true exactly for a label not yet
taken in; the labels taken in only grow; and a pass in which a notice of a label already
taken in comes in leaves `matchesLeft` and `slavesTerminated` as they are and sends
nothing. -/
theorem rediscovery_idempotent (numProcs : Nat) (polled : List Polled) (p : Polled)
    (hvalid : ∀ q ∈ polled ++ [p], ∀ t ∈ q.matchIn, t ∈ allLabels) :
    (processMaster numProcs polled).state.matchesLeft =
        10 - ((processMaster numProcs polled).taken.toFinset.card : Int) ∧
      (∀ t, (checkForMatch t (processMaster numProcs polled).state).1 = true ↔
        t ∉ (processMaster numProcs polled).taken) ∧
      (processMaster numProcs polled).taken.toFinset ⊆
        (processMaster numProcs (polled ++ [p])).taken.toFinset ∧
      (∀ t ∈ p.matchIn, t ∈ (processMaster numProcs polled).taken →
        (processMaster numProcs (polled ++ [p])).state.matchesLeft =
            (processMaster numProcs polled).state.matchesLeft ∧
          (processMaster numProcs (polled ++ [p])).state.slavesTerminated =
            (processMaster numProcs polled).state.slavesTerminated ∧
          (processMaster numProcs (polled ++ [p])).sent.flatten =
            (processMaster numProcs polled).sent.flatten) := by
  have hv : ∀ q ∈ polled, ∀ t ∈ q.matchIn, t ∈ allLabels :=
    fun q hq => hvalid q (List.mem_append_left _ hq)
  obtain ⟨i1, i2, i3, i4, i5⟩ := discovery_invariant numProcs polled hv
  obtain ⟨-, j2, j3, j4, -⟩ := discovery_invariant numProcs (polled ++ [p]) hvalid
  have hstep := processMaster_step numProcs polled p
  refine ⟨i2, fun t => ?_, ?_, fun t ht hmem => ?_⟩
  · simp only [checkForMatch, decide_eq_true_eq, i1 t]
    constructor
    · intro h hmem
      have := List.count_pos_iff.mpr hmem
      omega
    · intro h
      rw [List.count_eq_zero.mpr h]; rfl
  · rcases hstep with hsame | ⟨out, -, h | ⟨t, -, h⟩⟩
    · rw [hsame]
    · rw [h]
    · rw [h]; intro x hx; simp only [List.toFinset_append, Finset.mem_union]; exact Or.inl hx
  · have hcard : (processMaster numProcs (polled ++ [p])).taken.toFinset.card =
        (processMaster numProcs polled).taken.toFinset.card := by
      rcases hstep with hsame | ⟨out, -, h | ⟨t', ht', h⟩⟩
      · rw [hsame]
      · rw [h]
      · have : t' = t := Option.some.inj (ht'.symm.trans ht)
        subst this
        rw [h, card_snoc, if_pos hmem]
    refine ⟨by rw [j2, i2, hcard], ?_, by rw [j4, i4, hcard]⟩
    cases h1 : (processMaster numProcs (polled ++ [p])).state.slavesTerminated <;>
      cases h2 : (processMaster numProcs polled).state.slavesTerminated
    · rfl
    · exact absurd (j3.mpr (hcard ▸ i3.mp h2)) (by simp [h1])
    · exact absurd (i3.mpr (hcard ▸ j3.mp h1)) (by simp [h2])
    · rfl

/-- C15 at nine categories discovered and a notice of one of them coming in again. -/
theorem rediscovery_idempotent_witness :
    (∀ q ∈ samplePolls ++ [⟨some (label .Flush), none⟩], ∀ t ∈ q.matchIn, t ∈ allLabels) ∧
      label .Flush ∈ (processMaster 3 samplePolls).taken ∧
      ((processMaster 3 (samplePolls ++ [⟨some (label .Flush), none⟩])).state.matchesLeft =
            (processMaster 3 samplePolls).state.matchesLeft ∧
          (processMaster 3 (samplePolls ++ [⟨some (label .Flush), none⟩])).state.slavesTerminated =
            (processMaster 3 samplePolls).state.slavesTerminated ∧
          (processMaster 3 (samplePolls ++ [⟨some (label .Flush), none⟩])).sent.flatten =
            (processMaster 3 samplePolls).sent.flatten) :=
  ⟨by decide, by decide,
    (rediscovery_idempotent 3 samplePolls ⟨some (label .Flush), none⟩ (by decide)).2.2.2
      (label .Flush) rfl (by decide)⟩

/-! ## The coordinator: `activeCount` -/

theorem mem_workerRanks (numProcs : Nat) (q : Int) :
    q ∈ workerRanks numProcs ↔ 1 ≤ q ∧ q < numProcs := by
  unfold workerRanks
  simp only [List.mem_map, List.mem_range']
  constructor
  · rintro ⟨a, ⟨k, hk, rfl⟩, rfl⟩; omega
  · intro h; exact ⟨q.toNat, ⟨q.toNat - 1, by omega, by omega⟩, by omega⟩

theorem workerRanks_nodup (numProcs : Nat) : (workerRanks numProcs).Nodup := by
  unfold workerRanks
  refine List.Nodup.map ?_ (List.nodup_range' 1 _)
  intro a b h
  exact Int.ofNat.inj h

theorem workerRanks_length (numProcs : Nat) : (workerRanks numProcs).length = numProcs - 1 := by
  simp [workerRanks]

theorem filter_length_eq_sum (l : List Int) (P : Int → Bool) :
    ((l.filter P).length : Int) = (l.map (fun w => if P w then (1 : Int) else 0)).sum := by
  induction l with
  | nil => rfl
  | cons a l ih =>
    simp only [List.filter_cons, List.map_cons, List.sum_cons]
    cases P a <;> simp [ih]; omega

/-- One more final count from a worker rank finishes one more worker exactly when it is
that worker's tenth. -/
theorem workersDone_snoc (numProcs : Nat) (msgs : List (Int × Int)) (v p : Int)
    (hp : p ∈ workerRanks numProcs) :
    (workersDone numProcs (msgs ++ [(v, p)]) : Int) =
      workersDone numProcs msgs + (if ((valuesFrom msgs p).length : Int) + 1 = 10 then 1 else 0) := by
  unfold workersDone
  rw [filter_length_eq_sum, filter_length_eq_sum]
  apply sum_map_change (workerRanks numProcs) (workerRanks_nodup numProcs) p hp
  · intro w _ hne
    simp only [valuesFrom_snoc, if_neg (Ne.symm hne), List.append_nil]
  · simp only [valuesFrom_snoc, if_true, List.length_append, List.length_singleton,
      decide_eq_true_eq]
    split_ifs <;> omega

/-- While final counts are tallied, `activeCount` is the number of workers less the number
of worker ranks whose ten counts have come in. -/
theorem tallyAll_activeCount (numProcs : Nat) (msgs : List (Int × Int))
    (hsrc : ∀ x ∈ msgs, x.2 ∈ workerRanks numProcs) :
    (tallyAll msgs (masterInit numProcs)).activeCount =
      (numProcs : Int) - 1 - (workersDone numProcs msgs : Int) := by
  induction msgs using List.reverseRecOn with
  | nil => simp [tallyAll, masterInit, workersDone, valuesFrom]
  | append_singleton xs x ih =>
    obtain ⟨v, p⟩ := x
    have hsrc' : ∀ y ∈ xs, y.2 ∈ workerRanks numProcs :=
      fun y hy => hsrc y (List.mem_append_left _ hy)
    have hp : p ∈ workerRanks numProcs := hsrc (v, p) (by simp)
    have hrecv := (tallyAll_invariant numProcs (workerRanks numProcs)
      (workerRanks_nodup numProcs) xs hsrc').1 p
    obtain ⟨-, -, e3, -⟩ := tallyResult_spec v p (tallyAll xs (masterInit numProcs))
    rw [tallyAll_snoc, e3, hrecv, ih hsrc', workersDone_snoc numProcs xs v p hp]
    split_ifs <;> omega

/-- Two coordinator states that agree on the table, `procRecvd` and `activeCount`. -/
theorem tallyResult_congr (v p : Int) (m m' : Master)
    (h : m.frequencyMap = m'.frequencyMap ∧ m.procRecvd = m'.procRecvd ∧
      m.activeCount = m'.activeCount) :
    (tallyResult v p m).frequencyMap = (tallyResult v p m').frequencyMap ∧
      (tallyResult v p m).procRecvd = (tallyResult v p m').procRecvd ∧
      (tallyResult v p m).activeCount = (tallyResult v p m').activeCount := by
  obtain ⟨a1, a2, a3, -⟩ := tallyResult_spec v p m
  obtain ⟨b1, b2, b3, -⟩ := tallyResult_spec v p m'
  obtain ⟨h1, h2, h3⟩ := h
  refine ⟨funext fun c => ?_, ?_, ?_⟩
  · rw [a2 c, b2 c, h1, h2]
  · rw [a1, b1, h2]
  · rw [a3, b3, h2, h3]

theorem tallyAll_congr (msgs : List (Int × Int)) (m m' : Master)
    (h : m.frequencyMap = m'.frequencyMap ∧ m.procRecvd = m'.procRecvd ∧
      m.activeCount = m'.activeCount) :
    (tallyAll msgs m).frequencyMap = (tallyAll msgs m').frequencyMap ∧
      (tallyAll msgs m).procRecvd = (tallyAll msgs m').procRecvd ∧
      (tallyAll msgs m).activeCount = (tallyAll msgs m').activeCount := by
  induction msgs generalizing m m' with
  | nil => exact h
  | cons x xs ih => exact ih _ _ (tallyResult_congr x.1 x.2 m m' h)

theorem tallyAll_append (xs ys : List (Int × Int)) (m : Master) :
    tallyAll (xs ++ ys) m = tallyAll ys (tallyAll xs m) := by
  simp [tallyAll, List.foldl_append]

/-- At every point of the coordinator loop the table, `procRecvd` and `activeCount` are what
tallying the final counts taken in so far gives. -/
theorem results_invariant (numProcs : Nat) (polled : List Polled) :
    (processMaster numProcs polled).state.frequencyMap =
        (tallyAll (processMaster numProcs polled).results (masterInit numProcs)).frequencyMap ∧
      (processMaster numProcs polled).state.procRecvd =
        (tallyAll (processMaster numProcs polled).results (masterInit numProcs)).procRecvd ∧
      (processMaster numProcs polled).state.activeCount =
        (tallyAll (processMaster numProcs polled).results (masterInit numProcs)).activeCount ∧
      ∀ x ∈ (processMaster numProcs polled).results, ∃ q ∈ polled, q.resultIn = some x := by
  induction polled using List.reverseRecOn with
  | nil => simp [processMaster, tallyAll]
  | append_singleton ps p ih =>
    obtain ⟨i1, i2, i3, i4⟩ := ih
    rw [processMaster_snoc]
    generalize processMaster numProcs ps = r at *
    have i4' : ∀ x ∈ r.results, ∃ q ∈ ps ++ [p], q.resultIn = some x := by
      intro x hx
      obtain ⟨q, hq, hqx⟩ := i4 x hx
      exact ⟨q, List.mem_append_left _ hq, hqx⟩
    by_cases hguard : r.state.matchesLeft > 0 ∨ r.state.activeCount > 0
    · rw [masterStep_guard numProcs r p hguard]
      obtain ⟨-, -, s3, s4, s5, -⟩ := masterIteration_spec numProcs p r.state
      obtain ⟨c1, c2, c3, -, c5, -⟩ := checkMatch_spec p.matchIn r.state
      obtain ⟨-, -, -, -, r5, r6, r7⟩ := checkResult_spec p.resultIn (checkMatch p.matchIn r.state)
      have htaken : resultTaken (checkMatch p.matchIn r.state) ⟨none, p.resultIn⟩ =
          resultTaken r.state p := by
        simp only [resultTaken, c5]
      rw [htaken] at r5 r6 r7
      obtain ⟨g1, g2, g3⟩ := tallyAll_congr (resultTaken r.state p)
        (checkMatch p.matchIn r.state) (tallyAll r.results (masterInit numProcs))
        ⟨c1.trans i1, c2.trans i2, c3.trans i3⟩
      simp only [tallyAll_append, s3, s4, s5]
      refine ⟨?_, ?_, ?_, ?_⟩
      · exact r5.trans g1
      · exact r6.trans g2
      · exact r7.trans g3
      · intro x hx
        rcases List.mem_append.mp hx with h | h
        · exact i4' x h
        · refine ⟨p, by simp, ?_⟩
          unfold resultTaken at h
          split_ifs at h
          · simpa [Option.mem_toList] using h
          · simp at h
    · rw [masterStep_done numProcs r p hguard]
      exact ⟨i1, i2, i3, i4'⟩

/-- C19: at every point of the coordinator loop `activeCount` is the number of workers less
the number of workers whose ten final counts have been taken in; `tallyResult` takes one
off it exactly when the count it tallies is the tenth of its source; it is never negative;
and when the loop condition is false, `activeCount` is 0 and the ten categories have all
been discovered. -/
theorem active_count_invariant (numProcs : Nat) (hn : 1 ≤ numProcs) (polled : List Polled)
    (hvalid : ∀ q ∈ polled, ∀ t ∈ q.matchIn, t ∈ allLabels)
    (hsrc : ∀ q ∈ polled, ∀ x ∈ q.resultIn, 1 ≤ x.2 ∧ x.2 < (numProcs : Int)) :
    (processMaster numProcs polled).state.activeCount =
        (numProcs : Int) - 1 - (workersDone numProcs (processMaster numProcs polled).results : Int) ∧
      (∀ s, (processMaster numProcs polled).state.procRecvd s =
        ((valuesFrom (processMaster numProcs polled).results s).length : Int)) ∧
      (∀ v s m, (tallyResult v s m).activeCount =
        (if m.procRecvd s + 1 = 10 then m.activeCount - 1 else m.activeCount)) ∧
      0 ≤ (processMaster numProcs polled).state.activeCount ∧
      (¬((processMaster numProcs polled).state.matchesLeft > 0 ∨
          (processMaster numProcs polled).state.activeCount > 0) →
        (processMaster numProcs polled).state.activeCount = 0 ∧
          ∀ c, label c ∈ (processMaster numProcs polled).taken) := by
  obtain ⟨-, r2, r3, r4⟩ := results_invariant numProcs polled
  obtain ⟨-, i2, -, -, i5⟩ := discovery_invariant numProcs polled hvalid
  have hsrc' : ∀ x ∈ (processMaster numProcs polled).results, x.2 ∈ workerRanks numProcs := by
    intro x hx
    obtain ⟨q, hq, hqx⟩ := r4 x hx
    exact (mem_workerRanks numProcs x.2).mpr (hsrc q hq x hqx)
  have hact := tallyAll_activeCount numProcs _ hsrc'
  have hrecv := (tallyAll_invariant numProcs (workerRanks numProcs)
    (workerRanks_nodup numProcs) _ hsrc').1
  have hdone : workersDone numProcs (processMaster numProcs polled).results ≤ numProcs - 1 := by
    unfold workersDone
    exact (List.length_filter_le _ _).trans (le_of_eq (workerRanks_length numProcs))
  have hle := card_le_ten _ i5
  have hnonneg : 0 ≤ (processMaster numProcs polled).state.activeCount := by
    rw [r3, hact]; omega
  refine ⟨by rw [r3, hact], fun s => by rw [r2, hrecv s],
    fun v s m => (tallyResult_spec v s m).2.2.1, hnonneg, fun hexit => ?_⟩
  have h0 : (processMaster numProcs polled).state.activeCount = 0 := by omega
  have hcard : (processMaster numProcs polled).taken.toFinset.card = 10 := by omega
  refine ⟨h0, fun c => ?_⟩
  have hsub : (processMaster numProcs polled).taken.toFinset ⊆ allLabels.toFinset := by
    intro t ht
    exact List.mem_toFinset.mpr (i5 t (List.mem_toFinset.mp ht))
  have h10 : allLabels.toFinset.card = 10 := by
    rw [List.toFinset_card_of_nodup allLabels_nodup]; rfl
  have heq := Finset.eq_of_subset_of_card_le hsub (by omega)
  have hc : label c ∈ allLabels.toFinset :=
    List.mem_toFinset.mpr ((mem_allLabels _).mpr ⟨c, rfl⟩)
  rw [← heq] at hc
  exact List.mem_toFinset.mp hc

/-- C19 at a coordinator of one worker, after a first pass and a pass in which a notice
and a final count come in. -/
theorem active_count_invariant_witness :
    1 ≤ 2 ∧
      (∀ q ∈ [(⟨none, none⟩ : Polled), ⟨some (label .NoPair), some (7, 1)⟩],
        ∀ t ∈ q.matchIn, t ∈ allLabels) ∧
      (∀ q ∈ [(⟨none, none⟩ : Polled), ⟨some (label .NoPair), some (7, 1)⟩],
        ∀ x ∈ q.resultIn, 1 ≤ x.2 ∧ x.2 < ((2 : Nat) : Int)) ∧
      0 ≤ (processMaster 2
        [⟨none, none⟩, ⟨some (label .NoPair), some (7, 1)⟩]).state.activeCount :=
  ⟨by decide, by decide, by decide,
    (active_count_invariant 2 (by decide)
      [⟨none, none⟩, ⟨some (label .NoPair), some (7, 1)⟩] (by decide) (by decide)).2.2.2.1⟩

/-- C13 at two workers whose counts come in alternately. -/
theorem aggregate_correct_witness :
    [(1 : Int), 2].Nodup ∧ (∀ x ∈ sampleCounts, x.2 ∈ [(1 : Int), 2]) ∧
      (∀ w ∈ [(1 : Int), 2], valuesFrom sampleCounts w = resultValues (sampleTables w)) ∧
      (tallyAll sampleCounts (masterInit 3)).frequencyMap .NoPair =
        ([(1 : Int), 2].map (fun w => sampleTables w .NoPair)).sum :=
  ⟨by decide, by decide, by decide,
    aggregate_correct 3 [1, 2] (by decide) sampleTables sampleCounts (by decide) (by decide)
      .NoPair⟩

/-! ## The deck that `setUpDeck` builds and the swaps of `randomizeDeck` -/

/-- C21 fails on the code: `setUpDeck` stores the identifiers 1..52, not 0..51.  The card 52 is
in the deck and 0 is not; 52 has suit 4 and rank 0, so five suit values occur; suit 0 holds
12 cards, suits 1, 2, 3 hold 13 each and suit 4 holds one; and no card has rank 0 and
suit 0. -/
theorem setUpDeck_not_standard :
    (52 : Int) ∈ setUpDeck ∧ (0 : Int) ∉ setUpDeck ∧ suitOf 52 = 4 ∧ rankOf 52 = 0 ∧
      (setUpDeck.map suitOf).dedup = [0, 1, 2, 3, 4] ∧
      suitSize setUpDeck 0 = 12 ∧ suitSize setUpDeck 1 = 13 ∧ suitSize setUpDeck 2 = 13 ∧
      suitSize setUpDeck 3 = 13 ∧ suitSize setUpDeck 4 = 1 ∧
      (∀ c ∈ setUpDeck, ¬(rankOf c = 0 ∧ suitOf c = 0)) := by
  decide

theorem randomizeLoop_swaps (rand : Nat → Nat) (m : Nat) (deck : List Int) (k : Nat) :
    (randomizeLoop rand m deck k).1 =
      (swapIndices rand m k).foldl (fun d p => swapCards d p.1 p.2) deck := by
  induction m generalizing deck k with
  | zero => rfl
  | succ i ih => simp only [randomizeLoop, swapIndices, List.foldl_cons]; exact ih _ _

theorem swapIndices_bound (rand : Nat → Nat) (m k : Nat) :
    ∀ p ∈ swapIndices rand m k, p.1 < m ∧ p.2 < 52 := by
  induction m generalizing k with
  | zero => simp [swapIndices]
  | succ i ih =>
    intro p hp
    simp only [swapIndices, List.mem_cons] at hp
    rcases hp with rfl | hp
    · exact ⟨Nat.lt_succ_self i, Nat.mod_lt _ (by decide)⟩
    · exact ⟨Nat.lt_succ_of_lt (ih _ p hp).1, (ih _ p hp).2⟩

/-- C22 fails on the code: the index `j` swapped with position `i` is `rand() % 52`, whatever
`i` is.  When `rand()` returns 51 at every call, one call `randomizeDeck(deck, 52)` swaps
position 50 with index 51 and position 0 with index 51, so `0 <= j <= i` does not hold at
every step; the swaps listed are the ones the loop makes. -/
theorem swap_index_exceeds_step :
    (randomizeDeck setUpDeck 52 (fun _ => 51) 0).1 =
        (swapIndices (fun _ => 51) 52 0).foldl (fun d p => swapCards d p.1 p.2) setUpDeck ∧
      (swapIndices (fun _ => 51) 52 0).length = 52 ∧
      (50, 51) ∈ swapIndices (fun _ => 51) 52 0 ∧
      (0, 51) ∈ swapIndices (fun _ => 51) 52 0 ∧
      ¬(∀ p ∈ swapIndices (fun _ => 51) 52 0, p.2 ≤ p.1) :=
  ⟨randomizeLoop_swaps _ 52 setUpDeck 0, by decide, by decide, by decide, by decide⟩

theorem shuffleWith_perm (range : Nat) (deck : List Int) (hlen : deck.length = 52)
    (js : Fin 52 → Fin range) : (shuffleWith range deck js).Perm deck := by
  unfold shuffleWith
  exact randomizeDeck_perm _ deck 0 hlen

/-- One call of `randomizeDeck` on a deck of 52 different cards, the values of `rand()` below
a `range` that 3 does not divide: no number `c` is the number of draw sequences of each of
the 52! orders. -/
theorem shuffle_counts_unequal (range : Nat) (hrange : ¬3 ∣ range) (deck : List Int)
    (hlen : deck.length = 52) (hnd : deck.Nodup) :
    ¬∃ c : Nat, ∀ result : List Int, result.Perm deck →
      sequencesGiving range deck result = c := by
  rintro ⟨c, hc⟩
  have hmaps : ∀ js ∈ (Finset.univ : Finset (Fin 52 → Fin range)),
      shuffleWith range deck js ∈ deck.permutations.toFinset := by
    intro js _
    exact List.mem_toFinset.mpr
      (List.mem_permutations.mpr (shuffleWith_perm range deck hlen js))
  have hsum := Finset.card_eq_sum_card_fiberwise hmaps
  have hfib : ∀ result ∈ deck.permutations.toFinset,
      (Finset.univ.filter
        (fun js : Fin 52 → Fin range => shuffleWith range deck js = result)).card = c := by
    intro result hr
    exact hc result (List.mem_permutations.mp (List.mem_toFinset.mp hr))
  rw [Finset.sum_congr rfl hfib, Finset.sum_const, smul_eq_mul,
    List.toFinset_card_of_nodup (List.nodup_permutations deck hnd), List.length_permutations,
    hlen, Finset.card_univ, Fintype.card_fun, Fintype.card_fin, Fintype.card_fin] at hsum
  have h3 : 3 ∣ range ^ 52 := by
    rw [hsum]
    exact Dvd.dvd.mul_right (Nat.dvd_factorial (by decide) (by decide)) c
  exact hrange (Nat.Prime.dvd_of_dvd_pow Nat.prime_three h3)

/-- C23 fails on the code: the 52! orders of the deck of `setUpDeck` are not each produced by
the same number of sequences of 52 draw values, whether the draw values are those of
`getRandom` (0..51, 52^52 sequences) or those of `rand()` with `RAND_MAX` 32767 or
2147483647: 3 divides 52! and not the number of sequences. -/
theorem shuffle_not_uniform :
    (¬∃ c : Nat, ∀ result : List Int, result.Perm setUpDeck →
        sequencesGiving 52 setUpDeck result = c) ∧
      (¬∃ c : Nat, ∀ result : List Int, result.Perm setUpDeck →
        sequencesGiving 32768 setUpDeck result = c) ∧
      ¬∃ c : Nat, ∀ result : List Int, result.Perm setUpDeck →
        sequencesGiving 2147483648 setUpDeck result = c :=
  ⟨shuffle_counts_unequal 52 (by decide) setUpDeck (by decide) setUpDeck_nodup,
    shuffle_counts_unequal 32768 (by decide) setUpDeck (by decide) setUpDeck_nodup,
    shuffle_counts_unequal 2147483648 (by decide) setUpDeck (by decide) setUpDeck_nodup⟩

/-! ## The group scan ends -/

theorem runEndReads_fst (hand : List Int) (comp : Int) (fuel j : Nat) :
    (runEndReads hand comp fuel j).map Prod.fst = runEnd hand comp fuel j := by
  induction fuel generalizing j with
  | zero => rfl
  | succ n ih =>
    unfold runEndReads runEnd
    by_cases h5 : j ≤ 5
    · by_cases h : j = 5
      · simp [h]
      · by_cases hc : comp ≠ rankOf (cardAt hand j)
        · simp [h5, h, hc]
        · simp only [h5, h, hc, if_true, if_false, false_or, Option.map_map]
          rw [← ih (j + 1)]
          rfl
    · simp [h5]

theorem groupLoopLog_flags (hand : List Int) (fuel i : Nat) (f : GroupFlags) :
    (groupLoopLog hand fuel i f).map ScanLog.flags = groupLoop hand fuel i f := by
  induction fuel generalizing i f with
  | zero => rfl
  | succ n ih =>
    unfold groupLoopLog groupLoop
    by_cases h4 : i < 4
    · simp only [h4, if_true]
      rw [← runEndReads_fst]
      cases hr : runEndReads hand (rankOf (cardAt hand i)) 6 (i + 1) with
      | none => rfl
      | some r =>
        obtain ⟨j, rs⟩ := r
        simp only [Option.map_some', Option.map_map]
        rw [← ih j]
        rfl
    · simp [h4]

theorem runEndReads_spec (hand : List Int) (comp : Int) (fuel j : Nat) (hj : j ≤ 5)
    (hfuel : 6 ≤ fuel + j) :
    ∃ j1 rs, runEndReads hand comp fuel j = some (j1, rs) ∧ j ≤ j1 ∧ j1 ≤ 5 ∧
      ∀ k ∈ rs, j ≤ k ∧ k < 5 := by
  induction fuel generalizing j with
  | zero => omega
  | succ n ih =>
    unfold runEndReads
    by_cases h : j = 5
    · exact ⟨5, [], by simp [h], by omega, le_refl _, by simp⟩
    · by_cases hc : comp ≠ rankOf (cardAt hand j)
      · refine ⟨j, [j], by simp [hj, h, hc], le_refl _, hj, ?_⟩
        intro k hk
        simp only [List.mem_singleton] at hk
        omega
      · obtain ⟨j1, rs, e, h1, h2, h3⟩ := ih (j + 1) (by omega) (by omega)
        refine ⟨j1, j :: rs, by simp [hj, h, hc, e], by omega, h2, ?_⟩
        intro k hk
        simp only [List.mem_cons] at hk
        rcases hk with rfl | hk
        · omega
        · have := h3 k hk; omega

theorem groupLoopLog_spec (hand : List Int) (fuel i : Nat) (f : GroupFlags)
    (hfuel : 5 ≤ fuel + min i 4) :
    ∃ l, groupLoopLog hand fuel i f = some l ∧
      l.passes.length + i ≤ max i 4 ∧
      l.passes.map Prod.fst = (i :: l.passes.map Prod.snd).dropLast ∧
      4 ≤ (l.passes.map Prod.snd).getLastD i ∧
      (∀ p ∈ l.passes, p.1 < 4 ∧ p.1 < p.2 ∧ p.2 ≤ 5) ∧
      ∀ k ∈ l.reads, k < 5 := by
  induction fuel generalizing i f with
  | zero => omega
  | succ n ih =>
    unfold groupLoopLog
    by_cases h4 : i < 4
    · obtain ⟨j, rs, e, h1, h2, h3⟩ :=
        runEndReads_spec hand (rankOf (cardAt hand i)) 6 (i + 1) (by omega) (by omega)
      obtain ⟨l, el, l1, l2, l3, l4, l5⟩ := ih j (markRun f (j - i)) (by omega)
      refine ⟨⟨l.flags, (i, j) :: l.passes, i :: rs ++ l.reads⟩, by simp [h4, e, el], ?_, ?_, ?_,
        ?_, ?_⟩
      · simp only [List.length_cons]; omega
      · simp only [List.map_cons, l2]
        rfl
      · simp only [List.map_cons]
        cases hl : l.passes.map Prod.snd with
        | nil => rw [hl] at l3; simpa using l3
        | cons a t => rw [hl] at l3; simpa using l3
      · intro p hp
        simp only [List.mem_cons] at hp
        rcases hp with rfl | hp
        · exact ⟨h4, by omega, h2⟩
        · exact l4 p hp
      · intro k hk
        simp only [List.mem_cons, List.mem_append] at hk
        rcases hk with (rfl | hk) | hk
        · omega
        · exact (h3 k hk).2
        · exact l5 k hk
    · exact ⟨⟨f, [], []⟩, by simp [h4], by simp, by simp, by simp; omega, by simp, by simp⟩

/-- C27: on every array `hand` the group scan returns (the flags are those of `groupLoop`);
it makes at most 4 passes of the outer loop; the first pass starts at `i = 0`, every pass
starts at an `i < 4` and ends its run at a `j` with `i < j <= 5`, the next pass starts at
that `j`, and after the last pass `i` is at least 4; every index of `hand[]` read is in
0..4. -/
theorem group_scan_terminates (hand : List Int) :
    ∃ l, groupLoopLog hand 5 0 noGroups = some l ∧
      groupLoop hand 5 0 noGroups = some l.flags ∧
      l.passes.length ≤ 4 ∧
      l.passes.map Prod.fst = (0 :: l.passes.map Prod.snd).dropLast ∧
      4 ≤ (l.passes.map Prod.snd).getLastD 0 ∧
      (∀ p ∈ l.passes, p.1 < 4 ∧ p.1 < p.2 ∧ p.2 ≤ 5) ∧
      ∀ k ∈ l.reads, k < 5 := by
  obtain ⟨l, el, l1, l2, l3, l4, l5⟩ := groupLoopLog_spec hand 5 0 noGroups (by decide)
  refine ⟨l, el, ?_, by simpa using l1, l2, l3, l4, l5⟩
  rw [← groupLoopLog_flags, el]
  rfl

/-! ## The serial loop and its counters -/

theorem mem_allCategories (c : Category) : c ∈ allCategories := by
  cases c <;> decide

theorem allCategories_nodup : allCategories.Nodup := by decide

theorem sum_counts (l : List Category) :
    (allCategories.map (fun c => (l.count c : Int))).sum = (l.length : Int) := by
  induction l with
  | nil => simp [allCategories]
  | cons a t ih =>
    simp only [allCategories, List.map_cons, List.map_nil, List.sum_cons, List.sum_nil,
      List.count_cons, List.length_cons] at ih ⊢
    cases a <;> simp <;> omega

theorem countP_gain {α : Type} [DecidableEq α] (l : List α) (hl : l.Nodup) (a : α) (ha : a ∈ l)
    (p q : α → Bool) (hoff : ∀ b, b ≠ a → q b = p b) (hp : p a = false) (hq : q a = true) :
    l.countP q = l.countP p + 1 := by
  induction l with
  | nil => simp at ha
  | cons x t ih =>
    rw [List.nodup_cons] at hl
    by_cases hx : x = a
    · subst hx
      have ht : t.countP q = t.countP p := by
        apply List.countP_congr
        intro b hb
        have : b ≠ x := fun e => hl.1 (e ▸ hb)
        rw [hoff b this]
      simp [List.countP_cons, hp, hq, ht]
    · have hat : a ∈ t := by
        rcases List.mem_cons.mp ha with e | e
        · exact absurd e.symm hx
        · exact e
      simp only [List.countP_cons, hoff x hx, ih hl.2 hat]
      omega

theorem countP_all (p : Category → Bool) :
    allCategories.countP p = 10 ↔ ∀ c, p c = true := by
  have hlen : allCategories.length = 10 := rfl
  rw [← hlen, List.countP_eq_length]
  exact ⟨fun h c => h c (mem_allCategories c), fun h c _ => h c⟩

theorem drawHands_snoc (cats : List Category) (x : Category) :
    drawHands (cats ++ [x]) = serialStep (drawHands cats) x := by
  simp [drawHands, List.foldl_append]

theorem drawHands_invariant (cats : List Category) :
    (drawHands cats).hands ≤ cats.length ∧
      (∀ c, (drawHands cats).frequencyMap c =
        (((cats.take (drawHands cats).hands).count c : Nat) : Int)) ∧
      (drawHands cats).handTypeCount =
        ((allCategories.countP (fun c => decide (1 ≤ (drawHands cats).frequencyMap c)) : Nat) :
          Int) ∧
      (∀ n, n < (drawHands cats).hands → ∃ c, c ∉ cats.take n) ∧
      ((drawHands cats).hands < cats.length → ∀ c, c ∈ cats.take (drawHands cats).hands) := by
  induction cats using List.reverseRecOn with
  | nil =>
    refine ⟨by simp [drawHands, serialInit], by simp [drawHands, serialInit], ?_, ?_, ?_⟩
    · simp [drawHands, serialInit, List.countP_eq_zero]
    · simp [drawHands, serialInit]
    · simp [drawHands, serialInit]
  | append_singleton cats x ih =>
    obtain ⟨i1, i2, i3, i4, i5⟩ := ih
    rw [drawHands_snoc]
    generalize drawHands cats = r at *
    have hle := List.countP_le_length (fun c => decide (1 ≤ r.frequencyMap c)) (l := allCategories)
    have hlen : allCategories.length = 10 := rfl
    by_cases hguard : r.hands = 0 ∨ r.handTypeCount < 10
    · -- the pass is made: all hands so far have been drawn
      have hall : r.hands = cats.length := by
        by_contra hne
        have hlt : r.hands < cats.length := lt_of_le_of_ne i1 hne
        have hc := i5 hlt
        have hpos : ∀ c, decide (1 ≤ r.frequencyMap c) = true := by
          intro c
          have := List.count_pos_iff.mpr (hc c)
          rw [decide_eq_true_eq, i2 c]
          omega
        have h10 := (countP_all _).mpr hpos
        have h0 : r.hands ≠ 0 := by
          intro h0
          rw [h0] at hc
          simpa using hc .NoPair
        rcases hguard with h | h
        · exact h0 h
        · omega
      have hstep : serialStep r x = countHand x r := by simp [serialStep, hguard]
      rw [hstep]
      have htake : (cats ++ [x]).take (cats.length + 1) = cats ++ [x] := by
        rw [List.take_of_length_le]; simp
      have hcats : cats.take r.hands = cats := by rw [hall]; exact List.take_length cats
      rw [hcats] at i2
      refine ⟨by simp [countHand, hall], ?_, ?_, ?_, ?_⟩
      · intro c
        simp only [countHand, hall, htake, List.count_append, List.count_singleton]
        by_cases hcx : c = x
        · subst hcx; simp [i2 c]
        · have hxc : ¬ x = c := fun e => hcx e.symm
          simp [Function.update, hcx, hxc, i2 c]
      · simp only [countHand]
        by_cases h1 : r.frequencyMap x + 1 = 1
        · have h0 : r.frequencyMap x = 0 := by omega
          rw [if_pos h1, i3]
          rw [countP_gain allCategories allCategories_nodup x (mem_allCategories x)
            (fun c => decide (1 ≤ r.frequencyMap c))
            (fun c => decide (1 ≤ Function.update r.frequencyMap x (r.frequencyMap x + 1) c))]
          · push_cast; rfl
          · intro b hb; simp [Function.update, hb]
          · simp [h0]
          · simp [h0]
        · rw [if_neg h1, i3]
          congr 1
          apply List.countP_congr
          intro b _
          by_cases hb : b = x
          · subst hb
            have := i2 b
            simp [Function.update]
            constructor <;> intro <;> omega
          · simp [Function.update, hb]
      · intro n hn
        simp only [countHand, hall] at hn
        by_cases hn' : n < cats.length
        · obtain ⟨c, hc⟩ := i4 n (by omega)
          exact ⟨c, by rwa [List.take_append_of_le_length (by omega)]⟩
        · have hn'' : n = cats.length := by omega
          subst hn''
          rw [List.take_append_of_le_length (le_refl _), List.take_length]
          rcases hguard with h | h
          · have : cats = [] := List.length_eq_zero.mp (by omega)
            exact ⟨.NoPair, by simp [this]⟩
          · have hne : ¬ ∀ c, decide (1 ≤ r.frequencyMap c) = true := by
              intro hpos
              have := (countP_all _).mpr hpos
              omega
            push_neg at hne
            obtain ⟨c, hc⟩ := hne
            refine ⟨c, fun hmem => hc ?_⟩
            have := List.count_pos_iff.mpr hmem
            rw [decide_eq_true_eq, i2 c]
            omega
      · intro hlt
        simp [countHand, hall] at hlt
    · -- the loop has ended
      have hstep : serialStep r x = r := by simp [serialStep, hguard]
      rw [hstep]
      have htake : ∀ n, n ≤ r.hands → (cats ++ [x]).take n = cats.take n :=
        fun n hn => List.take_append_of_le_length (by omega)
      push_neg at hguard
      refine ⟨by simp; omega, ?_, i3, ?_, ?_⟩
      · intro c; rw [htake _ (le_refl _)]; exact i2 c
      · intro n hn
        obtain ⟨c, hc⟩ := i4 n hn
        exact ⟨c, by rwa [htake n (by omega)]⟩
      · intro _ c
        rw [htake _ (le_refl _)]
        have h10 : allCategories.countP (fun c => decide (1 ≤ r.frequencyMap c)) = 10 := by
          omega
        have := (countP_all _).mp h10 c
        rw [decide_eq_true_eq, i2 c] at this
        exact List.count_pos_iff.mp (by omega)

/-- C25: after every pass of the loop of `drawHands` (and `processSerial`), `handTypeCount` is
the number of categories whose counter is at least 1, so the loop goes on exactly while some
counter is still 0; the loop stops before the hands run out only when all ten categories are
among the hands drawn, and not before they are; every counter is the number of hands of its
category among the hands drawn, and the ten counters add up to the number of hands drawn. -/
theorem serial_loop_counts (cats : List Category) :
    (drawHands cats).handTypeCount =
        (((allCategories.filter
          (fun c => decide (1 ≤ (drawHands cats).frequencyMap c))).length : Nat) : Int) ∧
      ((drawHands cats).handTypeCount < 10 ↔ ∃ c, (drawHands cats).frequencyMap c < 1) ∧
      (drawHands cats).hands ≤ cats.length ∧
      ((drawHands cats).hands < cats.length → ∀ c, c ∈ cats.take (drawHands cats).hands) ∧
      (∀ n, (∀ c, c ∈ cats.take n) → (drawHands cats).hands ≤ n) ∧
      (∀ c, (drawHands cats).frequencyMap c =
        (((cats.take (drawHands cats).hands).count c : Nat) : Int)) ∧
      (allCategories.map (drawHands cats).frequencyMap).sum = ((drawHands cats).hands : Int) := by
  obtain ⟨i1, i2, i3, i4, i5⟩ := drawHands_invariant cats
  have hle := List.countP_le_length (fun c => decide (1 ≤ (drawHands cats).frequencyMap c))
    (l := allCategories)
  have hlen : allCategories.length = 10 := rfl
  refine ⟨by rw [i3, List.countP_eq_length_filter], ?_, i1, i5, ?_, i2, ?_⟩
  · constructor
    · intro hlt
      by_contra hno
      push_neg at hno
      have := (countP_all (fun c => decide (1 ≤ (drawHands cats).frequencyMap c))).mpr
        (fun c => decide_eq_true (hno c))
      omega
    · rintro ⟨c, hc⟩
      by_contra hge
      have h10 : allCategories.countP
          (fun c => decide (1 ≤ (drawHands cats).frequencyMap c)) = 10 := by omega
      have := (countP_all _).mp h10 c
      rw [decide_eq_true_eq] at this
      omega
  · intro n hn
    by_contra hlt
    obtain ⟨c, hc⟩ := i4 n (by omega)
    exact hc (hn c)
  · have hf : (drawHands cats).frequencyMap =
        fun c => (((cats.take (drawHands cats).hands).count c : Nat) : Int) := funext i2
    rw [hf, sum_counts, List.length_take, Nat.min_eq_left i1]

/-! ## The order of the cards in the hand -/

theorem drawnHand_perm (hand other : List Int) (h : DrawnHand hand) (hp : other.Perm hand) :
    DrawnHand other := by
  obtain ⟨hlen, hnd, hdom⟩ := h
  refine ⟨hp.length_eq.trans hlen, hp.nodup_iff.mpr hnd, ?_⟩
  rcases hdom with hd | hd
  · exact Or.inl fun c hc => hd c (hp.subset hc)
  · exact Or.inr fun c hc => hd c (hp.subset hc)

theorem sameSuit_perm (hand other : List Int) (hp : other.Perm hand) :
    SameSuit other ↔ SameSuit hand :=
  ⟨fun h c hc d hd => h c (hp.symm.subset hc) d (hp.symm.subset hd),
    fun h c hc d hd => h c (hp.subset hc) d (hp.subset hd)⟩

theorem shapeTable_unique (fl : Bool) (r0 r1 r2 r3 r4 : Int) (cat other : Category)
    (h : ShapeTable fl r0 r1 r2 r3 r4 cat) (g : ShapeTable fl r0 r1 r2 r3 r4 other) :
    other = cat := by
  obtain ⟨a1, a2, a3, a4, a5, a6, a7, a8, a9, a10⟩ := h
  obtain ⟨b1, b2, b3, b4, b5, b6, b7, b8, b9, b10⟩ := g
  cases cat
  · exact b1.mpr (a1.mp rfl)
  · exact b2.mpr (a2.mp rfl)
  · exact b3.mpr (a3.mp rfl)
  · exact b4.mpr (a4.mp rfl)
  · exact b5.mpr (a5.mp rfl)
  · exact b6.mpr (a6.mp rfl)
  · exact b7.mpr (a7.mp rfl)
  · exact b8.mpr (a8.mp rfl)
  · exact b9.mpr (a9.mp rfl)
  · exact b10.mpr (a10.mp rfl)

/-- C26: for a hand of five different cards, any reordering of it, and any two orders by rank
of the two (whatever the order among cards of equal rank), the flush test on the hand as
drawn, the group scan, the straight test and the resolution give one and the same category,
in `processSlave` and in `drawHands`; so does the classifier with its own sort. -/
theorem classification_order_free (hand other sorted sortedOther : List Int) (h : DrawnHand hand)
    (hp : other.Perm hand) (hs : sorted.Perm hand) (hr : RankSorted sorted)
    (hso : sortedOther.Perm other) (hro : RankSorted sortedOther) :
    ∃ cat : Category,
      (analyseSorted (flushTest hand) sorted).map resolveSlave = some cat ∧
      (analyseSorted (flushTest other) sortedOther).map resolveSlave = some cat ∧
      (analyseSorted (flushTest hand) sorted).map resolveSerial = some cat ∧
      (analyseSorted (flushTest other) sortedOther).map resolveSerial = some cat ∧
      processSlave_classify hand = some cat ∧ processSlave_classify other = some cat ∧
      drawHands_classify hand = some cat ∧ drawHands_classify other = some cat := by
  have ho := drawnHand_perm hand other h hp
  have key : ∀ (x sx y sy : List Int), DrawnHand x → DrawnHand y → y.Perm x → sx.Perm x →
      RankSorted sx → sy.Perm y → RankSorted sy →
      ∃ cat : Category,
        (analyseSorted (flushTest x) sx).map resolveSlave = some cat ∧
        (analyseSorted (flushTest y) sy).map resolveSlave = some cat ∧
        (analyseSorted (flushTest x) sx).map resolveSerial = some cat ∧
        (analyseSorted (flushTest y) sy).map resolveSerial = some cat := by
    intro x sx y sy hx hy hyx hsx hrx hsy hry
    obtain ⟨fl, r0, r1, r2, r3, r4, cat, e1, e2, f1, f2, p, h01, h12, h23, h34, -, -, tab⟩ :=
      sorted_hand_view x sx hx hsx hrx
    obtain ⟨gl, t0, t1, t2, t3, t4, cat2, e3, e4, g1, g2, q, g01, g12, g23, g34, -, -, tab2⟩ :=
      sorted_hand_view y sy hy hsy hry
    have hfl : gl = fl := by
      have hss := sameSuit_perm x y hyx
      cases fl <;> cases gl <;> simp_all
    have hranks : [t0, t1, t2, t3, t4].Perm [r0, r1, r2, r3, r4] := by
      refine q.symm.trans (List.Perm.trans ?_ p)
      exact hyx.map rankOf
    obtain ⟨u0, u1, u2, u3, u4⟩ :=
      sorted_five_unique t0 t1 t2 t3 t4 r0 r1 r2 r3 r4 hranks g01 g12 g23 g34 h01 h12 h23 h34
    subst hfl u0 u1 u2 u3 u4
    have hcat := shapeTable_unique _ _ _ _ _ _ cat cat2 tab tab2
    subst hcat
    exact ⟨_, e1, e3, e2, e4⟩
  obtain ⟨cat, k1, k2, k3, k4⟩ := key hand sorted other sortedOther h ho hp hs hr hso hro
  obtain ⟨cat2, m1, m2, m3, m4⟩ := key hand sorted hand (sortHand hand) h h (List.Perm.refl _)
    hs hr (sortHand_perm hand) (sortHand_sorted hand)
  obtain ⟨cat3, n1, n2, n3, n4⟩ := key hand sorted other (sortHand other) h ho hp
    hs hr (sortHand_perm other) (sortHand_sorted other)
  have e2 : cat2 = cat := Option.some.inj (m1.symm.trans k1)
  have e3 : cat3 = cat := Option.some.inj (n1.symm.trans k1)
  subst e2 e3
  exact ⟨_, k1, k2, k3, k4, m2, n2, m4, n4⟩

/-- C26 at a hand with three cards of one rank, a reordering of it, and two orders by rank
that place the three cards differently. -/
theorem classification_order_free_witness :
    DrawnHand [1, 14, 27, 5, 9] ∧ [9, 27, 5, 14, 1].Perm [1, 14, 27, 5, 9] ∧
      [14, 1, 27, 5, 9].Perm [1, 14, 27, 5, 9] ∧ RankSorted [14, 1, 27, 5, 9] ∧
      [27, 14, 1, 5, 9].Perm [9, 27, 5, 14, 1] ∧ RankSorted [27, 14, 1, 5, 9] ∧
      ∃ cat : Category,
        (analyseSorted (flushTest [1, 14, 27, 5, 9]) [14, 1, 27, 5, 9]).map resolveSlave =
            some cat ∧
          (analyseSorted (flushTest [9, 27, 5, 14, 1]) [27, 14, 1, 5, 9]).map resolveSlave =
            some cat ∧
          (analyseSorted (flushTest [1, 14, 27, 5, 9]) [14, 1, 27, 5, 9]).map resolveSerial =
            some cat ∧
          (analyseSorted (flushTest [9, 27, 5, 14, 1]) [27, 14, 1, 5, 9]).map resolveSerial =
            some cat ∧
          processSlave_classify [1, 14, 27, 5, 9] = some cat ∧
          processSlave_classify [9, 27, 5, 14, 1] = some cat ∧
          drawHands_classify [1, 14, 27, 5, 9] = some cat ∧
          drawHands_classify [9, 27, 5, 14, 1] = some cat :=
  ⟨by decide, by decide, by decide, by decide, by decide, by decide,
    classification_order_free [1, 14, 27, 5, 9] [9, 27, 5, 14, 1] [14, 1, 27, 5, 9]
      [27, 14, 1, 5, 9] (by decide) (by decide) (by decide) (by decide) (by decide) (by decide)⟩

/-! ## The whole program: every fair run ends -/

theorem systemAt_master (numProcs : Nat) (sched : Nat → Event) (t : Nat) :
    (systemAt numProcs sched t).master = processMaster numProcs (masterPolls sched t) := by
  induction t with
  | zero => rfl
  | succ t ih =>
    simp only [systemAt, masterPolls]
    cases h : sched t with
    | master p => simp only [systemStep, processMaster_snoc, ih]
    | slave w cat incoming => simpa only [systemStep] using ih

theorem systemAt_slave (numProcs : Nat) (sched : Nat → Event) (w : Int) (t : Nat) :
    (systemAt numProcs sched t).slaves w = slaveLoop (slaveInputs sched w t) := by
  induction t with
  | zero => rfl
  | succ t ih =>
    simp only [systemAt, slaveInputs]
    cases h : sched t with
    | master p => simpa only [systemStep] using ih
    | slave v cat incoming =>
      simp only [systemStep]
      by_cases hv : v = w
      · subst hv
        simp only [Function.update_same, if_true, slaveLoop_snoc, ih]
      · have hw : w ≠ v := fun e => hv e.symm
        simp only [Function.update_noteq hw, hv, if_false, ih]

theorem mem_masterPolls (sched : Nat → Event) (t : Nat) (p : Polled)
    (h : p ∈ masterPolls sched t) : ∃ k, k < t ∧ sched k = .master p := by
  induction t with
  | zero => simp [masterPolls] at h
  | succ t ih =>
    simp only [masterPolls] at h
    cases hs : sched t with
    | master q =>
      rw [hs] at h
      simp only [List.mem_append, List.mem_singleton] at h
      rcases h with h | h
      · obtain ⟨k, hk, e⟩ := ih h
        exact ⟨k, by omega, e⟩
      · exact ⟨t, by omega, by rw [hs, h]⟩
    | slave w cat incoming =>
      rw [hs] at h
      obtain ⟨k, hk, e⟩ := ih h
      exact ⟨k, by omega, e⟩

/-- The step of the coordinator at a pass of it; at a pass of a worker it stays. -/
theorem systemAt_succ_master (numProcs : Nat) (sched : Nat → Event) (t : Nat) (p : Polled)
    (h : sched t = .master p) :
    (systemAt numProcs sched (t + 1)).master =
        masterStep numProcs (systemAt numProcs sched t).master p ∧
      (systemAt numProcs sched (t + 1)).slaves = (systemAt numProcs sched t).slaves := by
  simp only [systemAt, h, systemStep, and_self]

theorem systemAt_succ_slave (numProcs : Nat) (sched : Nat → Event) (t : Nat) (w : Int)
    (cat : Category) (incoming : Option Int) (h : sched t = .slave w cat incoming) :
    (systemAt numProcs sched (t + 1)).master = (systemAt numProcs sched t).master ∧
      (systemAt numProcs sched (t + 1)).slaves w =
        slaveStep ((systemAt numProcs sched t).slaves w) (cat, incoming) ∧
      ∀ v, v ≠ w →
        (systemAt numProcs sched (t + 1)).slaves v = (systemAt numProcs sched t).slaves v := by
  simp only [systemAt, h, systemStep, Function.update_same, true_and]
  intro v hv
  exact Function.update_noteq hv _ _

/-- What lasts from a step to the next lasts from a time to every later time. -/
theorem lasting (P : Nat → Prop) (hstep : ∀ t, P t → P (t + 1)) (t t1 : Nat) (h : t ≤ t1)
    (ht : P t) : P t1 := by
  induction t1, h using Nat.le_induction with
  | base => exact ht
  | succ n _ ih => exact hstep n ih

/-- Finitely many things that each hold from some time on all hold from some time on. -/
theorem eventually_all {α : Type} (l : List α) (P : α → Nat → Prop)
    (hmono : ∀ a t t1, t ≤ t1 → P a t → P a t1) (h : ∀ a ∈ l, ∃ t, P a t) :
    ∃ T, ∀ a ∈ l, P a T := by
  induction l with
  | nil => exact ⟨0, by simp⟩
  | cons x xs ih =>
    obtain ⟨T1, h1⟩ := ih (fun a ha => h a (List.mem_cons_of_mem _ ha))
    obtain ⟨T2, h2⟩ := h x (List.mem_cons_self _ _)
    refine ⟨max T1 T2, fun a ha => ?_⟩
    rcases List.mem_cons.mp ha with rfl | ha
    · exact hmono _ T2 _ (le_max_right _ _) h2
    · exact hmono _ T1 _ (le_max_left _ _) (h1 a ha)

/-- Ten different labels taken in are all the labels. -/
theorem all_labels_of_card (taken : List String) (hsub : ∀ t ∈ taken, t ∈ allLabels)
    (hcard : taken.toFinset.card = 10) (c : Category) : label c ∈ taken := by
  have hs : taken.toFinset ⊆ allLabels.toFinset := by
    intro t ht
    exact List.mem_toFinset.mpr (hsub t (List.mem_toFinset.mp ht))
  have h10 : allLabels.toFinset.card = 10 := by
    rw [List.toFinset_card_of_nodup allLabels_nodup]; rfl
  have heq := Finset.eq_of_subset_of_card_le hs (by omega)
  have hc : label c ∈ allLabels.toFinset :=
    List.mem_toFinset.mpr ((mem_allLabels _).mpr ⟨c, rfl⟩)
  rw [← heq] at hc
  exact List.mem_toFinset.mp hc

theorem card_of_all_labels (taken : List String) (hsub : ∀ t ∈ taken, t ∈ allLabels)
    (hall : ∀ c, label c ∈ taken) : taken.toFinset.card = 10 := by
  have h10 : allLabels.toFinset.card = 10 := by
    rw [List.toFinset_card_of_nodup allLabels_nodup]; rfl
  rw [← h10]
  congr 1
  ext t
  simp only [List.mem_toFinset]
  constructor
  · exact hsub t
  · intro ht
    obtain ⟨c, rfl⟩ := (mem_allLabels t).mp ht
    exact hall c

/-! ### Receives are posted again -/

theorem checkMatch_posts (matchIn : Option String) (m : Master) :
    (checkMatch matchIn m).requestMatch = true := by
  unfold checkMatch
  simp only
  split_ifs <;> simp_all

theorem checkResult_posts (resultIn : Option (Int × Int)) (m : Master) :
    (checkResult resultIn m).requestResult = true ∨ (checkResult resultIn m).activeCount ≤ 0 := by
  have rearm : ∀ m1 : Master,
      (if (!m1.requestResult && decide (m1.activeCount > 0)) = true then
          { m1 with requestResult := true } else m1).requestResult = true ∨
        (if (!m1.requestResult && decide (m1.activeCount > 0)) = true then
          { m1 with requestResult := true } else m1).activeCount ≤ 0 := by
    intro m1
    by_cases hr : m1.requestResult = true
    · simp [hr]
    · by_cases ha : m1.activeCount > 0
      · simp [hr, ha]
      · right
        simp only [hr, ha, Bool.not_false, decide_False, Bool.and_false, Bool.false_eq_true,
          if_false]
        omega
  exact rearm _

theorem masterIteration_posts (numProcs : Nat) (p : Polled) (m : Master) :
    (masterIteration numProcs p m).1.requestMatch = true ∧
      ((masterIteration numProcs p m).1.requestResult = true ∨
        (masterIteration numProcs p m).1.activeCount ≤ 0) := by
  have h1 : (checkMessagesFromSlaves p m).requestMatch = true := by
    unfold checkMessagesFromSlaves
    rw [(checkResult_spec _ _).2.2.2.1]
    exact checkMatch_posts _ _
  have h2 := checkResult_posts p.resultIn (checkMatch p.matchIn m)
  unfold masterIteration
  simp only
  split_ifs
  · exact ⟨h1, h2⟩
  · exact ⟨h1, h2⟩

theorem checkMessageFromMaster_posts (incoming : Option Int) (st : Slave)
    (h : 0 < (checkMessageFromMaster incoming st).isActive) :
    (checkMessageFromMaster incoming st).request = true := by
  obtain ⟨t, a, r⟩ := st
  cases r <;> cases incoming <;> simp [checkMessageFromMaster] at h ⊢ <;> split_ifs at h ⊢ <;>
    simp_all

theorem slaveIteration_state (cat : Category) (incoming : Option Int) (st : Slave) :
    (slaveIteration cat incoming st).1.isActive = (checkMessageFromMaster incoming st).isActive ∧
      (slaveIteration cat incoming st).1.request =
        (checkMessageFromMaster incoming st).request := by
  unfold slaveIteration
  simp only
  split_ifs <;> simp [tallyHand]

/-! ### The steps of the run -/

theorem master_step_cases (numProcs : Nat) (sched : Nat → Event) (t : Nat) :
    (systemAt numProcs sched (t + 1)).master = (systemAt numProcs sched t).master ∨
      ∃ p, sched t = .master p ∧
        ((systemAt numProcs sched t).master.state.matchesLeft > 0 ∨
          (systemAt numProcs sched t).master.state.activeCount > 0) ∧
        (systemAt numProcs sched (t + 1)).master =
          ⟨(masterIteration numProcs p (systemAt numProcs sched t).master.state).1,
            (systemAt numProcs sched t).master.taken ++
              noticeTaken (systemAt numProcs sched t).master.state p,
            (systemAt numProcs sched t).master.results ++
              resultTaken (systemAt numProcs sched t).master.state p,
            (systemAt numProcs sched t).master.sent ++
              [(masterIteration numProcs p (systemAt numProcs sched t).master.state).2]⟩ := by
  cases h : sched t with
  | master p =>
    rw [(systemAt_succ_master numProcs sched t p h).1]
    by_cases hg : (systemAt numProcs sched t).master.state.matchesLeft > 0 ∨
        (systemAt numProcs sched t).master.state.activeCount > 0
    · exact Or.inr ⟨p, rfl, hg, masterStep_guard numProcs _ p hg⟩
    · exact Or.inl (masterStep_done numProcs _ p hg)
  | slave w cat incoming =>
    exact Or.inl (systemAt_succ_slave numProcs sched t w cat incoming h).1

theorem slave_step_cases (numProcs : Nat) (sched : Nat → Event) (w : Int) (t : Nat) :
    (systemAt numProcs sched (t + 1)).slaves w = (systemAt numProcs sched t).slaves w ∨
      ∃ cat incoming, sched t = .slave w cat incoming ∧
        ((systemAt numProcs sched t).slaves w).state.isActive ≠ 0 ∧
        (systemAt numProcs sched (t + 1)).slaves w =
          ⟨(slaveIteration cat incoming ((systemAt numProcs sched t).slaves w).state).1,
            ((systemAt numProcs sched t).slaves w).sent ++
              (slaveIteration cat incoming ((systemAt numProcs sched t).slaves w).state).2⟩ := by
  cases h : sched t with
  | master p =>
    exact Or.inl (by rw [(systemAt_succ_master numProcs sched t p h).2])
  | slave v cat incoming =>
    obtain ⟨-, h2, h3⟩ := systemAt_succ_slave numProcs sched t v cat incoming h
    by_cases hv : w = v
    · subst hv
      rw [h2]
      by_cases ha : ((systemAt numProcs sched t).slaves w).state.isActive = 0
      · exact Or.inl (by simp [slaveStep, ha])
      · exact Or.inr ⟨cat, incoming, rfl, ha, by simp [slaveStep, ha]⟩
    · exact Or.inl (h3 w hv)

section Run

variable (numProcs : Nat) (sched : Nat → Event)

/-! ### What holds of the coordinator and of the workers at every time of a run -/

theorem worker_facts (w : Int) (t : Nat) :
    (((systemAt numProcs sched t).slaves w).state.isActive = 0 ∨
        ((systemAt numProcs sched t).slaves w).state.isActive = 1) ∧
      (∀ c, 0 ≤ ((systemAt numProcs sched t).slaves w).state.frequencyMap c) ∧
      (∀ c, ((systemAt numProcs sched t).slaves w).sent.count (Msg.data 0 (label c)) =
        if 1 ≤ ((systemAt numProcs sched t).slaves w).state.frequencyMap c then 1 else 0) ∧
      (∀ m ∈ ((systemAt numProcs sched t).slaves w).sent, ∃ c, m = Msg.data 0 (label c)) := by
  rw [systemAt_slave]
  exact slaveLoop_invariant _

theorem polls_valid (hc : Causal numProcs sched) (t : Nat) :
    ∀ q ∈ masterPolls sched t, ∀ text ∈ q.matchIn, text ∈ allLabels := by
  intro q hq text htext
  obtain ⟨k, -, hk⟩ := mem_masterPolls sched t q hq
  obtain ⟨w, -, hw⟩ := hc.1 k q text hk htext
  obtain ⟨c, e⟩ := (worker_facts numProcs sched w k).2.2.2 _ hw
  injection e with _ e2
  exact (mem_allLabels text).mpr ⟨c, e2⟩

theorem results_valid (hc : Causal numProcs sched) (t : Nat) :
    ∀ x ∈ (systemAt numProcs sched t).master.results, x.2 ∈ workerRanks numProcs := by
  intro x hx
  rw [systemAt_master] at hx
  obtain ⟨q, hq, hqx⟩ := (results_invariant numProcs (masterPolls sched t)).2.2.2 x hx
  obtain ⟨k, -, hk⟩ := mem_masterPolls sched t q hq
  exact (hc.2.1 k q x.1 x.2 hk hqx).1

theorem coordinator_facts (hc : Causal numProcs sched) (t : Nat) :
    (∀ x ∈ (systemAt numProcs sched t).master.taken, x ∈ allLabels) ∧
      (systemAt numProcs sched t).master.state.matchesLeft =
        10 - ((systemAt numProcs sched t).master.taken.toFinset.card : Int) ∧
      (systemAt numProcs sched t).master.sent.flatten =
        (if (systemAt numProcs sched t).master.taken.toFinset.card = 10 then
          terminateSlaves numProcs else []) ∧
      (systemAt numProcs sched t).master.state.activeCount =
        (numProcs : Int) - 1 -
          (workersDone numProcs (systemAt numProcs sched t).master.results : Int) := by
  have hres := results_valid numProcs sched hc t
  rw [systemAt_master] at hres ⊢
  obtain ⟨-, i2, -, i4, i5⟩ :=
    discovery_invariant numProcs (masterPolls sched t) (polls_valid numProcs sched hc t)
  obtain ⟨-, -, r3, -⟩ := results_invariant numProcs (masterPolls sched t)
  exact ⟨i5, i2, i4, by rw [r3, tallyAll_activeCount numProcs _ hres]⟩

/-! ### What lasts -/

theorem taken_lasting (x : String) (t t1 : Nat) (h : t ≤ t1)
    (hx : x ∈ (systemAt numProcs sched t).master.taken) :
    x ∈ (systemAt numProcs sched t1).master.taken := by
  refine lasting (fun k => x ∈ (systemAt numProcs sched k).master.taken) ?_ t t1 h hx
  intro k hk
  rcases master_step_cases numProcs sched k with e | ⟨p, -, -, e⟩
  · rw [e]; exact hk
  · rw [e]; exact List.mem_append_left _ hk

theorem broadcast_lasting (m : Msg) (t t1 : Nat) (h : t ≤ t1)
    (hm : m ∈ (systemAt numProcs sched t).master.sent.flatten) :
    m ∈ (systemAt numProcs sched t1).master.sent.flatten := by
  refine lasting (fun k => m ∈ (systemAt numProcs sched k).master.sent.flatten) ?_ t t1 h hm
  intro k hk
  rcases master_step_cases numProcs sched k with e | ⟨p, -, -, e⟩
  · rw [e]; exact hk
  · rw [e]
    simp only [List.flatten_append, List.mem_append]
    exact Or.inl hk

theorem results_lasting (w : Int) (n : Nat) (t t1 : Nat) (h : t ≤ t1)
    (hn : n ≤ (valuesFrom (systemAt numProcs sched t).master.results w).length) :
    n ≤ (valuesFrom (systemAt numProcs sched t1).master.results w).length := by
  refine lasting
    (fun k => n ≤ (valuesFrom (systemAt numProcs sched k).master.results w).length) ?_ t t1 h hn
  intro k hk
  rcases master_step_cases numProcs sched k with e | ⟨p, -, -, e⟩
  · rw [e]; exact hk
  · rw [e]
    simp only [valuesFrom, List.filter_append, List.map_append, List.length_append]
    simp only [valuesFrom] at hk
    omega

theorem done_lasting (t t1 : Nat) (h : t ≤ t1)
    (hd : ¬((systemAt numProcs sched t).master.state.matchesLeft > 0 ∨
      (systemAt numProcs sched t).master.state.activeCount > 0)) :
    ¬((systemAt numProcs sched t1).master.state.matchesLeft > 0 ∨
      (systemAt numProcs sched t1).master.state.activeCount > 0) := by
  refine lasting (fun k => ¬((systemAt numProcs sched k).master.state.matchesLeft > 0 ∨
      (systemAt numProcs sched k).master.state.activeCount > 0)) ?_ t t1 h hd
  intro k hk
  rcases master_step_cases numProcs sched k with e | ⟨p, -, hg, -⟩
  · rw [e]; exact hk
  · exact absurd hg hk

theorem posted_lasting (t t1 : Nat) (h : t ≤ t1)
    (hp : (systemAt numProcs sched t).master.state.requestMatch = true ∧
      ((systemAt numProcs sched t).master.state.requestResult = true ∨
        (systemAt numProcs sched t).master.state.activeCount ≤ 0)) :
    (systemAt numProcs sched t1).master.state.requestMatch = true ∧
      ((systemAt numProcs sched t1).master.state.requestResult = true ∨
        (systemAt numProcs sched t1).master.state.activeCount ≤ 0) := by
  refine lasting (fun k => (systemAt numProcs sched k).master.state.requestMatch = true ∧
      ((systemAt numProcs sched k).master.state.requestResult = true ∨
        (systemAt numProcs sched k).master.state.activeCount ≤ 0)) ?_ t t1 h hp
  intro k hk
  rcases master_step_cases numProcs sched k with e | ⟨p, -, -, e⟩
  · rw [e]; exact hk
  · rw [e]; exact masterIteration_posts numProcs p _

theorem stopped_lasting (w : Int) (t t1 : Nat) (h : t ≤ t1)
    (hs : ((systemAt numProcs sched t).slaves w).state.isActive = 0) :
    ((systemAt numProcs sched t1).slaves w).state.isActive = 0 := by
  refine lasting (fun k => ((systemAt numProcs sched k).slaves w).state.isActive = 0) ?_ t t1 h hs
  intro k hk
  rcases slave_step_cases numProcs sched w k with e | ⟨cat, incoming, -, ha, -⟩
  · rw [e]; exact hk
  · exact absurd hk ha

theorem notice_lasting (w : Int) (m : Msg) (t t1 : Nat) (h : t ≤ t1)
    (hm : m ∈ ((systemAt numProcs sched t).slaves w).sent) :
    m ∈ ((systemAt numProcs sched t1).slaves w).sent := by
  refine lasting (fun k => m ∈ ((systemAt numProcs sched k).slaves w).sent) ?_ t t1 h hm
  intro k hk
  rcases slave_step_cases numProcs sched w k with e | ⟨cat, incoming, -, -, e⟩
  · rw [e]; exact hk
  · rw [e]; exact List.mem_append_left _ hk

theorem listening_lasting (w : Int) (t t1 : Nat) (h : t ≤ t1)
    (hq : ((systemAt numProcs sched t).slaves w).state.isActive = 0 ∨
      ((systemAt numProcs sched t).slaves w).state.request = true) :
    ((systemAt numProcs sched t1).slaves w).state.isActive = 0 ∨
      ((systemAt numProcs sched t1).slaves w).state.request = true := by
  refine lasting (fun k => ((systemAt numProcs sched k).slaves w).state.isActive = 0 ∨
      ((systemAt numProcs sched k).slaves w).state.request = true) ?_ t t1 h hq
  intro k _
  rcases slave_step_cases numProcs sched w k with e | ⟨cat, incoming, -, -, e⟩
  · rw [e]; assumption
  · rw [e]
    obtain ⟨e1, e2⟩ :=
      slaveIteration_state cat incoming ((systemAt numProcs sched k).slaves w).state
    have hfacts := (worker_facts numProcs sched w (k + 1)).1
    rw [e] at hfacts
    simp only [e1, e2] at hfacts ⊢
    rcases hfacts with h0 | h1
    · exact Or.inl h0
    · exact Or.inr (checkMessageFromMaster_posts _ _ (by omega))

end Run

theorem slaveStep_active (r : SlaveRun) (cat : Category) (incoming : Option Int)
    (h : r.state.isActive ≠ 0) :
    slaveStep r (cat, incoming) =
      ⟨(slaveIteration cat incoming r.state).1,
        r.sent ++ (slaveIteration cat incoming r.state).2⟩ := by
  simp [slaveStep, h]

theorem sendResults_length (t : Category → Int) : (sendResults t).length = 10 := rfl

section Liveness

variable (numProcs : Nat) (sched : Nat → Event)

/-- A worker leaves its loop only after the coordinator has sent `TAG_QUIT` to it. -/
theorem stopped_after_quit (hc : Causal numProcs sched) (w : Int) (t : Nat)
    (h : ((systemAt numProcs sched t).slaves w).state.isActive = 0) :
    Msg.quit w ∈ (systemAt numProcs sched t).master.sent.flatten := by
  induction t with
  | zero => simp [systemAt, systemInit, slaveInit] at h
  | succ t ih =>
    rcases slave_step_cases numProcs sched w t with e | ⟨cat, incoming, hev, ha, e⟩
    · rw [e] at h
      exact broadcast_lasting numProcs sched _ t (t + 1) (Nat.le_succ t) (ih h)
    · rw [e] at h
      simp only at h
      rw [(slaveIteration_state cat incoming _).1, (checkMessageFromMaster_spec incoming _).2] at h
      by_cases hq : ((systemAt numProcs sched t).slaves w).state.request = true ∧
          incoming = some TAG_QUIT
      · rw [hq.2] at hev
        exact broadcast_lasting numProcs sched _ t (t + 1) (Nat.le_succ t) (hc.2.2 t w cat hev)
      · rw [if_neg hq] at h
        exact absurd h ha

/-- From some time on, whenever the loop of the coordinator is running its two receives
are posted (the one for final counts while `activeCount > 0`). -/
theorem posted_eventually (hf : Fair numProcs sched) :
    ∃ t0, ∀ t, t0 ≤ t →
      ((systemAt numProcs sched t).master.state.matchesLeft > 0 ∨
        (systemAt numProcs sched t).master.state.activeCount > 0) →
      (systemAt numProcs sched t).master.state.requestMatch = true ∧
        ((systemAt numProcs sched t).master.state.requestResult = true ∨
          (systemAt numProcs sched t).master.state.activeCount ≤ 0) := by
  obtain ⟨t1, -, p, hp⟩ := hf.1 0
  refine ⟨t1 + 1, fun t ht hg => ?_⟩
  have hg1 : (systemAt numProcs sched t1).master.state.matchesLeft > 0 ∨
      (systemAt numProcs sched t1).master.state.activeCount > 0 := by
    by_contra hd
    exact done_lasting numProcs sched t1 t (by omega) hd hg
  have e := (systemAt_succ_master numProcs sched t1 p hp).1
  rw [masterStep_guard numProcs _ p hg1] at e
  apply posted_lasting numProcs sched (t1 + 1) t ht
  rw [e]
  exact masterIteration_posts numProcs p _

/-- From some time on, a worker that is still in its loop has its receive posted. -/
theorem listening_eventually (hf : Fair numProcs sched) (w : Int)
    (hw : w ∈ workerRanks numProcs) :
    ∃ t0, ∀ t, t0 ≤ t →
      ((systemAt numProcs sched t).slaves w).state.isActive = 0 ∨
        ((systemAt numProcs sched t).slaves w).state.request = true := by
  obtain ⟨t1, -, incoming, hev⟩ := hf.2.1 w hw .NoPair 0
  refine ⟨t1 + 1, fun t ht => listening_lasting numProcs sched w (t1 + 1) t ht ?_⟩
  by_cases ha : ((systemAt numProcs sched t1).slaves w).state.isActive = 0
  · exact Or.inl (stopped_lasting numProcs sched w t1 (t1 + 1) (Nat.le_succ _) ha)
  · have e := (systemAt_succ_slave numProcs sched t1 w .NoPair incoming hev).2.1
    rw [slaveStep_active _ _ _ ha] at e
    obtain ⟨e1, e2⟩ :=
      slaveIteration_state .NoPair incoming ((systemAt numProcs sched t1).slaves w).state
    have hfacts := (worker_facts numProcs sched w (t1 + 1)).1
    rw [e] at hfacts ⊢
    simp only [e1, e2] at hfacts ⊢
    rcases hfacts with h0 | h1
    · exact Or.inl h0
    · exact Or.inr (checkMessageFromMaster_posts _ _ (by omega))

/-- Every category is discovered: its label is taken in by the coordinator at some time. -/
theorem discovered_eventually (hn : 2 ≤ numProcs) (hc : Causal numProcs sched)
    (hf : Fair numProcs sched) (c : Category) :
    ∃ t, label c ∈ (systemAt numProcs sched t).master.taken := by
  by_contra hno
  push_neg at hno
  have h1 : (1 : Int) ∈ workerRanks numProcs :=
    (mem_workerRanks numProcs 1).mpr ⟨le_refl _, by omega⟩
  -- the loop of the coordinator is running at all times
  have hrun : ∀ t, (systemAt numProcs sched t).master.state.matchesLeft > 0 ∨
      (systemAt numProcs sched t).master.state.activeCount > 0 := by
    intro t
    by_contra hd
    obtain ⟨f1, f2, -, -⟩ := coordinator_facts numProcs sched hc t
    have hle := card_le_ten _ f1
    exact hno t (all_labels_of_card _ f1 (by omega) c)
  -- worker 1 is in its loop at all times
  have hact : ∀ t, ((systemAt numProcs sched t).slaves 1).state.isActive ≠ 0 := by
    intro t h0
    have hq := stopped_after_quit numProcs sched hc 1 t h0
    obtain ⟨f1, -, f3, -⟩ := coordinator_facts numProcs sched hc t
    by_cases hcard : (systemAt numProcs sched t).master.taken.toFinset.card = 10
    · exact hno t (all_labels_of_card _ f1 hcard c)
    · rw [f3, if_neg hcard] at hq
      simp at hq
  -- it draws a hand of the category, counts it and sends the notice
  obtain ⟨t1, -, incoming, hev⟩ := hf.2.1 1 h1 c 0
  have hsent : Msg.data 0 (label c) ∈ ((systemAt numProcs sched (t1 + 1)).slaves 1).sent := by
    have e := (systemAt_succ_slave numProcs sched t1 1 c incoming hev).2.1
    rw [slaveStep_active _ _ _ (hact t1)] at e
    have ha := hact (t1 + 1)
    rw [e] at ha
    simp only [(slaveIteration_state _ _ _).1] at ha
    have g1 := (slaveIteration_active c incoming _ ha).1
    have hcount := (worker_facts numProcs sched 1 (t1 + 1)).2.2.1 c
    have h0 := (worker_facts numProcs sched 1 t1).2.1 c
    rw [e] at hcount ⊢
    have hpos : 1 ≤ ((systemAt numProcs sched t1).slaves 1).state.frequencyMap c + 1 := by
      omega
    simp only [g1, Function.update_same, hpos, if_true] at hcount
    exact List.count_pos_iff.mp (lt_of_lt_of_eq Nat.one_pos hcount.symm)
  -- a later pass of the coordinator finds it while the receive is posted
  obtain ⟨t0, hposted⟩ := posted_eventually numProcs sched hf
  obtain ⟨t2, ht2, p, hp, hin⟩ := hf.2.2.1 1 h1 c (max (t1 + 1) t0)
    (notice_lasting numProcs sched 1 _ (t1 + 1) _ (le_max_left _ _) hsent) (hno _)
  have hreq := (hposted t2 (le_trans (le_max_right _ _) ht2) (hrun t2)).1
  have e := (systemAt_succ_master numProcs sched t2 p hp).1
  rw [masterStep_guard numProcs _ p (hrun t2)] at e
  apply hno (t2 + 1)
  rw [e]
  simp [noticeTaken, hreq, hin]

/-- A worker to which `TAG_QUIT` has been sent leaves its loop. -/
theorem stopped_eventually (hf : Fair numProcs sched) (w : Int)
    (hw : w ∈ workerRanks numProcs) (t : Nat)
    (hq : Msg.quit w ∈ (systemAt numProcs sched t).master.sent.flatten) :
    ∃ t1, ((systemAt numProcs sched t1).slaves w).state.isActive = 0 := by
  by_contra hno
  push_neg at hno
  obtain ⟨t0, hlisten⟩ := listening_eventually numProcs sched hf w hw
  obtain ⟨t2, ht2, cat, hev⟩ := hf.2.2.2.1 w hw (max t t0)
    (broadcast_lasting numProcs sched _ t _ (le_max_left _ _) hq) (hno _)
  have hreq := (hlisten t2 (le_trans (le_max_right _ _) ht2)).resolve_left (hno t2)
  have h1 := ((worker_facts numProcs sched w t2).1).resolve_left (hno t2)
  have e := (systemAt_succ_slave numProcs sched t2 w cat (some TAG_QUIT) hev).2.1
  rw [slaveStep_active _ _ _ (hno t2)] at e
  apply hno (t2 + 1)
  rw [e]
  simp only
  rw [(slaveIteration_state _ _ _).1, (checkMessageFromMaster_spec _ _).2, if_pos ⟨hreq, rfl⟩, h1]
  rfl

/-- While a worker is not done, `activeCount` is positive. -/
theorem active_while_missing (hc : Causal numProcs sched) (w : Int)
    (hw : w ∈ workerRanks numProcs) (t : Nat)
    (h : (valuesFrom (systemAt numProcs sched t).master.results w).length < 10) :
    (systemAt numProcs sched t).master.state.activeCount > 0 := by
  obtain ⟨-, -, -, f4⟩ := coordinator_facts numProcs sched hc t
  have hlt : workersDone numProcs (systemAt numProcs sched t).master.results <
      (workerRanks numProcs).length := by
    unfold workersDone
    apply List.length_filter_lt_length_iff_exists.mpr
    exact ⟨w, hw, by simpa using h⟩
  rw [workerRanks_length] at hlt
  omega

/-- The ten final counts of a worker that has left its loop are taken in. -/
theorem counted_eventually (hc : Causal numProcs sched) (hf : Fair numProcs sched) (w : Int)
    (hw : w ∈ workerRanks numProcs) (ts : Nat)
    (hs : ((systemAt numProcs sched ts).slaves w).state.isActive = 0) :
    ∃ t, 10 ≤ (valuesFrom (systemAt numProcs sched t).master.results w).length := by
  obtain ⟨t0, hposted⟩ := posted_eventually numProcs sched hf
  have key : ∀ d t, max ts t0 ≤ t →
      10 ≤ (valuesFrom (systemAt numProcs sched t).master.results w).length + d →
      ∃ t1, 10 ≤ (valuesFrom (systemAt numProcs sched t1).master.results w).length := by
    intro d
    induction d with
    | zero => intro t _ h; exact ⟨t, h⟩
    | succ d ih =>
      intro t ht h
      by_cases hdone : 10 ≤ (valuesFrom (systemAt numProcs sched t).master.results w).length
      · exact ⟨t, hdone⟩
      obtain ⟨t2, ht2, p, v, hp, hin⟩ := hf.2.2.2.2 w hw t
        (stopped_lasting numProcs sched w ts t (le_trans (le_max_left _ _) ht) hs)
        (by rw [sendResults_length]; omega)
      by_cases hdone2 : 10 ≤ (valuesFrom (systemAt numProcs sched t2).master.results w).length
      · exact ⟨t2, hdone2⟩
      have hactive := active_while_missing numProcs sched hc w hw t2 (by omega)
      have hreq := ((hposted t2 (le_trans (le_trans (le_max_right _ _) ht) ht2)
        (Or.inr hactive)).2).resolve_right (by omega)
      have e := (systemAt_succ_master numProcs sched t2 p hp).1
      rw [masterStep_guard numProcs _ p (Or.inr hactive)] at e
      have hmono := results_lasting numProcs sched w _ t t2 ht2 (le_refl _)
      apply ih (t2 + 1) (by omega)
      rw [e]
      simp only [resultTaken, hreq, if_true, hin, Option.toList, valuesFrom_snoc, if_true,
        List.length_append, List.length_singleton]
      omega
  exact key 10 (max ts t0) (le_refl _) (by omega)

end Liveness

/-! ### The sample run -/

theorem sample_notices (c : Category) :
    Msg.data 0 (label c) ∈ ((systemAt 2 sampleSchedule 10).slaves 1).sent := by
  cases c <;> decide

theorem sample_quit : Msg.quit 1 ∈ (systemAt 2 sampleSchedule 21).master.sent.flatten := by
  decide

theorem sample_stopped : ((systemAt 2 sampleSchedule 22).slaves 1).state.isActive = 0 := by
  decide

set_option maxRecDepth 8000 in
theorem sample_counted :
    10 ≤ (valuesFrom (systemAt 2 sampleSchedule 32).master.results 1).length := by
  decide

theorem sample_taken (c : Category) :
    label c ∈ (systemAt 2 sampleSchedule (12 + sendSlot c)).master.taken := by
  cases c <;> decide

theorem mem_workerRanks_two (w : Int) (hw : w ∈ workerRanks 2) : w = 1 := by
  have := (mem_workerRanks 2 w).mp hw
  omega

theorem allCategories_slot (c : Category) : allCategories.getD (sendSlot c) .NoPair = c := by
  cases c <;> rfl

theorem sendSlot_lt (c : Category) : sendSlot c < 10 := by
  cases c <;> decide

/-- In the sample run the transport hands over only what was sent. -/
theorem sampleSchedule_causal : Causal 2 sampleSchedule := by
  refine ⟨?_, ?_, ?_⟩
  · intro t p text hev hin
    unfold sampleSchedule at hev
    split_ifs at hev with h1 h2 h3 h4 h5 h6
    · injection hev with e; subst e; simp at hin
    · injection hev with e; subst e
      simp only [Option.some.injEq] at hin
      subst hin
      exact ⟨1, by decide,
        notice_lasting 2 sampleSchedule 1 _ 10 t (by omega) (sample_notices _)⟩
    · injection hev with e; subst e; simp at hin
    · injection hev with e; subst e; simp at hin
  · intro t p v w hev hin
    unfold sampleSchedule at hev
    split_ifs at hev with h1 h2 h3 h4 h5 h6
    · injection hev with e; subst e; simp at hin
    · injection hev with e; subst e; simp at hin
    · injection hev with e; subst e
      simp only [Option.some.injEq, Prod.mk.injEq] at hin
      obtain ⟨-, rfl⟩ := hin
      exact ⟨by decide, stopped_lasting 2 sampleSchedule 1 22 t (by omega) sample_stopped⟩
    · injection hev with e; subst e; simp at hin
  · intro t w cat hev
    unfold sampleSchedule at hev
    split_ifs at hev with h1 h2 h3 h4 h5 h6
    · injection hev with _ _ e; simp at e
    · injection hev with e1 _ _
      subst e1 h4
      exact sample_quit
    · injection hev with _ _ e; simp at e

theorem sampleSchedule_master (t : Nat) (h : 32 ≤ t) (he : t % 2 = 0) :
    sampleSchedule t = .master ⟨none, none⟩ := by
  unfold sampleSchedule
  rw [if_neg (by omega), if_neg (by omega), if_neg (by omega), if_neg (by omega),
    if_neg (by omega), if_pos he]

theorem sampleSchedule_slave (t : Nat) (h : 32 ≤ t) (he : t % 2 = 1) :
    sampleSchedule t = .slave 1 (allCategories.getD (t / 2 % 10) .NoPair) none := by
  unfold sampleSchedule
  rw [if_neg (by omega), if_neg (by omega), if_neg (by omega), if_neg (by omega),
    if_neg (by omega), if_neg (by omega)]

theorem sampleSchedule_notice (c : Category) :
    sampleSchedule (11 + sendSlot c) = .master ⟨some (label c), none⟩ := by
  cases c <;> rfl

/-- In the sample run every category is drawn again and again and no message is lost. -/
theorem sampleSchedule_fair : Fair 2 sampleSchedule := by
  refine ⟨?_, ?_, ?_, ?_, ?_⟩
  · intro t
    exact ⟨2 * (t + 16), by omega, _, sampleSchedule_master _ (by omega) (by omega)⟩
  · intro w hw cat t
    have hw1 := mem_workerRanks_two w hw
    subst hw1
    have hs := sendSlot_lt cat
    refine ⟨2 * (10 * (t + 2) + sendSlot cat) + 1, by omega, none, ?_⟩
    rw [sampleSchedule_slave _ (by omega) (by omega)]
    have hidx : (2 * (10 * (t + 2) + sendSlot cat) + 1) / 2 % 10 = sendSlot cat := by omega
    rw [hidx, allCategories_slot]
  · intro w hw cat t _ hnot
    by_cases ht : t ≤ 11 + sendSlot cat
    · exact ⟨11 + sendSlot cat, ht, _, sampleSchedule_notice cat, rfl⟩
    · exact absurd (taken_lasting 2 sampleSchedule _ (12 + sendSlot cat) t (by omega)
        (sample_taken cat)) hnot
  · intro w hw t _ hact
    have hw1 := mem_workerRanks_two w hw
    subst hw1
    by_cases ht : t ≤ 21
    · exact ⟨21, ht, .NoPair, rfl⟩
    · exact absurd (stopped_lasting 2 sampleSchedule 1 22 t (by omega) sample_stopped) hact
  · intro w hw t _ hlt
    have hw1 := mem_workerRanks_two w hw
    subst hw1
    by_cases ht : t ≤ 31
    · exact ⟨31, ht, _, 1, rfl, rfl⟩
    · have := results_lasting 2 sampleSchedule 1 10 32 t (by omega) sample_counted
      rw [sendResults_length] at hlt
      omega

/-- C24: termination liveness.  In every run of the coordinator and at least one worker in
which the transport hands over only what was sent (`Causal`), the workers always eventually
produce hands of every category and no message that was sent is lost for good (`Fair`),
there is a time from which on the loop condition of `processMaster` is false: all ten
labels have been taken in, the broadcast of `TAG_QUIT` has been sent, every worker has left
its loop and ten final counts of it have been taken in, and `activeCount` is 0. -/
theorem coordinator_terminates (numProcs : Nat) (hn : 2 ≤ numProcs) (sched : Nat → Event)
    (hc : Causal numProcs sched) (hf : Fair numProcs sched) :
    ∃ T, ∀ t, T ≤ t →
      ¬((systemAt numProcs sched t).master.state.matchesLeft > 0 ∨
        (systemAt numProcs sched t).master.state.activeCount > 0) ∧
      (∀ c, label c ∈ (systemAt numProcs sched t).master.taken) ∧
      (systemAt numProcs sched t).master.sent.flatten = terminateSlaves numProcs ∧
      (∀ w ∈ workerRanks numProcs,
        ((systemAt numProcs sched t).slaves w).state.isActive = 0 ∧
          10 ≤ (valuesFrom (systemAt numProcs sched t).master.results w).length) ∧
      (systemAt numProcs sched t).master.state.activeCount = 0 := by
  -- all ten categories are discovered
  obtain ⟨TA, hTA⟩ := eventually_all allCategories
    (fun c t => label c ∈ (systemAt numProcs sched t).master.taken)
    (fun c t t1 h hx => taken_lasting numProcs sched _ t t1 h hx)
    (fun c _ => discovered_eventually numProcs sched hn hc hf c)
  have hall : ∀ t, TA ≤ t → ∀ c, label c ∈ (systemAt numProcs sched t).master.taken :=
    fun t ht c => taken_lasting numProcs sched _ TA t ht (hTA c (mem_allCategories c))
  have hcard : ∀ t, TA ≤ t → (systemAt numProcs sched t).master.taken.toFinset.card = 10 :=
    fun t ht => card_of_all_labels _ (coordinator_facts numProcs sched hc t).1 (hall t ht)
  -- so the broadcast is sent
  have hsent : ∀ t, TA ≤ t →
      (systemAt numProcs sched t).master.sent.flatten = terminateSlaves numProcs := by
    intro t ht
    rw [(coordinator_facts numProcs sched hc t).2.2.1, if_pos (hcard t ht)]
  -- every worker stops and its ten counts are taken in
  obtain ⟨TW, hTW⟩ := eventually_all (workerRanks numProcs)
    (fun w t => ((systemAt numProcs sched t).slaves w).state.isActive = 0 ∧
      10 ≤ (valuesFrom (systemAt numProcs sched t).master.results w).length)
    (fun w t t1 h hx => ⟨stopped_lasting numProcs sched w t t1 h hx.1,
      results_lasting numProcs sched w 10 t t1 h hx.2⟩)
    (by
      intro w hw
      have hq : Msg.quit w ∈ (systemAt numProcs sched TA).master.sent.flatten := by
        rw [hsent TA (le_refl _)]
        exact List.mem_map.mpr ⟨w, hw, rfl⟩
      obtain ⟨ts, hs⟩ := stopped_eventually numProcs sched hf w hw TA hq
      obtain ⟨tr, hr⟩ := counted_eventually numProcs sched hc hf w hw ts hs
      exact ⟨max ts tr, stopped_lasting numProcs sched w ts _ (le_max_left _ _) hs,
        results_lasting numProcs sched w 10 tr _ (le_max_right _ _) hr⟩)
  refine ⟨max TA TW, fun t ht => ?_⟩
  have htA : TA ≤ t := le_trans (le_max_left _ _) ht
  have htW : TW ≤ t := le_trans (le_max_right _ _) ht
  have hworkers : ∀ w ∈ workerRanks numProcs,
      ((systemAt numProcs sched t).slaves w).state.isActive = 0 ∧
        10 ≤ (valuesFrom (systemAt numProcs sched t).master.results w).length :=
    fun w hw => ⟨stopped_lasting numProcs sched w TW t htW (hTW w hw).1,
      results_lasting numProcs sched w 10 TW t htW (hTW w hw).2⟩
  obtain ⟨-, f2, -, f4⟩ := coordinator_facts numProcs sched hc t
  have hdone : workersDone numProcs (systemAt numProcs sched t).master.results =
      numProcs - 1 := by
    unfold workersDone
    rw [List.filter_eq_self.mpr, workerRanks_length]
    intro w hw
    simpa using (hworkers w hw).2
  have hc10 := hcard t htA
  have hactive : (systemAt numProcs sched t).master.state.activeCount = 0 := by
    rw [f4, hdone]; omega
  have hleft : (systemAt numProcs sched t).master.state.matchesLeft = 0 := by
    rw [f2, hc10]; rfl
  exact ⟨by rw [hleft, hactive]; simp, hall t htA, hsent t htA, hworkers, hactive⟩

/-- C24 at the sample run of the coordinator and one worker. -/
theorem coordinator_terminates_witness :
    2 ≤ 2 ∧ Causal 2 sampleSchedule ∧ Fair 2 sampleSchedule ∧
      ∃ T, ∀ t, T ≤ t →
        ¬((systemAt 2 sampleSchedule t).master.state.matchesLeft > 0 ∨
          (systemAt 2 sampleSchedule t).master.state.activeCount > 0) ∧
        (∀ c, label c ∈ (systemAt 2 sampleSchedule t).master.taken) ∧
        (systemAt 2 sampleSchedule t).master.sent.flatten = terminateSlaves 2 ∧
        (∀ w ∈ workerRanks 2,
          ((systemAt 2 sampleSchedule t).slaves w).state.isActive = 0 ∧
            10 ≤ (valuesFrom (systemAt 2 sampleSchedule t).master.results w).length) ∧
        (systemAt 2 sampleSchedule t).master.state.activeCount = 0 :=
  ⟨le_refl _, sampleSchedule_causal, sampleSchedule_fair,
    coordinator_terminates 2 (le_refl _) sampleSchedule sampleSchedule_causal sampleSchedule_fair⟩

end PokerHands
